import Mathlib

/-!
# depman `install` package: the recursive installer

A shallow embedding of `src/install/install.go` (`Install`, `recursiveInstall`,
`duplicate`) and theorems about it.

Conventions of the embedding:

* A Go `map[string]string` is an association list with at most one pair per key;
  `mapGet` is the comma-ok lookup and `mapSet` is the assignment `m[k] = v`.
* A Go `error` is an `Option String` (`none` is `nil`).
* `range deps.Map` visits the entries in an order chosen by the runtime; a
  `DependencyMap` therefore lists its entries in the order the loop visits them,
  and "every iteration order" is "every such list".
* The packages `dep`, `util`, `timelock` and `result` are not part of the source
  under study. Their calls are answered by a `Collab` value, whose answers may
  depend on everything that happened before (the trace of earlier events).
* Console output (`util.Print`, `util.PrintDep`, `util.VerboseIndent`, the indent
  level) and the wall clock (`time.Now`, `time.Since`) do not influence control
  flow and are not modelled, except for the last line `duplicate` hands to
  `util.Fatal`.
* Every call made by `recursiveInstall` is appended to a trace, together with the
  answer it received.
* Nested manifests may nest without bound, so `recursiveInstall` takes a bound on
  the nesting depth and reports `Run.outOfFuel` when the bound is exhausted.
-/

namespace Depman

/-! ## Data model -/

/-- Modelled from the spec: the type `dep.Dependency` is declared outside
`install.go`. The fields `Repo` and `Version` are the ones the source reads; `Path`
stands for the result of the method `d.Path()` (the install path) and `VCS` for the
kind of version control behind the interface value `d.VCS`. -/
structure Dependency where
  Repo : String
  Version : String
  Path : String
  VCS : String
deriving DecidableEq, Repr

/-- Modelled from the spec: `dep.DependencyMap`, of which the source only uses the
field `Map`, a map from dependency name to dependency. The list is in the order in
which `range` visits the entries. -/
structure DependencyMap where
  Map : List (String × Dependency)
deriving DecidableEq, Repr

/-- The `set` argument, a `map[string]string` from repository to version. -/
abbrev VisitedSet := List (String × String)

/-- Lookup `set[k]` in its comma-ok form: `none` when the key is absent. -/
def mapGet (set : VisitedSet) (k : String) : Option String :=
  List.lookup k set

/-- Assignment `set[k] = v`: the binding of `k` is replaced or added. -/
def mapSet (set : VisitedSet) (k v : String) : VisitedSet :=
  (k, v) :: set.filter (fun p => p.1 != k)

/-- The keys of a visited set. -/
def mapKeys (set : VisitedSet) : List String :=
  set.map Prod.fst

/-- Every binding of `s` is a binding of `t`. -/
def SubMap (s t : VisitedSet) : Prop :=
  ∀ k v, mapGet s k = some v → mapGet t k = some v

/-- Result of a call that may end the process through `util.Fatal`. -/
inductive Res (α : Type) where
  | ret (a : α)
  | exit (msg : String)
deriving DecidableEq, Repr

/-- Modelled from the spec: `util.Fatal`, which is not in `install.go`. It prints
its message and ends the process, so the caller never gets a value back and nothing
runs after it (spec, section 7: the fatal conflict path stops the program
immediately; the comment above `duplicate` says "if same name and different
version, exit"). -/
@[reducible] def utilFatal {α : Type} (msg : String) : Res α :=
  Res.exit msg

/-- Source `duplicate` (install.go, lines 100-117). The result pairs what the call
returns (`ret skip`, or `exit` when `util.Fatal` is reached) with the map as the
call leaves it. -/
def duplicate (d : Dependency) (set : VisitedSet) : Res Bool × VisitedSet :=
  let version := (mapGet set d.Repo).getD ""
  let installed := (mapGet set d.Repo).isSome
  if installed && version != d.Version then
    (utilFatal ("Versions : " ++ d.Version ++ "\t" ++ version), set)
  else if installed then
    (Res.ret true, set)
  else
    (Res.ret false, mapSet set d.Repo d.Version)

/-! ## Calls, answers and traces -/

/-- The five operations of the `d.VCS` interface that `recursiveInstall` calls. -/
inductive Step where
  | Clone
  | Clean
  | Fetch
  | Checkout
  | Update
deriving DecidableEq, Repr

/-- One call made by `recursiveInstall`, with the dependency it is made for and
the answer received. -/
inductive Event where
  /-- Call `duplicate(*d, set)`; `set` is the visited set as it is at the call. -/
  | dup (d : Dependency) (set : VisitedSet)
  /-- Call `timelock.IsStale(d.Repo)` and its answer. -/
  | isStale (d : Dependency) (stale : Bool)
  /-- Call of a method of `d.VCS` and the error it returned. -/
  | vcs (s : Step) (d : Dependency) (err : Option String)
  /-- Call `util.Cd(subPath)`. -/
  | cd (d : Dependency)
  /-- Call `util.UpwardFind(subPath, dep.DepsFile)` and the path returned. -/
  | upwardFind (d : Dependency) (depsFile : String)
  /-- Call `dep.Read(depsFile)` and whether it succeeded. -/
  | read (d : Dependency) (depsFile : String) (ok : Bool)
  /-- Call `result.RegisterError()`. -/
  | registerError (d : Dependency)
deriving DecidableEq, Repr

/-- The collaborators of `recursiveInstall`. Each answer may depend on the trace
of everything that happened before the call. -/
structure Collab where
  IsStale : List Event → String → Bool
  Clone : List Event → Dependency → Option String
  Clean : List Event → Dependency → Option String
  Fetch : List Event → Dependency → Option String
  Checkout : List Event → Dependency → Option String
  Update : List Event → Dependency → Option String
  UpwardFind : List Event → String → String
  Read : List Event → String → Except String DependencyMap

/-- The mutable state of a run: the visited set, the trace of calls made so far
and the number of calls of `result.RegisterError`. -/
structure St where
  set : VisitedSet
  trace : List Event
  errors : Nat
deriving DecidableEq, Repr

/-- Append an event to the trace. -/
def St.log (st : St) (e : Event) : St :=
  { st with trace := st.trace ++ [e] }

/-- How a run of `recursiveInstall` ends. -/
inductive Run where
  /-- The function returned `err`. -/
  | done (err : Option String) (st : St)
  /-- The process was ended by `util.Fatal` with the given last line. -/
  | fatal (msg : String) (st : St)
  /-- The nesting bound was exhausted; `st` is the state reached. -/
  | outOfFuel (st : St)
deriving DecidableEq, Repr

/-- The state in which a run ended. -/
def Run.st : Run → St
  | Run.done _ st => st
  | Run.fatal _ st => st
  | Run.outOfFuel st => st

/-! ## The installer -/

/-- Lines 45-79 of `recursiveInstall`: the version-control steps for one admitted
dependency. Returns the value of `err`, whether line 81 was reached (no `continue`
was taken) and the state. -/
def lifecycle (c : Collab) (clean : Bool) (d : Dependency) (st : St) :
    Option String × Bool × St :=
  let stale := c.IsStale st.trace d.Repo
  let st := st.log (Event.isStale d stale)
  let err := c.Clone st.trace d
  let st := st.log (Event.vcs Step.Clone d err)
  if err.isSome then (err, false, st) else
  let st := st.log (Event.cd d)
  let st := if clean then st.log (Event.vcs Step.Clean d (c.Clean st.trace d)) else st
  let fetched : Option String × St :=
    if stale then
      let e := c.Fetch st.trace d
      (e, st.log (Event.vcs Step.Fetch d e))
    else (err, st)
  let err := fetched.1
  let st := fetched.2
  if err.isSome then (err, false, st) else
  let err := c.Checkout st.trace d
  let st := st.log (Event.vcs Step.Checkout d err)
  if err.isSome then (err, false, st) else
  if stale then
    let err := c.Update st.trace d
    let st := st.log (Event.vcs Step.Update d err)
    if err.isSome then (err, false, st) else (err, true, st)
  else (err, true, st)

/-- Lines 84-90 of `recursiveInstall`: the search for a nested manifest and its
reading. Returns the manifest to recurse into, if any, and the state. -/
def findNested (c : Collab) (Recurse : Bool) (d : Dependency) (st : St) :
    Option DependencyMap × St :=
  let depsFile := c.UpwardFind st.trace d.Path
  let st := st.log (Event.upwardFind d depsFile)
  if depsFile != "" && Recurse then
    match c.Read st.trace depsFile with
    | Except.error _ =>
      let st := st.log (Event.read d depsFile false)
      (none, { st.log (Event.registerError d) with errors := st.errors + 1 })
    | Except.ok subDeps => (some subDeps, st.log (Event.read d depsFile true))
  else (none, st)

/-- Lines 45-90 of `recursiveInstall`: everything the loop body does for an
admitted dependency before the recursive call. Returns the value of `err`, the
nested manifest to recurse into (if any) and the state. -/
def visit (c : Collab) (clean Recurse : Bool) (d : Dependency) (st : St) :
    Option String × Option DependencyMap × St :=
  match lifecycle c clean d st with
  | (err, false, st) => (err, none, st)
  | (err, true, st) =>
    match findNested c Recurse d st with
    | (sub, st) => (err, sub, st)

/-- The `for` loop of `recursiveInstall` (lines 38-96) over the entries still to
visit; `err` is the current value of the named result and `recurse` stands for the
recursive call of line 92, whose returned error is dropped. -/
def installLoop (c : Collab) (clean Recurse : Bool) (recurse : DependencyMap → St → Run) :
    List (String × Dependency) → Option String → St → Run
  | [], err, st => Run.done err st
  | (_, d) :: rest, err, st =>
    let st := st.log (Event.dup d st.set)
    match duplicate d st.set with
    | (Res.exit msg, set) => Run.fatal msg { st with set := set }
    | (Res.ret true, set) => installLoop c clean Recurse recurse rest err { st with set := set }
    | (Res.ret false, set) =>
      match visit c clean Recurse d { st with set := set } with
      | (err, none, st) => installLoop c clean Recurse recurse rest err st
      | (err, some subDeps, st) =>
        match recurse subDeps st with
        | Run.done _ st => installLoop c clean Recurse recurse rest err st
        | Run.fatal msg st => Run.fatal msg st
        | Run.outOfFuel st => Run.outOfFuel st

/-- Source `recursiveInstall` (lines 37-98). `clean` and `Recurse` are the two
package variables; the first argument bounds the nesting depth of the manifests. -/
def recursiveInstall (c : Collab) (clean Recurse : Bool) :
    Nat → DependencyMap → St → Run
  | 0, _, st => Run.outOfFuel st
  | fuel + 1, deps, st =>
    installLoop c clean Recurse (recursiveInstall c clean Recurse fuel) deps.Map none st

/-- Source `Install` (lines 30-34): a fresh visited set, then `recursiveInstall`. -/
def Install (c : Collab) (clean Recurse : Bool) (fuel : Nat) (deps : DependencyMap) : Run :=
  recursiveInstall c clean Recurse fuel deps { set := [], trace := [], errors := 0 }

/-! ## Reading traces -/

/-- The dependency an event is about. -/
def Event.dep : Event → Dependency
  | Event.dup d _ => d
  | Event.isStale d _ => d
  | Event.vcs _ d _ => d
  | Event.cd d => d
  | Event.upwardFind d _ => d
  | Event.read d _ _ => d
  | Event.registerError d => d

/-- Whether an event is a call of `duplicate`. -/
def Event.isDup : Event → Bool
  | Event.dup _ _ => true
  | _ => false

/-- Whether an event is the staleness query for `d`. -/
def Event.isStaleOf (d : Dependency) : Event → Bool
  | Event.isStale d1 _ => d1 = d
  | _ => false

/-- Whether an event is the step `s` of the version control of `d`. -/
def Event.isVcsOf (s : Step) (d : Dependency) : Event → Bool
  | Event.vcs s1 d1 _ => s1 = s && d1 = d
  | _ => false

/-- Whether an event is the change of directory for `d`. -/
def Event.isCdOf (d : Dependency) : Event → Bool
  | Event.cd d1 => d1 = d
  | _ => false

/-- Whether an event is the search of a nested manifest for `d`. -/
def Event.isFindOf (d : Dependency) : Event → Bool
  | Event.upwardFind d1 _ => d1 = d
  | _ => false

/-- Whether an event is the reading of the manifest `f` for `d`. -/
def Event.isReadOf (d : Dependency) (f : String) : Event → Bool
  | Event.read d1 f1 _ => d1 = d && f1 = f
  | _ => false

/-- Whether an event is the registration of a read error for `d`. -/
def Event.isRegOf (d : Dependency) : Event → Bool
  | Event.registerError d1 => d1 = d
  | _ => false

/-- Whether an event is a step among Clone, Fetch, Checkout and Update that
returned an error. -/
def Event.isFailedStep : Event → Bool
  | Event.vcs s _ err => s != Step.Clean && err.isSome
  | _ => false

/-- The control flow of the loop body, as a relation between an event and the
event that may come right after it in a trace. -/
def follows (clean Recurse : Bool) (e1 e2 : Event) : Bool :=
  match e1 with
  | Event.dup d s =>
    match (duplicate d s).1 with
    | Res.exit _ => false
    | Res.ret true => e2.isDup
    | Res.ret false => e2.isStaleOf d
  | Event.isStale d _ => e2.isVcsOf Step.Clone d
  | Event.vcs Step.Clone d err => if err.isSome then e2.isDup else e2.isCdOf d
  | Event.cd d =>
    if clean then e2.isVcsOf Step.Clean d
    else e2.isVcsOf Step.Fetch d || e2.isVcsOf Step.Checkout d
  | Event.vcs Step.Clean d _ => e2.isVcsOf Step.Fetch d || e2.isVcsOf Step.Checkout d
  | Event.vcs Step.Fetch d err => if err.isSome then e2.isDup else e2.isVcsOf Step.Checkout d
  | Event.vcs Step.Checkout d err =>
    if err.isSome then e2.isDup else e2.isVcsOf Step.Update d || e2.isFindOf d
  | Event.vcs Step.Update d err => if err.isSome then e2.isDup else e2.isFindOf d
  | Event.upwardFind d f => if f != "" && Recurse then e2.isReadOf d f else e2.isDup
  | Event.read d _ ok => if ok then e2.isDup else e2.isRegOf d
  | Event.registerError _ => e2.isDup

/-- An event after which the loop may go on to its next entry: every call of
`duplicate` may follow it. -/
def Event.resumes (clean Recurse : Bool) (e : Event) : Prop :=
  ∀ e2 : Event, e2.isDup = true → follows clean Recurse e e2 = true

/-- The events `lifecycle` appends to the trace. -/
def lifecycleEvents (c : Collab) (clean : Bool) (d : Dependency) (st : St) : List Event :=
  (lifecycle c clean d st).2.2.trace.drop st.trace.length

/-- The events `findNested` appends to the trace. -/
def findEvents (c : Collab) (Recurse : Bool) (d : Dependency) (st : St) : List Event :=
  (findNested c Recurse d st).2.trace.drop st.trace.length

/-- The events `visit` appends to the trace. -/
def visitEvents (c : Collab) (clean Recurse : Bool) (d : Dependency) (st : St) : List Event :=
  (visit c clean Recurse d st).2.2.trace.drop st.trace.length

/-- The events of one run of `lifecycle`, as a function of the answer `stale` of
`timelock.IsStale` and of the errors `a1 .. a5` that Clone, Clean, Fetch, Checkout
and Update return if they are called. -/
def lifeShape (clean : Bool) (d : Dependency) (stale : Bool)
    (a1 a2 a3 a4 a5 : Option String) : List Event :=
  Event.isStale d stale :: Event.vcs Step.Clone d a1 ::
    (if a1.isSome then [] else
      Event.cd d :: ((if clean then [Event.vcs Step.Clean d a2] else []) ++
        (if stale then
          Event.vcs Step.Fetch d a3 ::
            (if a3.isSome then [] else
              Event.vcs Step.Checkout d a4 ::
                (if a4.isSome then [] else [Event.vcs Step.Update d a5]))
        else [Event.vcs Step.Checkout d a4])))

/-- Whether a run of `lifecycle` with the given answers reaches line 81. -/
def lifeOk (stale : Bool) (a1 a3 a4 a5 : Option String) : Bool :=
  a1.isNone && (if stale then a3.isNone && a4.isNone && a5.isNone else a4.isNone)

/-- The events of one run of `findNested`, as a function of the path `f` returned
by `util.UpwardFind` and of whether `dep.Read`, if called, succeeds. -/
def findShape (Recurse : Bool) (d : Dependency) (f : String) (ok : Bool) : List Event :=
  Event.upwardFind d f ::
    (if f != "" && Recurse then
      Event.read d f ok :: (if ok then [] else [Event.registerError d])
    else [])

/-- The events of one run of `visit`: those of `lifecycle`, followed by those of
`findNested` when line 81 is reached. -/
def visitShape (clean Recurse : Bool) (d : Dependency) (stale : Bool)
    (a1 a2 a3 a4 a5 : Option String) (f : String) (ok : Bool) : List Event :=
  lifeShape clean d stale a1 a2 a3 a4 a5 ++
    (if lifeOk stale a1 a3 a4 a5 then findShape Recurse d f ok else [])

/-- The state after the call of `duplicate` for `d` has been logged and has left
the visited set `set`. -/
def St.afterDup (st : St) (d : Dependency) (set : VisitedSet) : St :=
  { set := set, trace := st.trace ++ [Event.dup d st.set], errors := st.errors }

/-- Big-step description of the loop of `recursiveInstall`: `Walk l err st new r`
says that walking the entries `l` from state `st` appends the events `new` and ends
as `r`. -/
inductive Walk (c : Collab) (clean Recurse : Bool) :
    List (String × Dependency) → Option String → St → List Event → Run → Prop
  | nil (err : Option String) (st : St) : Walk c clean Recurse [] err st [] (Run.done err st)
  | conflict (n : String) (d : Dependency) (rest : List (String × Dependency))
      (err : Option String) (st : St) (msg : String) (set : VisitedSet)
      (hd : duplicate d st.set = (Res.exit msg, set)) :
      Walk c clean Recurse ((n, d) :: rest) err st [Event.dup d st.set]
        (Run.fatal msg (st.afterDup d set))
  | skip (n : String) (d : Dependency) (rest : List (String × Dependency))
      (err : Option String) (st : St) (set : VisitedSet) (new : List Event) (r : Run)
      (hd : duplicate d st.set = (Res.ret true, set))
      (hr : Walk c clean Recurse rest err (st.afterDup d set) new r) :
      Walk c clean Recurse ((n, d) :: rest) err st (Event.dup d st.set :: new) r
  | leaf (n : String) (d : Dependency) (rest : List (String × Dependency))
      (err : Option String) (st : St) (set : VisitedSet) (err1 : Option String) (st1 : St)
      (new : List Event) (r : Run)
      (hd : duplicate d st.set = (Res.ret false, set))
      (hv : visit c clean Recurse d (st.afterDup d set) = (err1, none, st1))
      (hr : Walk c clean Recurse rest err1 st1 new r) :
      Walk c clean Recurse ((n, d) :: rest) err st
        (Event.dup d st.set :: (visitEvents c clean Recurse d (st.afterDup d set) ++ new)) r
  | cut (n : String) (d : Dependency) (rest : List (String × Dependency))
      (err : Option String) (st : St) (set : VisitedSet) (err1 : Option String) (st1 : St)
      (sub : DependencyMap)
      (hd : duplicate d st.set = (Res.ret false, set))
      (hv : visit c clean Recurse d (st.afterDup d set) = (err1, some sub, st1)) :
      Walk c clean Recurse ((n, d) :: rest) err st
        (Event.dup d st.set :: visitEvents c clean Recurse d (st.afterDup d set))
        (Run.outOfFuel st1)
  | nested (n : String) (d : Dependency) (rest : List (String × Dependency))
      (err : Option String) (st : St) (set : VisitedSet) (err1 : Option String) (st1 : St)
      (sub : DependencyMap) (new1 : List Event) (err2 : Option String) (st2 : St)
      (new : List Event) (r : Run)
      (hd : duplicate d st.set = (Res.ret false, set))
      (hv : visit c clean Recurse d (st.afterDup d set) = (err1, some sub, st1))
      (hn : Walk c clean Recurse sub.Map none st1 new1 (Run.done err2 st2))
      (hr : Walk c clean Recurse rest err1 st2 new r) :
      Walk c clean Recurse ((n, d) :: rest) err st
        (Event.dup d st.set :: (visitEvents c clean Recurse d (st.afterDup d set) ++ (new1 ++ new))) r
  | nestedFatal (n : String) (d : Dependency) (rest : List (String × Dependency))
      (err : Option String) (st : St) (set : VisitedSet) (err1 : Option String) (st1 : St)
      (sub : DependencyMap) (new1 : List Event) (msg : String) (st2 : St)
      (hd : duplicate d st.set = (Res.ret false, set))
      (hv : visit c clean Recurse d (st.afterDup d set) = (err1, some sub, st1))
      (hn : Walk c clean Recurse sub.Map none st1 new1 (Run.fatal msg st2)) :
      Walk c clean Recurse ((n, d) :: rest) err st
        (Event.dup d st.set :: (visitEvents c clean Recurse d (st.afterDup d set) ++ new1))
        (Run.fatal msg st2)
  | nestedCut (n : String) (d : Dependency) (rest : List (String × Dependency))
      (err : Option String) (st : St) (set : VisitedSet) (err1 : Option String) (st1 : St)
      (sub : DependencyMap) (new1 : List Event) (st2 : St)
      (hd : duplicate d st.set = (Res.ret false, set))
      (hv : visit c clean Recurse d (st.afterDup d set) = (err1, some sub, st1))
      (hn : Walk c clean Recurse sub.Map none st1 new1 (Run.outOfFuel st2)) :
      Walk c clean Recurse ((n, d) :: rest) err st
        (Event.dup d st.set :: (visitEvents c clean Recurse d (st.afterDup d set) ++ new1))
        (Run.outOfFuel st2)


/-- How the events `new` of a walk end, given how the walk ended: after a normal
return the last event lets the loop go on; after `util.Fatal` it is the call of
`duplicate` that reached it; when the nesting bound is exhausted it is the
successful reading of a nested manifest. -/
def EndsAs (clean Recurse : Bool) (new : List Event) : Run → Prop
  | Run.done _ _ => ∀ e ∈ new.getLast?, e.resumes clean Recurse
  | Run.fatal _ _ => ∃ d s msg, new.getLast? = some (Event.dup d s) ∧
      (duplicate d s).1 = Res.exit msg
  | Run.outOfFuel _ => ∃ d f, new.getLast? = some (Event.read d f true)

/-- The successive values of the visited set that a trace records: for every call
of `duplicate`, the set at the call and the set the call leaves. Nothing else
writes to the set, so between two calls it keeps the value the earlier one left. -/
def setHistory : List Event → List VisitedSet
  | [] => []
  | Event.dup d s :: l => s :: (duplicate d s).2 :: setHistory l
  | Event.isStale _ _ :: l => setHistory l
  | Event.vcs _ _ _ :: l => setHistory l
  | Event.cd _ :: l => setHistory l
  | Event.upwardFind _ _ :: l => setHistory l
  | Event.read _ _ _ :: l => setHistory l
  | Event.registerError _ :: l => setHistory l

/-- The sets `H` lie, in order, between `s0` and `s1` for the inclusion of
bindings. -/
def MonoHist (s0 : VisitedSet) (H : List VisitedSet) (s1 : VisitedSet) : Prop :=
  SubMap s0 s1 ∧ (∀ x ∈ H, SubMap s0 x ∧ SubMap x s1) ∧ List.Pairwise SubMap H

/-- The events of a trace that are made for the repository `R`, the calls of
`duplicate` left out. -/
def ownEvents (R : String) (l : List Event) : List Event :=
  l.filter (fun e => !e.isDup && e.dep.Repo == R)

/-- The list `l` is what one run of `visit` appends for a dependency of
repository `R`. -/
def IsBlock (c : Collab) (clean Recurse : Bool) (R : String) (l : List Event) : Prop :=
  ∃ d st, d.Repo = R ∧ l = visitEvents c clean Recurse d st

/-- Between a visited set `s0` and a later one `s1`, the events `new` hold one
visit for `R` if `R` was added in between, and no event for `R` otherwise. -/
def ProjOK (c : Collab) (clean Recurse : Bool) (s0 s1 : VisitedSet) (new : List Event)
    (R : String) : Prop :=
  (mapGet s0 R = none ∧ mapGet s1 R ≠ none → IsBlock c clean Recurse R (ownEvents R new)) ∧
  (¬(mapGet s0 R = none ∧ mapGet s1 R ≠ none) → ownEvents R new = [])

/-- The version-control steps that a trace records for the repository `R`, in the
order in which they were called. -/
def stepsFor (R : String) (l : List Event) : List Step :=
  l.filterMap (fun e =>
    match e with
    | Event.vcs s d _ => if d.Repo = R then some s else none
    | _ => none)

/-- The events that `recursiveInstall` appends to the trace of `st`. -/
def newEvents (c : Collab) (clean Recurse : Bool) (fuel : Nat) (deps : DependencyMap)
    (st : St) : List Event :=
  (recursiveInstall c clean Recurse fuel deps st).st.trace.drop st.trace.length

/-- How many times Clone was called for the repository `R` in a trace. -/
def cloneCount (R : String) (l : List Event) : Nat :=
  (stepsFor R l).count Step.Clone

/-! ## Concrete worlds for the examples -/

/-- The state in which `Install` starts. -/
def st0 : St := { set := [], trace := [], errors := 0 }

/-- A dependency on repository `a`, version `v1`. -/
def exA : Dependency := ⟨"github.com/x/a", "v1", "src/a", "git"⟩

/-- A world in which every repository is stale, every step succeeds and no
dependency has a nested manifest. -/
def exOk : Collab where
  IsStale := fun _ _ => true
  Clone := fun _ _ => none
  Clean := fun _ _ => none
  Fetch := fun _ _ => none
  Checkout := fun _ _ => none
  Update := fun _ _ => none
  UpwardFind := fun _ _ => ""
  Read := fun _ _ => Except.error "no manifest"

/-- A dependency on repository `b`, version `v1`. -/
def exB : Dependency := ⟨"github.com/x/b", "v1", "src/b", "git"⟩

/-- A dependency on repository `a` again, at version `v2`. -/
def exA2 : Dependency := ⟨"github.com/x/a", "v2", "src/a", "git"⟩

/-- A world given by the answer of `timelock.IsStale`, the error of every
version-control step and the manifest files that exist: `util.UpwardFind` finds
`deps.json` in the install path when that file exists, and `dep.Read` returns its
content. The answers do not depend on the past. -/
def exWorld (stale : Bool) (fail : Step → Dependency → Option String)
    (files : List (String × DependencyMap)) : Collab where
  IsStale := fun _ _ => stale
  Clone := fun _ d => fail Step.Clone d
  Clean := fun _ d => fail Step.Clean d
  Fetch := fun _ d => fail Step.Fetch d
  Checkout := fun _ d => fail Step.Checkout d
  Update := fun _ d => fail Step.Update d
  UpwardFind := fun _ p =>
    if (files.lookup (p ++ "/deps.json")).isSome then p ++ "/deps.json" else ""
  Read := fun _ f =>
    match files.lookup f with
    | some m => Except.ok m
    | none => Except.error "cannot read"

/-- No step fails. -/
def exNoFail : Step → Dependency → Option String := fun _ _ => none

/-- Clean fails for every dependency, the other steps succeed. -/
def exCleanFails : Step → Dependency → Option String :=
  fun s _ => if s = Step.Clean then some "clean failed" else none

/-- Clone fails for repository `b`, every other step succeeds. -/
def exCloneFailsB : Step → Dependency → Option String :=
  fun s d => if s = Step.Clone ∧ d.Repo = "github.com/x/b" then some "clone failed" else none

/-- Fetch fails for repository `a`, every other step succeeds. -/
def exFetchFailsA : Step → Dependency → Option String :=
  fun s d => if s = Step.Fetch ∧ d.Repo = "github.com/x/a" then some "fetch failed" else none

/-! ## Dependency graphs -/

/-- A dependency graph: for a repository and a version, the entries of the manifest
nested in that repository at that version (none when it has no manifest). -/
abbrev Graph := String → String → List Dependency

/-- The entries that can be reached from the top-level manifest `top` through the
nested manifests of the graph `G`. -/
inductive Reach (G : Graph) (top : DependencyMap) : Dependency → Prop
  | top (n : String) (d : Dependency) (h : (n, d) ∈ top.Map) : Reach G top d
  | step (d e : Dependency) (hd : Reach G top d) (he : e ∈ G d.Repo d.Version) : Reach G top e

/-- The world `c` shows the graph `G` below `top`: Clone, Fetch, Checkout and
Update always succeed, and for every reachable entry either no nested manifest is
found and the graph has none, or one is found and reading it yields, in some
order, the entries the graph gives for the repository and version of the entry. -/
structure Faithful (c : Collab) (G : Graph) (top : DependencyMap) : Prop where
  clone : ∀ h d, c.Clone h d = none
  fetch : ∀ h d, c.Fetch h d = none
  checkout : ∀ h d, c.Checkout h d = none
  update : ∀ h d, c.Update h d = none
  nested : ∀ h h1 d, Reach G top d →
    (c.UpwardFind h d.Path = "" ∧ G d.Repo d.Version = []) ∨
    (c.UpwardFind h d.Path ≠ "" ∧
      ∃ sub, c.Read h1 (c.UpwardFind h d.Path) = Except.ok sub ∧
        ∀ e, e ∈ sub.Map.map Prod.snd ↔ e ∈ G d.Repo d.Version)

/-- Whether a run stopped because the nesting bound was exhausted. -/
def Run.isOut : Run → Bool
  | Run.outOfFuel _ => true
  | _ => false

/-- The repositories of `U` that are not yet in the visited set. -/
def missing (U : List String) (s : VisitedSet) : Finset String :=
  U.toFinset.filter (fun R => mapGet s R = none)

/-- Every entry of `l` is in the visited set `s` with its own version. -/
def Covers (s : VisitedSet) (l : List Dependency) : Prop :=
  ∀ e ∈ l, mapGet s e.Repo = some e.Version

/-- Every repository added between `s0` and `s1` has all the entries of its nested
manifest in `s1`, each with its own version. -/
def ClosedFrom (G : Graph) (s0 s1 : VisitedSet) : Prop :=
  ∀ R v, mapGet s0 R = none → mapGet s1 R = some v → Covers s1 (G R v)

/-- The graph of the example: repository `b` at `v1` nests a manifest that asks
for repository `a` at `v2`. -/
def exGraph : Graph :=
  fun R v => if R = "github.com/x/b" ∧ v = "v1" then [exA2] else []

/-- The dependency `exA` under another install path and another kind of version
control. -/
def exAalt : Dependency := ⟨"github.com/x/a", "v1", "vendor/a", "hg"⟩

/-- Whether an event is a call of `dep.Read`. -/
def Event.isRead : Event → Bool
  | Event.read _ _ _ => true
  | _ => false

/-- A world in which every step succeeds, a manifest file is found for every
dependency, and reading it always fails. -/
def exBadRead : Collab where
  IsStale := fun _ _ => false
  Clone := fun _ _ => none
  Clean := fun _ _ => none
  Fetch := fun _ _ => none
  Checkout := fun _ _ => none
  Update := fun _ _ => none
  UpwardFind := fun _ p => p ++ "/deps.json"
  Read := fun _ _ => Except.error "bad manifest"

/-- Whether an event is a successful call of `dep.Read`. -/
def Event.isReadOk : Event → Bool
  | Event.read _ _ ok => ok
  | _ => false

/-- The manifest file an event is about, for the events that have one. -/
def Event.file : Event → String
  | Event.read _ f _ => f
  | Event.upwardFind _ f => f
  | _ => ""

/-- Every manifest read with success in the events `l`, which happen after the
trace `tr`, has each of its entries handed to `duplicate` later in `l`. The
manifest is the one `dep.Read` answered at that point of the trace. -/
def Presented (c : Collab) : List Event → List Event → Prop
  | _, [] => True
  | tr, e :: rest =>
    (e.isReadOk = true →
      ∀ sub, c.Read tr e.file = Except.ok sub → ∀ x ∈ sub.Map, ∃ s, Event.dup x.2 s ∈ rest) ∧
    Presented c (tr ++ [e]) rest

/-- The number of recursive calls a trace records: line 92 is reached exactly when
`dep.Read` has succeeded. -/
def recursiveCalls (l : List Event) : Nat :=
  (l.filter Event.isReadOk).length

/-- A world with a cycle: the manifest nested in `a` asks for `b` and the manifest
nested in `b` asks for `a`. -/
def exCycle : Collab :=
  exWorld false exNoFail
    [("src/a/deps.json", ⟨[("b", exB)]⟩), ("src/b/deps.json", ⟨[("a", exA)]⟩)]

/-- The error an event carries when it is a failed Clone, Fetch, Checkout or
Update. -/
def Event.failure : Event → Option String
  | Event.vcs s _ err => if s = Step.Clean then none else err
  | _ => none

/-- The error of the first failed step among Clone, Fetch, Checkout and Update in
a list of events; nil when none of them failed. -/
def firstFailure (l : List Event) : Option String :=
  l.findSome? Event.failure

/-- The value of `err` after a run of `lifecycle` with the given answers. -/
def lifeErr (stale : Bool) (a1 a3 a4 a5 : Option String) : Option String :=
  if a1.isSome then a1
  else if stale then (if a3.isSome then a3 else if a4.isSome then a4 else a5)
  else a4

/-- A dependency on repository `c`, version `v1`. -/
def exC : Dependency := ⟨"github.com/x/c", "v1", "src/c", "git"⟩

/-- A world in which the manifest nested in `a` asks for `b`, and nothing fails. -/
def exNestB : Collab :=
  exWorld false exNoFail [("src/a/deps.json", ⟨[("b", exB)]⟩)]

/-! # Theorems -/

/-! ## The visited set as a map -/

theorem mapGet_filter_ne (s : VisitedSet) (k k' : String) (h : k' ≠ k) :
    mapGet (s.filter (fun p => p.1 != k)) k' = mapGet s k' := by
  induction s with
  | nil => rfl
  | cons p s ih =>
    obtain ⟨a, b⟩ := p
    unfold mapGet at ih ⊢
    by_cases hak : a = k
    · subst hak
      have h1 : (k' == a) = false := by simpa using h
      simp [List.filter_cons, List.lookup_cons, h1, ih]
    · have h2 : (a != k) = true := by simpa using hak
      simp only [List.filter_cons, h2, if_true, List.lookup_cons, ih]

theorem mapGet_mapSet_self (s : VisitedSet) (k v : String) :
    mapGet (mapSet s k v) k = some v := by
  simp [mapGet, mapSet, List.lookup_cons]

theorem mapGet_mapSet_ne (s : VisitedSet) (k v k' : String) (h : k' ≠ k) :
    mapGet (mapSet s k v) k' = mapGet s k' := by
  have h1 : (k' == k) = false := by simpa using h
  have := mapGet_filter_ne s k k' h
  unfold mapGet at this ⊢
  simp [mapSet, List.lookup_cons, h1, this]

theorem mapGet_mapSet (s : VisitedSet) (k v k' : String) :
    mapGet (mapSet s k v) k' = if k' = k then some v else mapGet s k' := by
  by_cases h : k' = k
  · subst h; simp [mapGet_mapSet_self]
  · simp [h, mapGet_mapSet_ne s k v k' h]

theorem mapGet_eq_none_iff (s : VisitedSet) (k : String) :
    mapGet s k = none ↔ k ∉ mapKeys s := by
  induction s with
  | nil => simp [mapGet, mapKeys]
  | cons p s ih =>
    obtain ⟨a, b⟩ := p
    unfold mapGet mapKeys at ih ⊢
    by_cases hak : k = a
    · subst hak; simp [List.lookup_cons]
    · have h1 : (k == a) = false := by simpa using hak
      simp [List.lookup_cons, h1, ih, hak]

theorem mapSet_of_absent (s : VisitedSet) (k v : String) (h : mapGet s k = none) :
    mapSet s k v = (k, v) :: s := by
  have hk : k ∉ mapKeys s := (mapGet_eq_none_iff s k).1 h
  unfold mapSet
  congr 1
  apply List.filter_eq_self.2
  intro p hp
  have : p.1 ≠ k := by
    intro hpk
    apply hk
    unfold mapKeys
    exact List.mem_map.2 ⟨p, hp, hpk⟩
  simpa using this

theorem SubMap.refl (s : VisitedSet) : SubMap s s := fun _ _ h => h

theorem SubMap.trans {s t u : VisitedSet} (h1 : SubMap s t) (h2 : SubMap t u) : SubMap s u :=
  fun k v h => h2 k v (h1 k v h)

/-! ## The three cases of `duplicate` -/

theorem duplicate_fresh (d : Dependency) (s : VisitedSet) (h : mapGet s d.Repo = none) :
    duplicate d s = (Res.ret false, mapSet s d.Repo d.Version) := by
  simp [duplicate, h]

theorem duplicate_skip (d : Dependency) (s : VisitedSet)
    (h : mapGet s d.Repo = some d.Version) :
    duplicate d s = (Res.ret true, s) := by
  simp [duplicate, h]

theorem duplicate_conflict (d : Dependency) (s : VisitedSet) (v : String)
    (h : mapGet s d.Repo = some v) (hv : v ≠ d.Version) :
    duplicate d s = (Res.exit ("Versions : " ++ d.Version ++ "\t" ++ v), s) := by
  simp [duplicate, h, hv]

theorem duplicate_subMap (d : Dependency) (s : VisitedSet) : SubMap s (duplicate d s).2 := by
  intro k v hk
  cases h : mapGet s d.Repo with
  | none =>
    rw [duplicate_fresh d s h]
    have : k ≠ d.Repo := by
      rintro rfl
      rw [h] at hk
      cases hk
    simpa [mapGet_mapSet_ne s d.Repo d.Version k this] using hk
  | some w =>
    by_cases hw : w = d.Version
    · subst hw; rw [duplicate_skip d s h]; exact hk
    · rw [duplicate_conflict d s w h hw]; exact hk

/-! ## Claims about `duplicate` -/

/-- C1: when `d.Repo` is not a key of the visited set, `duplicate` returns
`skip = false` without reaching `util.Fatal`, and the set afterwards is the set
before with the single binding `d.Repo -> d.Version` added: that key now maps to
`d.Version`, every other key has the value it had, and the number of bindings grew
by one. -/
theorem duplicate_absent_registers (d : Dependency) (s : VisitedSet)
    (h : mapGet s d.Repo = none) :
    (duplicate d s).1 = Res.ret false ∧
    (∀ k, mapGet (duplicate d s).2 k = if k = d.Repo then some d.Version else mapGet s k) ∧
    (duplicate d s).2.length = s.length + 1 := by
  rw [duplicate_fresh d s h]
  refine ⟨rfl, fun k => mapGet_mapSet s d.Repo d.Version k, ?_⟩
  simp [mapSet_of_absent s d.Repo d.Version h]

theorem duplicate_absent_registers_witness :
    mapGet [("github.com/a/x", "v1")] "github.com/b/y" = none ∧
    (duplicate ⟨"github.com/b/y", "v2", "src/y", "git"⟩ [("github.com/a/x", "v1")]).1
      = Res.ret false :=
  ⟨by decide,
   (duplicate_absent_registers ⟨"github.com/b/y", "v2", "src/y", "git"⟩
      [("github.com/a/x", "v1")] (by decide)).1⟩

/-- C2: `duplicate` reaches `util.Fatal` exactly when the visited set already maps
`d.Repo` to a version string different from `d.Version`; whenever it does, the set
is left as it was. -/
theorem duplicate_fatal_iff (d : Dependency) (s : VisitedSet) :
    ((∃ msg, (duplicate d s).1 = Res.exit msg) ↔
      ∃ v, mapGet s d.Repo = some v ∧ v ≠ d.Version) ∧
    ((∃ msg, (duplicate d s).1 = Res.exit msg) → (duplicate d s).2 = s) := by
  cases h : mapGet s d.Repo with
  | none => simp [duplicate_fresh d s h]
  | some w =>
    by_cases hw : w = d.Version
    · subst hw; simp [duplicate_skip d s h]
    · simp [duplicate_conflict d s w h hw, hw]

/-- C3: `duplicate` returns `skip = true` exactly when the visited set maps
`d.Repo` to a version equal to `d.Version`; whenever it does, the set after the
call is the set before. -/
theorem duplicate_skip_iff (d : Dependency) (s : VisitedSet) :
    ((duplicate d s).1 = Res.ret true ↔ mapGet s d.Repo = some d.Version) ∧
    ((duplicate d s).1 = Res.ret true → (duplicate d s).2 = s) := by
  cases h : mapGet s d.Repo with
  | none => simp [duplicate_fresh d s h]
  | some w =>
    by_cases hw : w = d.Version
    · subst hw; simp [duplicate_skip d s h]
    · simp [duplicate_conflict d s w h hw, hw]

/-! ## The loop as a big-step relation -/

@[simp] theorem St.log_set (st : St) (e : Event) : (st.log e).set = st.set := rfl

@[simp] theorem St.log_trace (st : St) (e : Event) : (st.log e).trace = st.trace ++ [e] := rfl

@[simp] theorem St.log_errors (st : St) (e : Event) : (st.log e).errors = st.errors := rfl

theorem installLoop_walk (c : Collab) (clean Recurse : Bool)
    (recurse : DependencyMap → St → Run)
    (hrec : ∀ sub st, recurse sub st = Run.outOfFuel st ∨
      ∃ new, Walk c clean Recurse sub.Map none st new (recurse sub st))
    (l : List (String × Dependency)) :
    ∀ err st, ∃ new, Walk c clean Recurse l err st new
      (installLoop c clean Recurse recurse l err st) := by
  induction l with
  | nil => intro err st; exact ⟨[], Walk.nil err st⟩
  | cons e rest ih =>
    intro err st
    obtain ⟨n, d⟩ := e
    rcases hd : duplicate d st.set with ⟨res, set⟩
    rcases res with (_ | _) | msg
    · -- a fresh dependency
      rcases hv : visit c clean Recurse d (st.afterDup d set) with ⟨err1, sub, st1⟩
      cases sub with
      | none =>
        have heq : installLoop c clean Recurse recurse ((n, d) :: rest) err st
            = installLoop c clean Recurse recurse rest err1 st1 := by
          have hv1 := hv
          simp only [St.afterDup] at hv1
          simp [installLoop, hd, hv1, St.log_set]
        obtain ⟨new, hw⟩ := ih err1 st1
        rw [heq]
        exact ⟨_, Walk.leaf n d rest err st set err1 st1 new _ hd hv hw⟩
      | some sub =>
        have heq : installLoop c clean Recurse recurse ((n, d) :: rest) err st
            = match recurse sub st1 with
              | Run.done _ st => installLoop c clean Recurse recurse rest err1 st
              | Run.fatal msg st => Run.fatal msg st
              | Run.outOfFuel st => Run.outOfFuel st := by
          have hv1 := hv
          simp only [St.afterDup] at hv1
          simp [installLoop, hd, hv1, St.log_set]
        rw [heq]
        rcases hrec sub st1 with hout | ⟨new1, hw1⟩
        · rw [hout]
          exact ⟨_, Walk.cut n d rest err st set err1 st1 sub hd hv⟩
        · rcases hr : recurse sub st1 with ⟨err2, st2⟩ | ⟨msg, st2⟩ | st2
          · rw [hr] at hw1
            obtain ⟨new, hw⟩ := ih err1 st2
            exact ⟨_, Walk.nested n d rest err st set err1 st1 sub new1 err2 st2 new _ hd hv hw1 hw⟩
          · rw [hr] at hw1
            exact ⟨_, Walk.nestedFatal n d rest err st set err1 st1 sub new1 msg st2 hd hv hw1⟩
          · rw [hr] at hw1
            exact ⟨_, Walk.nestedCut n d rest err st set err1 st1 sub new1 st2 hd hv hw1⟩
    · -- a dependency seen before with the same version
      have heq : installLoop c clean Recurse recurse ((n, d) :: rest) err st
          = installLoop c clean Recurse recurse rest err (st.afterDup d set) := by
        simp [installLoop, hd, St.afterDup, St.log_set]
      obtain ⟨new, hw⟩ := ih err (st.afterDup d set)
      rw [heq]
      exact ⟨_, Walk.skip n d rest err st set new _ hd hw⟩
    · -- a dependency seen before with another version
      have heq : installLoop c clean Recurse recurse ((n, d) :: rest) err st
          = Run.fatal msg (st.afterDup d set) := by
        simp [installLoop, hd, St.afterDup, St.log_set]
      rw [heq]
      exact ⟨_, Walk.conflict n d rest err st msg set hd⟩

theorem recursiveInstall_walk (c : Collab) (clean Recurse : Bool) (fuel : Nat) :
    ∀ deps st, recursiveInstall c clean Recurse fuel deps st = Run.outOfFuel st ∨
      ∃ new, Walk c clean Recurse deps.Map none st new
        (recursiveInstall c clean Recurse fuel deps st) := by
  induction fuel with
  | zero => intro deps st; left; rfl
  | succ fuel ih =>
    intro deps st
    right
    exact installLoop_walk c clean Recurse _ ih deps.Map none st


/-! ## What one visit appends to the trace -/

theorem lifecycle_set (c : Collab) (clean : Bool) (d : Dependency) (st : St) :
    (lifecycle c clean d st).2.2.set = st.set := by
  simp only [lifecycle, St.log]
  split_ifs <;> simp

theorem lifecycle_errors (c : Collab) (clean : Bool) (d : Dependency) (st : St) :
    (lifecycle c clean d st).2.2.errors = st.errors := by
  simp only [lifecycle, St.log]
  split_ifs <;> simp

theorem lifecycle_trace (c : Collab) (clean : Bool) (d : Dependency) (st : St) :
    (lifecycle c clean d st).2.2.trace = st.trace ++ lifecycleEvents c clean d st := by
  simp only [lifecycleEvents, lifecycle, St.log]
  split_ifs <;> simp

theorem findNested_set (c : Collab) (Recurse : Bool) (d : Dependency) (st : St) :
    (findNested c Recurse d st).2.set = st.set := by
  simp only [findNested, St.log]
  split_ifs
  · split <;> rfl
  · rfl

theorem findNested_trace (c : Collab) (Recurse : Bool) (d : Dependency) (st : St) :
    (findNested c Recurse d st).2.trace = st.trace ++ findEvents c Recurse d st := by
  simp only [findEvents, findNested, St.log]
  split_ifs
  · split <;> simp
  · simp

theorem visit_eq (c : Collab) (clean Recurse : Bool) (d : Dependency) (st : St) :
    visit c clean Recurse d st =
      if (lifecycle c clean d st).2.1 then
        ((lifecycle c clean d st).1, (findNested c Recurse d (lifecycle c clean d st).2.2).1,
          (findNested c Recurse d (lifecycle c clean d st).2.2).2)
      else ((lifecycle c clean d st).1, none, (lifecycle c clean d st).2.2) := by
  unfold visit
  rcases lifecycle c clean d st with ⟨err, ok, st1⟩
  cases ok <;> simp

theorem visit_set (c : Collab) (clean Recurse : Bool) (d : Dependency) (st : St) :
    (visit c clean Recurse d st).2.2.set = st.set := by
  rw [visit_eq]
  split_ifs <;> simp [findNested_set, lifecycle_set]

theorem visitEvents_eq (c : Collab) (clean Recurse : Bool) (d : Dependency) (st : St) :
    visitEvents c clean Recurse d st =
      lifecycleEvents c clean d st ++
        (if (lifecycle c clean d st).2.1 then
          findEvents c Recurse d (lifecycle c clean d st).2.2 else []) := by
  unfold visitEvents
  rw [visit_eq]
  split_ifs
  · simp only [findNested_trace, lifecycle_trace, List.append_assoc, List.drop_left]
  · simp only [lifecycle_trace, List.drop_left, List.append_nil]

theorem visit_trace (c : Collab) (clean Recurse : Bool) (d : Dependency) (st : St) :
    (visit c clean Recurse d st).2.2.trace = st.trace ++ visitEvents c clean Recurse d st := by
  rw [visitEvents_eq, visit_eq]
  split_ifs
  · simp only [findNested_trace, lifecycle_trace, List.append_assoc]
  · simp only [lifecycle_trace, List.append_nil]

theorem lifecycle_shape (c : Collab) (clean : Bool) (d : Dependency) (st : St) :
    ∃ a1 a2 a3 a4 a5,
      lifecycleEvents c clean d st
        = lifeShape clean d (c.IsStale st.trace d.Repo) a1 a2 a3 a4 a5 ∧
      (lifecycle c clean d st).2.1 = lifeOk (c.IsStale st.trace d.Repo) a1 a3 a4 a5 := by
  let stale := c.IsStale st.trace d.Repo
  let t1 := st.trace ++ [Event.isStale d stale]
  let a1 := c.Clone t1 d
  let t2 := t1 ++ [Event.vcs Step.Clone d a1, Event.cd d]
  let a2 := c.Clean t2 d
  let t3 := if clean then t2 ++ [Event.vcs Step.Clean d a2] else t2
  let a3 := c.Fetch t3 d
  let t4 := if stale then t3 ++ [Event.vcs Step.Fetch d a3] else t3
  let a4 := c.Checkout t4 d
  let t5 := t4 ++ [Event.vcs Step.Checkout d a4]
  let a5 := c.Update t5 d
  refine ⟨a1, a2, a3, a4, a5, ?_⟩
  simp only [lifecycleEvents, lifecycle, St.log, lifeShape, lifeOk, a1, a2, a3, a4, a5, t1, t2,
    t3, t4, t5, stale]
  split_ifs <;> simp_all [Option.isSome_iff_ne_none]

theorem findNested_shape (c : Collab) (Recurse : Bool) (d : Dependency) (st : St) :
    ∃ f ok, findEvents c Recurse d st = findShape Recurse d f ok ∧
      (findNested c Recurse d st).1.isSome = ((f != "" && Recurse) && ok) := by
  refine ⟨c.UpwardFind st.trace d.Path, ?_⟩
  simp only [findEvents, findNested, St.log, findShape]
  split_ifs with h
  · cases hr : c.Read (st.trace ++ [Event.upwardFind d (c.UpwardFind st.trace d.Path)])
      (c.UpwardFind st.trace d.Path) with
    | error e => exact ⟨false, by simp⟩
    | ok sub => exact ⟨true, by simp [h]⟩
  · refine ⟨true, by simp, ?_⟩
    simp only [Bool.not_eq_true] at h
    simp [h]

/-! ### The control-flow relation on single events -/

@[simp] theorem follows_dup (clean Recurse : Bool) (d : Dependency) (s : VisitedSet)
    (e2 : Event) :
    follows clean Recurse (Event.dup d s) e2 =
      match (duplicate d s).1 with
      | Res.exit _ => false
      | Res.ret true => e2.isDup
      | Res.ret false => e2.isStaleOf d := rfl

@[simp] theorem follows_isStale (clean Recurse : Bool) (d : Dependency) (b : Bool)
    (e2 : Event) :
    follows clean Recurse (Event.isStale d b) e2 = e2.isVcsOf Step.Clone d := rfl

@[simp] theorem follows_clone (clean Recurse : Bool) (d : Dependency) (err : Option String)
    (e2 : Event) :
    follows clean Recurse (Event.vcs Step.Clone d err) e2 =
      if err.isSome then e2.isDup else e2.isCdOf d := rfl

@[simp] theorem follows_cd (clean Recurse : Bool) (d : Dependency) (e2 : Event) :
    follows clean Recurse (Event.cd d) e2 =
      if clean then e2.isVcsOf Step.Clean d
      else e2.isVcsOf Step.Fetch d || e2.isVcsOf Step.Checkout d := rfl

@[simp] theorem follows_clean (clean Recurse : Bool) (d : Dependency) (err : Option String)
    (e2 : Event) :
    follows clean Recurse (Event.vcs Step.Clean d err) e2 =
      (e2.isVcsOf Step.Fetch d || e2.isVcsOf Step.Checkout d) := rfl

@[simp] theorem follows_fetch (clean Recurse : Bool) (d : Dependency) (err : Option String)
    (e2 : Event) :
    follows clean Recurse (Event.vcs Step.Fetch d err) e2 =
      if err.isSome then e2.isDup else e2.isVcsOf Step.Checkout d := rfl

@[simp] theorem follows_checkout (clean Recurse : Bool) (d : Dependency) (err : Option String)
    (e2 : Event) :
    follows clean Recurse (Event.vcs Step.Checkout d err) e2 =
      if err.isSome then e2.isDup else e2.isVcsOf Step.Update d || e2.isFindOf d := rfl

@[simp] theorem follows_update (clean Recurse : Bool) (d : Dependency) (err : Option String)
    (e2 : Event) :
    follows clean Recurse (Event.vcs Step.Update d err) e2 =
      if err.isSome then e2.isDup else e2.isFindOf d := rfl

@[simp] theorem follows_upwardFind (clean Recurse : Bool) (d : Dependency) (f : String)
    (e2 : Event) :
    follows clean Recurse (Event.upwardFind d f) e2 =
      if f != "" && Recurse then e2.isReadOf d f else e2.isDup := rfl

@[simp] theorem follows_read (clean Recurse : Bool) (d : Dependency) (f : String) (ok : Bool)
    (e2 : Event) :
    follows clean Recurse (Event.read d f ok) e2 = if ok then e2.isDup else e2.isRegOf d := rfl

@[simp] theorem follows_registerError (clean Recurse : Bool) (d : Dependency) (e2 : Event) :
    follows clean Recurse (Event.registerError d) e2 = e2.isDup := rfl

@[simp] theorem isVcsOf_vcs (s : Step) (d : Dependency) (err : Option String) :
    (Event.vcs s d err).isVcsOf s d = true := by simp [Event.isVcsOf]

@[simp] theorem isCdOf_cd (d : Dependency) : (Event.cd d).isCdOf d = true := by
  simp [Event.isCdOf]

@[simp] theorem isStaleOf_isStale (d : Dependency) (b : Bool) :
    (Event.isStale d b).isStaleOf d = true := by simp [Event.isStaleOf]

@[simp] theorem isFindOf_upwardFind (d : Dependency) (f : String) :
    (Event.upwardFind d f).isFindOf d = true := by simp [Event.isFindOf]

@[simp] theorem isReadOf_read (d : Dependency) (f : String) (ok : Bool) :
    (Event.read d f ok).isReadOf d f = true := by simp [Event.isReadOf]

@[simp] theorem isRegOf_registerError (d : Dependency) :
    (Event.registerError d).isRegOf d = true := by simp [Event.isRegOf]

/-! ### Properties of the shapes -/

theorem lifeShape_dep (clean : Bool) (d : Dependency) (stale : Bool)
    (a1 a2 a3 a4 a5 : Option String) :
    ∀ e ∈ lifeShape clean d stale a1 a2 a3 a4 a5, e.dep = d ∧ e.isDup = false := by
  unfold lifeShape
  split_ifs <;> simp [Event.dep, Event.isDup]

theorem findShape_dep (Recurse : Bool) (d : Dependency) (f : String) (ok : Bool) :
    ∀ e ∈ findShape Recurse d f ok, e.dep = d ∧ e.isDup = false := by
  unfold findShape
  split_ifs <;> simp [Event.dep, Event.isDup]

theorem lifeShape_chain (clean Recurse : Bool) (d : Dependency) (stale : Bool)
    (a1 a2 a3 a4 a5 : Option String) :
    List.Chain' (fun a b => follows clean Recurse a b = true)
      (lifeShape clean d stale a1 a2 a3 a4 a5) := by
  unfold lifeShape
  split_ifs <;> simp [*]

theorem visit_shape (c : Collab) (clean Recurse : Bool) (d : Dependency) (st : St) :
    ∃ a1 a2 a3 a4 a5 f ok,
      visitEvents c clean Recurse d st
        = visitShape clean Recurse d (c.IsStale st.trace d.Repo) a1 a2 a3 a4 a5 f ok ∧
      (visit c clean Recurse d st).2.1.isSome
        = (lifeOk (c.IsStale st.trace d.Repo) a1 a3 a4 a5 && ((f != "" && Recurse) && ok)) := by
  obtain ⟨a1, a2, a3, a4, a5, hl, hok⟩ := lifecycle_shape c clean d st
  obtain ⟨f, ok, hf, hsub⟩ := findNested_shape c Recurse d (lifecycle c clean d st).2.2
  refine ⟨a1, a2, a3, a4, a5, f, ok, ?_, ?_⟩
  · rw [visitEvents_eq, hl, hok, hf, visitShape]
  · rw [visit_eq, ← hok]
    split_ifs with h
    · simp [hsub, h]
    · simp [h]

theorem visitShape_dep (clean Recurse : Bool) (d : Dependency) (stale : Bool)
    (a1 a2 a3 a4 a5 : Option String) (f : String) (ok : Bool) :
    ∀ e ∈ visitShape clean Recurse d stale a1 a2 a3 a4 a5 f ok,
      e.dep = d ∧ e.isDup = false := by
  intro e he
  unfold visitShape at he
  rcases List.mem_append.1 he with h | h
  · exact lifeShape_dep clean d stale a1 a2 a3 a4 a5 e h
  · split_ifs at h
    · exact findShape_dep Recurse d f ok e h
    · cases h

theorem visitShape_chain (clean Recurse : Bool) (d : Dependency) (stale : Bool)
    (a1 a2 a3 a4 a5 : Option String) (f : String) (ok : Bool) :
    List.Chain' (fun a b => follows clean Recurse a b = true)
      (visitShape clean Recurse d stale a1 a2 a3 a4 a5 f ok) := by
  unfold visitShape lifeShape lifeOk findShape
  split_ifs <;> simp_all

theorem visitShape_head (clean Recurse : Bool) (d : Dependency) (stale : Bool)
    (a1 a2 a3 a4 a5 : Option String) (f : String) (ok : Bool) :
    (visitShape clean Recurse d stale a1 a2 a3 a4 a5 f ok).head? = some (Event.isStale d stale) := by
  simp [visitShape, lifeShape]

theorem visitShape_last (clean Recurse : Bool) (d : Dependency) (stale : Bool)
    (a1 a2 a3 a4 a5 : Option String) (f : String) (ok : Bool) :
    ∃ e, (visitShape clean Recurse d stale a1 a2 a3 a4 a5 f ok).getLast? = some e ∧
      e.resumes clean Recurse ∧
      ((lifeOk stale a1 a3 a4 a5 && ((f != "" && Recurse) && ok)) = true →
        e = Event.read d f true) := by
  unfold visitShape lifeShape lifeOk findShape Event.resumes
  split_ifs <;> simp_all [Option.isSome_iff_ne_none] <;> tauto

/-! ## Invariants of a walk -/

theorem visit_result {c : Collab} {clean Recurse : Bool} {d : Dependency} {st st1 : St}
    {err1 : Option String} {sub : Option DependencyMap}
    (hv : visit c clean Recurse d st = (err1, sub, st1)) :
    st1.set = st.set ∧ st1.trace = st.trace ++ visitEvents c clean Recurse d st := by
  have h1 := visit_set c clean Recurse d st
  have h2 := visit_trace c clean Recurse d st
  rw [hv] at h1 h2
  exact ⟨h1, h2⟩

theorem Walk.trace_eq {c : Collab} {clean Recurse : Bool} {l : List (String × Dependency)}
    {err : Option String} {st : St} {new : List Event} {r : Run}
    (h : Walk c clean Recurse l err st new r) : r.st.trace = st.trace ++ new := by
  induction h with
  | nil err st => simp [Run.st]
  | conflict n d rest err st msg set hd => simp [Run.st, St.afterDup]
  | skip n d rest err st set new r hd hr ih => simpa [St.afterDup] using ih
  | leaf n d rest err st set err1 st1 new r hd hv hr ih =>
    rw [ih, (visit_result hv).2]; simp [St.afterDup]
  | cut n d rest err st set err1 st1 sub hd hv =>
    simp only [Run.st]
    rw [(visit_result hv).2]; simp [St.afterDup]
  | nested n d rest err st set err1 st1 sub new1 err2 st2 new r hd hv hn hr ihn ihr =>
    simp only [Run.st] at ihn
    rw [ihr, ihn, (visit_result hv).2]; simp [St.afterDup]
  | nestedFatal n d rest err st set err1 st1 sub new1 msg st2 hd hv hn ihn =>
    rw [ihn, (visit_result hv).2]; simp [St.afterDup]
  | nestedCut n d rest err st set err1 st1 sub new1 st2 hd hv hn ihn =>
    rw [ihn, (visit_result hv).2]; simp [St.afterDup]

/-- The events of one visited entry: the call of `duplicate` and what `visit`
appends. They form a chain of the control-flow relation that starts with the call
of `duplicate` and ends with an event after which the loop may go on. -/
theorem block_chain (c : Collab) (clean Recurse : Bool) (d : Dependency) (s : VisitedSet)
    (set : VisitedSet) (st : St) (hd : duplicate d s = (Res.ret false, set)) :
    List.Chain' (fun a b => follows clean Recurse a b = true)
      (Event.dup d s :: visitEvents c clean Recurse d st) ∧
    ∃ e, (Event.dup d s :: visitEvents c clean Recurse d st).getLast? = some e ∧
      e.resumes clean Recurse ∧
      ((visit c clean Recurse d st).2.1.isSome = true → ∃ f, e = Event.read d f true) := by
  obtain ⟨a1, a2, a3, a4, a5, f, ok, hs, hsub⟩ := visit_shape c clean Recurse d st
  obtain ⟨e, hlast, hres, hread⟩ :=
    visitShape_last clean Recurse d (c.IsStale st.trace d.Repo) a1 a2 a3 a4 a5 f ok
  rw [hs]
  refine ⟨?_, e, ?_, hres, ?_⟩
  · rw [List.chain'_cons']
    refine ⟨?_, visitShape_chain clean Recurse d _ a1 a2 a3 a4 a5 f ok⟩
    intro y hy
    rw [visitShape_head] at hy
    cases hy
    simp [hd]
  · rw [List.getLast?_cons, hlast]; rfl
  · intro h
    rw [hsub] at h
    exact ⟨f, hread h⟩

theorem chain_append_resumes {clean Recurse : Bool} {l1 l2 : List Event}
    (h1 : List.Chain' (fun a b => follows clean Recurse a b = true) l1)
    (hl : ∀ e ∈ l1.getLast?, e.resumes clean Recurse)
    (h2 : List.Chain' (fun a b => follows clean Recurse a b = true) l2)
    (hh : ∀ e ∈ l2.head?, e.isDup = true) :
    List.Chain' (fun a b => follows clean Recurse a b = true) (l1 ++ l2) := by
  rw [List.chain'_append]
  exact ⟨h1, h2, fun x hx y hy => hl x hx y (hh y hy)⟩

theorem endsAs_append {clean Recurse : Bool} {l1 l2 : List Event} {r : Run}
    (hl : ∀ e ∈ l1.getLast?, e.resumes clean Recurse)
    (h2 : EndsAs clean Recurse l2 r) : EndsAs clean Recurse (l1 ++ l2) r := by
  cases l2 with
  | nil =>
    cases r with
    | done err st => simpa [EndsAs] using hl
    | fatal msg st => simp [EndsAs] at h2
    | outOfFuel st => simp [EndsAs] at h2
  | cons x xs =>
    have hlast : (l1 ++ x :: xs).getLast? = (x :: xs).getLast? := by
      rw [List.getLast?_append]
      cases h : (x :: xs).getLast? with
      | none => simp at h
      | some y => rfl
    cases r with
    | done err st => simpa only [EndsAs, hlast] using h2
    | fatal msg st => simpa only [EndsAs, hlast] using h2
    | outOfFuel st => simpa only [EndsAs, hlast] using h2

theorem head_dup_cons (d : Dependency) (s : VisitedSet) (l : List Event) :
    ∀ e ∈ (Event.dup d s :: l).head?, e.isDup = true := by
  intro e he
  simp only [List.head?_cons, Option.mem_def, Option.some.injEq] at he
  subst he
  rfl

theorem head_dup_append {l1 l2 : List Event} (h1 : ∀ e ∈ l1.head?, e.isDup = true)
    (h2 : ∀ e ∈ l2.head?, e.isDup = true) : ∀ e ∈ (l1 ++ l2).head?, e.isDup = true := by
  cases l1 with
  | nil => simpa using h2
  | cons x xs => simpa using h1

/-- Every walk follows the control flow of the loop body: consecutive events of its
trace are related by `follows`, the first event is a call of `duplicate`, and the
last event matches the way the walk ended. -/
theorem Walk.chain {c : Collab} {clean Recurse : Bool} {l : List (String × Dependency)}
    {err : Option String} {st : St} {new : List Event} {r : Run}
    (h : Walk c clean Recurse l err st new r) :
    List.Chain' (fun a b => follows clean Recurse a b = true) new ∧
    (∀ e ∈ new.head?, e.isDup = true) ∧ EndsAs clean Recurse new r := by
  induction h with
  | nil err st => simp [EndsAs]
  | conflict n d rest err st msg set hd =>
    refine ⟨List.chain'_singleton _, head_dup_cons _ _ _, ?_⟩
    exact ⟨d, st.set, msg, rfl, by rw [hd]⟩
  | skip n d rest err st set new r hd hr ih =>
    obtain ⟨ih1, ih2, ih3⟩ := ih
    have hres : (Event.dup d st.set).resumes clean Recurse := by
      intro e2 he2
      simp [hd, he2]
    refine ⟨?_, head_dup_cons _ _ _, ?_⟩
    · rw [List.chain'_cons']
      exact ⟨fun y hy => hres y (ih2 y hy), ih1⟩
    · have hone : ∀ e ∈ [Event.dup d st.set].getLast?, e.resumes clean Recurse := by
        intro e he; simp at he; subst he; exact hres
      have := endsAs_append hone ih3
      simpa using this
  | leaf n d rest err st set err1 st1 new r hd hv hr ih =>
    obtain ⟨ih1, ih2, ih3⟩ := ih
    obtain ⟨hb, e, hlast, hres, -⟩ :=
      block_chain c clean Recurse d st.set set (st.afterDup d set) hd
    have hl : ∀ x ∈ (Event.dup d st.set ::
        visitEvents c clean Recurse d (st.afterDup d set)).getLast?, x.resumes clean Recurse := by
      intro x hx; rw [hlast] at hx; cases hx; exact hres
    rw [← List.cons_append]
    exact ⟨chain_append_resumes hb hl ih1 ih2, head_dup_cons _ _ _, endsAs_append hl ih3⟩
  | cut n d rest err st set err1 st1 sub hd hv =>
    obtain ⟨hb, e, hlast, hres, hread⟩ :=
      block_chain c clean Recurse d st.set set (st.afterDup d set) hd
    refine ⟨hb, head_dup_cons _ _ _, ?_⟩
    obtain ⟨f, hf⟩ := hread (by rw [hv]; rfl)
    exact ⟨d, f, by rw [hlast, hf]⟩
  | nested n d rest err st set err1 st1 sub new1 err2 st2 new r hd hv hn hr ihn ihr =>
    obtain ⟨in1, in2, in3⟩ := ihn
    obtain ⟨ir1, ir2, ir3⟩ := ihr
    obtain ⟨hb, e, hlast, hres, -⟩ :=
      block_chain c clean Recurse d st.set set (st.afterDup d set) hd
    have hl : ∀ x ∈ (Event.dup d st.set ::
        visitEvents c clean Recurse d (st.afterDup d set)).getLast?, x.resumes clean Recurse := by
      intro x hx; rw [hlast] at hx; cases hx; exact hres
    rw [← List.cons_append]
    refine ⟨chain_append_resumes hb hl (chain_append_resumes in1 in3 ir1 ir2)
      (head_dup_append in2 ir2), head_dup_cons _ _ _, endsAs_append hl (endsAs_append in3 ir3)⟩
  | nestedFatal n d rest err st set err1 st1 sub new1 msg st2 hd hv hn ihn =>
    obtain ⟨in1, in2, in3⟩ := ihn
    obtain ⟨hb, e, hlast, hres, -⟩ :=
      block_chain c clean Recurse d st.set set (st.afterDup d set) hd
    have hl : ∀ x ∈ (Event.dup d st.set ::
        visitEvents c clean Recurse d (st.afterDup d set)).getLast?, x.resumes clean Recurse := by
      intro x hx; rw [hlast] at hx; cases hx; exact hres
    rw [← List.cons_append]
    exact ⟨chain_append_resumes hb hl in1 in2, head_dup_cons _ _ _, endsAs_append hl in3⟩
  | nestedCut n d rest err st set err1 st1 sub new1 st2 hd hv hn ihn =>
    obtain ⟨in1, in2, in3⟩ := ihn
    obtain ⟨hb, e, hlast, hres, -⟩ :=
      block_chain c clean Recurse d st.set set (st.afterDup d set) hd
    have hl : ∀ x ∈ (Event.dup d st.set ::
        visitEvents c clean Recurse d (st.afterDup d set)).getLast?, x.resumes clean Recurse := by
      intro x hx; rw [hlast] at hx; cases hx; exact hres
    rw [← List.cons_append]
    exact ⟨chain_append_resumes hb hl in1 in2, head_dup_cons _ _ _, endsAs_append hl in3⟩

/-! ## The visited set only grows -/

theorem setHistory_append (l1 l2 : List Event) :
    setHistory (l1 ++ l2) = setHistory l1 ++ setHistory l2 := by
  induction l1 with
  | nil => rfl
  | cons e l ih => cases e <;> simp [setHistory, ih]

theorem setHistory_eq_nil {l : List Event} (h : ∀ e ∈ l, e.isDup = false) :
    setHistory l = [] := by
  induction l with
  | nil => rfl
  | cons e l ih =>
    have he := h e (List.mem_cons_self _ _)
    have hl := ih (fun x hx => h x (List.mem_cons_of_mem _ hx))
    cases e <;> simp_all [setHistory, Event.isDup]

theorem visitEvents_nodup (c : Collab) (clean Recurse : Bool) (d : Dependency) (st : St) :
    ∀ e ∈ visitEvents c clean Recurse d st, e.dep = d ∧ e.isDup = false := by
  obtain ⟨a1, a2, a3, a4, a5, f, ok, hs, -⟩ := visit_shape c clean Recurse d st
  rw [hs]
  exact visitShape_dep clean Recurse d _ a1 a2 a3 a4 a5 f ok

theorem setHistory_visitEvents (c : Collab) (clean Recurse : Bool) (d : Dependency) (st : St) :
    setHistory (visitEvents c clean Recurse d st) = [] :=
  setHistory_eq_nil (fun e he => (visitEvents_nodup c clean Recurse d st e he).2)

theorem MonoHist.nil (s : VisitedSet) : MonoHist s [] s :=
  ⟨SubMap.refl s, by simp, List.Pairwise.nil⟩

theorem MonoHist.dup {s t : VisitedSet} (h : SubMap s t) : MonoHist s [s, t] t := by
  refine ⟨h, ?_, ?_⟩
  · intro x hx
    simp only [List.mem_cons, List.mem_singleton, List.not_mem_nil, or_false] at hx
    rcases hx with rfl | rfl
    · exact ⟨SubMap.refl _, h⟩
    · exact ⟨h, SubMap.refl _⟩
  · simp [h]

theorem MonoHist.append {s0 s1 s2 : VisitedSet} {H1 H2 : List VisitedSet}
    (h1 : MonoHist s0 H1 s1) (h2 : MonoHist s1 H2 s2) : MonoHist s0 (H1 ++ H2) s2 := by
  obtain ⟨a1, b1, c1⟩ := h1
  obtain ⟨a2, b2, c2⟩ := h2
  refine ⟨a1.trans a2, ?_, ?_⟩
  · intro x hx
    rcases List.mem_append.1 hx with h | h
    · exact ⟨(b1 x h).1, (b1 x h).2.trans a2⟩
    · exact ⟨a1.trans (b2 x h).1, (b2 x h).2⟩
  · rw [List.pairwise_append]
    exact ⟨c1, c2, fun x hx y hy => (b1 x hx).2.trans (b2 y hy).1⟩

theorem MonoHist.pairwise {s0 s1 : VisitedSet} {H : List VisitedSet} (h : MonoHist s0 H s1) :
    List.Pairwise SubMap (s0 :: (H ++ [s1])) := by
  obtain ⟨a, b, c⟩ := h
  rw [List.pairwise_cons, List.pairwise_append]
  refine ⟨?_, c, by simp, ?_⟩
  · intro x hx
    rcases List.mem_append.1 hx with h | h
    · exact (b x h).1
    · simp only [List.mem_singleton] at h; subst h; exact a
  · intro x hx y hy
    simp only [List.mem_singleton] at hy; subst hy
    exact (b x hx).2

/-- Along a walk the visited set only gains bindings: the sets recorded in the
trace lie in order between the set at the start and the set at the end. -/
theorem Walk.mono {c : Collab} {clean Recurse : Bool} {l : List (String × Dependency)}
    {err : Option String} {st : St} {new : List Event} {r : Run}
    (h : Walk c clean Recurse l err st new r) :
    MonoHist st.set (setHistory new) r.st.set := by
  induction h with
  | nil err st => exact MonoHist.nil _
  | conflict n d rest err st msg set hd =>
    have hs := duplicate_subMap d st.set
    simp only [setHistory, hd, Run.st, St.afterDup]
    rw [hd] at hs
    exact MonoHist.dup hs
  | skip n d rest err st set new r hd hr ih =>
    have hs := duplicate_subMap d st.set
    rw [hd] at hs
    simp only [setHistory, hd]
    exact (MonoHist.dup hs).append ih
  | leaf n d rest err st set err1 st1 new r hd hv hr ih =>
    have hs := duplicate_subMap d st.set
    rw [hd] at hs
    simp only [setHistory, hd, setHistory_append, setHistory_visitEvents, List.nil_append]
    rw [(visit_result hv).1] at ih
    exact (MonoHist.dup hs).append ih
  | cut n d rest err st set err1 st1 sub hd hv =>
    have hs := duplicate_subMap d st.set
    rw [hd] at hs
    simp only [setHistory, hd, setHistory_visitEvents, Run.st]
    rw [(visit_result hv).1]
    exact MonoHist.dup hs
  | nested n d rest err st set err1 st1 sub new1 err2 st2 new r hd hv hn hr ihn ihr =>
    have hs := duplicate_subMap d st.set
    rw [hd] at hs
    simp only [setHistory, hd, setHistory_append, setHistory_visitEvents, List.nil_append]
    rw [(visit_result hv).1] at ihn
    exact (MonoHist.dup hs).append (ihn.append ihr)
  | nestedFatal n d rest err st set err1 st1 sub new1 msg st2 hd hv hn ihn =>
    have hs := duplicate_subMap d st.set
    rw [hd] at hs
    simp only [setHistory, hd, setHistory_append, setHistory_visitEvents, List.nil_append]
    rw [(visit_result hv).1] at ihn
    exact (MonoHist.dup hs).append ihn
  | nestedCut n d rest err st set err1 st1 sub new1 st2 hd hv hn ihn =>
    have hs := duplicate_subMap d st.set
    rw [hd] at hs
    simp only [setHistory, hd, setHistory_append, setHistory_visitEvents, List.nil_append]
    rw [(visit_result hv).1] at ihn
    exact (MonoHist.dup hs).append ihn

/-- C4: for every manifest, every initial state and every behaviour of the
collaborators, the values the visited set takes during `recursiveInstall` (the set
at the start, the set at and after every call of `duplicate`, the set at the end)
are ordered by inclusion of bindings: a binding `repo -> version` present at one
point is present, with the same version, at every later point. -/
theorem visited_bindings_persist (c : Collab) (clean Recurse : Bool) (fuel : Nat)
    (deps : DependencyMap) (st : St) :
    List.Pairwise SubMap
      (st.set ::
        (setHistory ((recursiveInstall c clean Recurse fuel deps st).st.trace.drop
            st.trace.length) ++
          [(recursiveInstall c clean Recurse fuel deps st).st.set])) := by
  rcases recursiveInstall_walk c clean Recurse fuel deps st with h | ⟨new, hw⟩
  · rw [h]
    simp only [Run.st, List.drop_length, setHistory, List.nil_append]
    exact (MonoHist.nil st.set).pairwise
  · rw [hw.trace_eq, List.drop_left]
    exact hw.mono.pairwise

/-! ## One visit per repository -/

theorem ownEvents_append (R : String) (l1 l2 : List Event) :
    ownEvents R (l1 ++ l2) = ownEvents R l1 ++ ownEvents R l2 := by
  simp [ownEvents]

theorem ownEvents_dup_cons (R : String) (d : Dependency) (s : VisitedSet) (l : List Event) :
    ownEvents R (Event.dup d s :: l) = ownEvents R l := by
  simp [ownEvents, Event.isDup]

theorem ownEvents_visit_self (c : Collab) (clean Recurse : Bool) (d : Dependency) (st : St) :
    ownEvents d.Repo (visitEvents c clean Recurse d st) = visitEvents c clean Recurse d st := by
  unfold ownEvents
  apply List.filter_eq_self.2
  intro e he
  obtain ⟨h1, h2⟩ := visitEvents_nodup c clean Recurse d st e he
  simp [h1, h2]

theorem ownEvents_visit_other (c : Collab) (clean Recurse : Bool) (d : Dependency) (st : St)
    (R : String) (h : R ≠ d.Repo) :
    ownEvents R (visitEvents c clean Recurse d st) = [] := by
  unfold ownEvents
  apply List.filter_eq_nil_iff.2
  intro e he
  obtain ⟨h1, h2⟩ := visitEvents_nodup c clean Recurse d st e he
  simp [h1, h2, Ne.symm h]

theorem SubMap.keeps {s t : VisitedSet} (h : SubMap s t) {R : String}
    (hp : mapGet s R ≠ none) : mapGet t R ≠ none := by
  cases hv : mapGet s R with
  | none => exact absurd hv hp
  | some v => rw [h R v hv]; simp

theorem ProjOK.empty (c : Collab) (clean Recurse : Bool) (s : VisitedSet) (R : String) :
    ProjOK c clean Recurse s s [] R :=
  ⟨fun h => absurd h.1 h.2, fun _ => rfl⟩

theorem ProjOK.same (c : Collab) (clean Recurse : Bool) (s : VisitedSet) (d : Dependency)
    (s' : VisitedSet) (R : String) : ProjOK c clean Recurse s s [Event.dup d s'] R :=
  ⟨fun h => absurd h.1 h.2, fun _ => by simp [ownEvents, Event.isDup]⟩

theorem ProjOK.concat {c : Collab} {clean Recurse : Bool} {s0 s1 s2 : VisitedSet}
    {A B : List Event} {R : String} (h01 : SubMap s0 s1) (h12 : SubMap s1 s2)
    (hA : ProjOK c clean Recurse s0 s1 A R) (hB : ProjOK c clean Recurse s1 s2 B R) :
    ProjOK c clean Recurse s0 s2 (A ++ B) R := by
  rw [ProjOK, ownEvents_append]
  by_cases p0 : mapGet s0 R = none
  · by_cases p1 : mapGet s1 R = none
    · -- added, if at all, in the second part
      have hA0 : ownEvents R A = [] := hA.2 (fun h => h.2 p1)
      rw [hA0, List.nil_append]
      exact ⟨fun h => hB.1 ⟨p1, h.2⟩, fun h => hB.2 (fun h' => h ⟨p0, h'.2⟩)⟩
    · -- added in the first part
      have hB0 : ownEvents R B = [] := hB.2 (fun h => p1 h.1)
      have p2 : mapGet s2 R ≠ none := h12.keeps p1
      rw [hB0, List.append_nil]
      exact ⟨fun _ => hA.1 ⟨p0, p1⟩, fun h => absurd ⟨p0, p2⟩ h⟩
  · -- present from the start
    have p1 : mapGet s1 R ≠ none := h01.keeps p0
    have hA0 : ownEvents R A = [] := hA.2 (fun h => p0 h.1)
    have hB0 : ownEvents R B = [] := hB.2 (fun h => p1 h.1)
    rw [hA0, hB0]
    exact ⟨fun h => absurd h.1 p0, fun _ => rfl⟩

theorem ProjOK.block (c : Collab) (clean Recurse : Bool) (d : Dependency) (s set : VisitedSet)
    (st : St) (hd : duplicate d s = (Res.ret false, set)) (R : String) :
    ProjOK c clean Recurse s set (Event.dup d s :: visitEvents c clean Recurse d st) R := by
  have habs : mapGet s d.Repo = none := by
    cases h : mapGet s d.Repo with
    | none => rfl
    | some w =>
      by_cases hw : w = d.Version
      · subst hw; rw [duplicate_skip d s h] at hd; simp at hd
      · rw [duplicate_conflict d s w h hw] at hd; simp at hd
  have hset : set = mapSet s d.Repo d.Version := by
    rw [duplicate_fresh d s habs] at hd
    exact (Prod.mk.inj hd).2.symm
  rw [ProjOK, ownEvents_dup_cons]
  by_cases hR : R = d.Repo
  · subst hR
    rw [ownEvents_visit_self]
    exact ⟨fun _ => ⟨d, st, rfl, rfl⟩,
      fun h => absurd ⟨habs, by rw [hset, mapGet_mapSet_self]; simp⟩ h⟩
  · rw [ownEvents_visit_other c clean Recurse d st R hR]
    refine ⟨fun h => ?_, fun _ => rfl⟩
    rw [hset, mapGet_mapSet_ne s d.Repo d.Version R hR] at h
    exact absurd h.1 h.2

theorem duplicate_set_eq (d : Dependency) (s set : VisitedSet) (x : Res Bool)
    (hd : duplicate d s = (x, set)) (hx : x ≠ Res.ret false) : set = s := by
  cases h : mapGet s d.Repo with
  | none =>
    rw [duplicate_fresh d s h] at hd
    exact absurd (Prod.mk.inj hd).1.symm hx
  | some w =>
    by_cases hw : w = d.Version
    · subst hw; rw [duplicate_skip d s h] at hd; exact (Prod.mk.inj hd).2.symm
    · rw [duplicate_conflict d s w h hw] at hd; exact (Prod.mk.inj hd).2.symm

/-- In the events of a walk, a repository added to the visited set during the walk
has the events of exactly one visit, and every other repository has none. -/
theorem Walk.proj {c : Collab} {clean Recurse : Bool} {l : List (String × Dependency)}
    {err : Option String} {st : St} {new : List Event} {r : Run}
    (h : Walk c clean Recurse l err st new r) (R : String) :
    ProjOK c clean Recurse st.set r.st.set new R := by
  induction h with
  | nil err st => exact ProjOK.empty c clean Recurse _ R
  | conflict n d rest err st msg set hd =>
    have hset : set = st.set := duplicate_set_eq d st.set set _ hd (by simp)
    subst hset
    exact ProjOK.same c clean Recurse _ d _ R
  | skip n d rest err st set new r hd hr ih =>
    have hset : set = st.set := duplicate_set_eq d st.set set _ hd (by simp)
    subst hset
    have := ProjOK.concat (SubMap.refl _) hr.mono.1
      (ProjOK.same c clean Recurse st.set d st.set R) ih
    simpa using this
  | leaf n d rest err st set err1 st1 new r hd hv hr ih =>
    have hs := duplicate_subMap d st.set
    rw [hd] at hs
    have hm := hr.mono.1
    rw [(visit_result hv).1] at ih hm
    rw [← List.cons_append]
    exact ProjOK.concat hs hm (ProjOK.block c clean Recurse d st.set set _ hd R) ih
  | cut n d rest err st set err1 st1 sub hd hv =>
    simp only [Run.st]
    rw [(visit_result hv).1]
    exact ProjOK.block c clean Recurse d st.set set _ hd R
  | nested n d rest err st set err1 st1 sub new1 err2 st2 new r hd hv hn hr ihn ihr =>
    have hs := duplicate_subMap d st.set
    rw [hd] at hs
    have hmn := hn.mono.1
    have hmr := hr.mono.1
    simp only [Run.st] at ihn hmn
    rw [(visit_result hv).1] at ihn hmn
    rw [← List.cons_append]
    exact ProjOK.concat hs (hmn.trans hmr) (ProjOK.block c clean Recurse d st.set set _ hd R)
      (ProjOK.concat hmn hmr ihn ihr)
  | nestedFatal n d rest err st set err1 st1 sub new1 msg st2 hd hv hn ihn =>
    have hs := duplicate_subMap d st.set
    rw [hd] at hs
    have hmn := hn.mono.1
    rw [(visit_result hv).1] at ihn hmn
    rw [← List.cons_append]
    exact ProjOK.concat hs hmn (ProjOK.block c clean Recurse d st.set set _ hd R) ihn
  | nestedCut n d rest err st set err1 st1 sub new1 st2 hd hv hn ihn =>
    have hs := duplicate_subMap d st.set
    rw [hd] at hs
    have hmn := hn.mono.1
    rw [(visit_result hv).1] at ihn hmn
    rw [← List.cons_append]
    exact ProjOK.concat hs hmn (ProjOK.block c clean Recurse d st.set set _ hd R) ihn

/-- Every event of a walk is about a repository that is in the visited set when
the walk ends. -/
theorem Walk.present {c : Collab} {clean Recurse : Bool} {l : List (String × Dependency)}
    {err : Option String} {st : St} {new : List Event} {r : Run}
    (h : Walk c clean Recurse l err st new r) :
    ∀ e ∈ new, mapGet r.st.set e.dep.Repo ≠ none := by
  have key : ∀ (d : Dependency) (s set : VisitedSet) (x : Res Bool),
      duplicate d s = (x, set) → mapGet set d.Repo ≠ none := by
    intro d s set x hd
    cases hg : mapGet s d.Repo with
    | none =>
      rw [duplicate_fresh d s hg] at hd
      rw [← (Prod.mk.inj hd).2, mapGet_mapSet_self]; simp
    | some w =>
      have hs := duplicate_subMap d s
      rw [hd] at hs
      rw [hs _ _ hg]; simp
  induction h with
  | nil err st => simp
  | conflict n d rest err st msg set hd =>
    intro e he
    simp only [List.mem_singleton] at he
    subst he
    exact key d st.set set _ hd
  | skip n d rest err st set new r hd hr ih =>
    intro e he
    rcases List.mem_cons.1 he with rfl | he
    · exact hr.mono.1.keeps (key d st.set set _ hd)
    · exact ih e he
  | leaf n d rest err st set err1 st1 new r hd hv hr ih =>
    have hk : mapGet st1.set d.Repo ≠ none := by
      rw [(visit_result hv).1]; exact key d st.set set _ hd
    intro e he
    rcases List.mem_cons.1 he with rfl | he
    · exact hr.mono.1.keeps hk
    · rcases List.mem_append.1 he with he | he
      · rw [(visitEvents_nodup c clean Recurse d _ e he).1]
        exact hr.mono.1.keeps hk
      · exact ih e he
  | cut n d rest err st set err1 st1 sub hd hv =>
    have hk : mapGet st1.set d.Repo ≠ none := by
      rw [(visit_result hv).1]; exact key d st.set set _ hd
    intro e he
    rcases List.mem_cons.1 he with rfl | he
    · exact hk
    · rw [(visitEvents_nodup c clean Recurse d _ e he).1]
      exact hk
  | nested n d rest err st set err1 st1 sub new1 err2 st2 new r hd hv hn hr ihn ihr =>
    have hk : mapGet st1.set d.Repo ≠ none := by
      rw [(visit_result hv).1]; exact key d st.set set _ hd
    have hm : SubMap st1.set r.st.set := hn.mono.1.trans hr.mono.1
    intro e he
    rcases List.mem_cons.1 he with rfl | he
    · exact hm.keeps hk
    · rcases List.mem_append.1 he with he | he
      · rw [(visitEvents_nodup c clean Recurse d _ e he).1]
        exact hm.keeps hk
      · rcases List.mem_append.1 he with he | he
        · exact hr.mono.1.keeps (ihn e he)
        · exact ihr e he
  | nestedFatal n d rest err st set err1 st1 sub new1 msg st2 hd hv hn ihn =>
    have hk : mapGet st1.set d.Repo ≠ none := by
      rw [(visit_result hv).1]; exact key d st.set set _ hd
    intro e he
    rcases List.mem_cons.1 he with rfl | he
    · exact hn.mono.1.keeps hk
    · rcases List.mem_append.1 he with he | he
      · rw [(visitEvents_nodup c clean Recurse d _ e he).1]
        exact hn.mono.1.keeps hk
      · exact ihn e he
  | nestedCut n d rest err st set err1 st1 sub new1 st2 hd hv hn ihn =>
    have hk : mapGet st1.set d.Repo ≠ none := by
      rw [(visit_result hv).1]; exact key d st.set set _ hd
    intro e he
    rcases List.mem_cons.1 he with rfl | he
    · exact hn.mono.1.keeps hk
    · rcases List.mem_append.1 he with he | he
      · rw [(visitEvents_nodup c clean Recurse d _ e he).1]
        exact hn.mono.1.keeps hk
      · exact ihn e he

/-! ## The order of the version-control steps -/

theorem newEvents_cases (c : Collab) (clean Recurse : Bool) (fuel : Nat) (deps : DependencyMap)
    (st : St) :
    (recursiveInstall c clean Recurse fuel deps st = Run.outOfFuel st ∧
      newEvents c clean Recurse fuel deps st = []) ∨
    Walk c clean Recurse deps.Map none st (newEvents c clean Recurse fuel deps st)
      (recursiveInstall c clean Recurse fuel deps st) := by
  rcases recursiveInstall_walk c clean Recurse fuel deps st with h | ⟨new, hw⟩
  · left
    refine ⟨h, ?_⟩
    rw [newEvents, h]
    simp [Run.st]
  · right
    have : newEvents c clean Recurse fuel deps st = new := by
      rw [newEvents, hw.trace_eq, List.drop_left]
    rw [this]
    exact hw

theorem stepsFor_cons (R : String) (e : Event) (l : List Event) :
    stepsFor R (e :: l) =
      (match e with
        | Event.vcs s d _ => if d.Repo = R then [s] else []
        | _ => []) ++ stepsFor R l := by
  unfold stepsFor
  cases e with
  | vcs s d err => by_cases h : d.Repo = R <;> simp [List.filterMap_cons, h]
  | dup d s => simp [List.filterMap_cons]
  | isStale d b => simp [List.filterMap_cons]
  | cd d => simp [List.filterMap_cons]
  | upwardFind d f => simp [List.filterMap_cons]
  | read d f ok => simp [List.filterMap_cons]
  | registerError d => simp [List.filterMap_cons]

theorem ownEvents_cons (R : String) (e : Event) (l : List Event) :
    ownEvents R (e :: l) =
      if (!e.isDup && e.dep.Repo == R) = true then e :: ownEvents R l else ownEvents R l := by
  unfold ownEvents
  rw [List.filter_cons]

theorem stepsFor_ownEvents (R : String) (l : List Event) :
    stepsFor R (ownEvents R l) = stepsFor R l := by
  induction l with
  | nil => rfl
  | cons e l ih =>
    rw [ownEvents_cons]
    split_ifs with h
    · rw [stepsFor_cons, stepsFor_cons, ih]
    · rw [stepsFor_cons, ih]
      cases e with
      | vcs s d err =>
        have : ¬ d.Repo = R := by simpa [Event.isDup, Event.dep] using h
        simp [this]
      | dup d s => rfl
      | isStale d b => rfl
      | cd d => rfl
      | upwardFind d f => rfl
      | read d f ok => rfl
      | registerError d => rfl

theorem mem_of_mem_ownEvents {R : String} {l : List Event} {e : Event}
    (h : e ∈ ownEvents R l) : e ∈ l :=
  (List.mem_filter.1 h).1

theorem visitShape_isStale_mem (clean Recurse : Bool) (d : Dependency) (stale : Bool)
    (a1 a2 a3 a4 a5 : Option String) (f : String) (ok : Bool) (d' : Dependency) (b : Bool)
    (h : Event.isStale d' b ∈ visitShape clean Recurse d stale a1 a2 a3 a4 a5 f ok) :
    d' = d ∧ b = stale := by
  unfold visitShape lifeShape lifeOk findShape at h
  split_ifs at h <;> simp_all

theorem stepsFor_append (R : String) (l1 l2 : List Event) :
    stepsFor R (l1 ++ l2) = stepsFor R l1 ++ stepsFor R l2 := by
  simp [stepsFor]

theorem stepsFor_findShape (R : String) (Recurse : Bool) (d : Dependency) (f : String)
    (ok : Bool) : stepsFor R (findShape Recurse d f ok) = [] := by
  unfold findShape
  split_ifs <;> simp [stepsFor_cons, stepsFor]

theorem visitShape_steps (clean Recurse : Bool) (d : Dependency) (stale : Bool)
    (a1 a2 a3 a4 a5 : Option String) (f : String) (ok : Bool)
    (h : ∀ s err, Event.vcs s d err ∈ visitShape clean Recurse d stale a1 a2 a3 a4 a5 f ok →
      err = none) :
    stepsFor d.Repo (visitShape clean Recurse d stale a1 a2 a3 a4 a5 f ok) =
      Step.Clone :: ((if clean then [Step.Clean] else []) ++
        (if stale then [Step.Fetch, Step.Checkout, Step.Update] else [Step.Checkout])) := by
  have h1 : a1 = none := h Step.Clone a1 (by simp [visitShape, lifeShape])
  subst h1
  have hfind : stepsFor d.Repo
      (if lifeOk stale none a3 a4 a5 then findShape Recurse d f ok else []) = [] := by
    split_ifs
    · exact stepsFor_findShape _ _ _ _ _
    · rfl
  cases stale
  · have h4 : a4 = none := h Step.Checkout a4 (by simp [visitShape, lifeShape])
    subst h4
    rw [visitShape, stepsFor_append, hfind]
    cases clean <;> simp [lifeShape, stepsFor_cons, stepsFor]
  · have h3 : a3 = none := h Step.Fetch a3 (by simp [visitShape, lifeShape])
    subst h3
    have h4 : a4 = none := h Step.Checkout a4 (by simp [visitShape, lifeShape])
    subst h4
    have h5 : a5 = none := h Step.Update a5 (by simp [visitShape, lifeShape])
    subst h5
    rw [visitShape, stepsFor_append, hfind]
    cases clean <;> simp [lifeShape, stepsFor_cons, stepsFor]

/-- C5: in the events of any run of `recursiveInstall`, take a dependency `d` that
was admitted, so that `timelock.IsStale(d.Repo)` was asked and answered `stale`. If
every version-control step attempted for its repository succeeded, the steps
recorded for that repository are exactly Clone, Clean when the clean option is on,
then Fetch, Checkout, Update when `stale` is true and Checkout alone when it is
false. -/
theorem lifecycle_step_order (c : Collab) (clean Recurse : Bool) (fuel : Nat)
    (deps : DependencyMap) (st : St) (d : Dependency) (stale : Bool)
    (hq : Event.isStale d stale ∈ newEvents c clean Recurse fuel deps st)
    (hok : ∀ s d1 err, Event.vcs s d1 err ∈ newEvents c clean Recurse fuel deps st →
      d1.Repo = d.Repo → err = none) :
    stepsFor d.Repo (newEvents c clean Recurse fuel deps st) =
      Step.Clone :: ((if clean then [Step.Clean] else []) ++
        (if stale then [Step.Fetch, Step.Checkout, Step.Update] else [Step.Checkout])) := by
  rcases newEvents_cases c clean Recurse fuel deps st with ⟨-, h0⟩ | hw
  · rw [h0] at hq; cases hq
  · have hown : Event.isStale d stale ∈
        ownEvents d.Repo (newEvents c clean Recurse fuel deps st) := by
      unfold ownEvents
      exact List.mem_filter.2 ⟨hq, by simp [Event.isDup, Event.dep]⟩
    have hp := hw.proj d.Repo
    by_cases hc : mapGet st.set d.Repo = none ∧
        mapGet (recursiveInstall c clean Recurse fuel deps st).st.set d.Repo ≠ none
    · obtain ⟨d1, st1, hd1, hblock⟩ := hp.1 hc
      obtain ⟨a1, a2, a3, a4, a5, f, ok, hs, -⟩ := visit_shape c clean Recurse d1 st1
      rw [hblock, hs] at hown
      obtain ⟨hdd, hst⟩ := visitShape_isStale_mem clean Recurse d1 _ a1 a2 a3 a4 a5 f ok d stale hown
      subst hdd
      rw [← stepsFor_ownEvents, hblock, hs, ← hst]
      apply visitShape_steps
      intro s err hmem
      apply hok s d err _ rfl
      apply mem_of_mem_ownEvents (R := d.Repo)
      rw [hblock, hs, ← hst]
      exact hmem
    · rw [hp.2 hc] at hown
      cases hown


theorem exOk_newEvents :
    newEvents exOk true true 1 ⟨[("a", exA)]⟩ st0 =
      [Event.dup exA [], Event.isStale exA true, Event.vcs Step.Clone exA none, Event.cd exA,
        Event.vcs Step.Clean exA none, Event.vcs Step.Fetch exA none,
        Event.vcs Step.Checkout exA none, Event.vcs Step.Update exA none,
        Event.upwardFind exA ""] := by
  decide

theorem lifecycle_step_order_witness :
    Event.isStale exA true ∈ newEvents exOk true true 1 ⟨[("a", exA)]⟩ st0 ∧
    stepsFor exA.Repo (newEvents exOk true true 1 ⟨[("a", exA)]⟩ st0) =
      [Step.Clone, Step.Clean, Step.Fetch, Step.Checkout, Step.Update] :=
  ⟨by rw [exOk_newEvents]; simp,
   lifecycle_step_order exOk true true 1 ⟨[("a", exA)]⟩ st0 exA true
    (by rw [exOk_newEvents]; simp)
    (by
      rw [exOk_newEvents]
      intro s d1 err h _
      simp at h
      rcases h with ⟨_, _, h⟩ | ⟨_, _, h⟩ | ⟨_, _, h⟩ | ⟨_, _, h⟩ | ⟨_, _, h⟩ <;> exact h)⟩

/-! ## Duplicates are skipped -/

theorem install_done_walk {c : Collab} {clean Recurse : Bool} {fuel : Nat}
    {deps : DependencyMap} {err : Option String} {st : St}
    (h : Install c clean Recurse fuel deps = Run.done err st) :
    Walk c clean Recurse deps.Map none st0 st.trace (Run.done err st) := by
  unfold Install at h
  rcases recursiveInstall_walk c clean Recurse fuel deps st0 with h0 | ⟨new, hw⟩
  · rw [show ({ set := [], trace := [], errors := 0 } : St) = st0 from rfl, h0] at h
    cases h
  · rw [show ({ set := [], trace := [], errors := 0 } : St) = st0 from rfl] at h
    rw [h] at hw
    have ht := hw.trace_eq
    simp only [Run.st, st0, List.nil_append] at ht
    rw [ht]
    exact hw

theorem visitShape_cloneCount (clean Recurse : Bool) (d : Dependency) (stale : Bool)
    (a1 a2 a3 a4 a5 : Option String) (f : String) (ok : Bool) :
    cloneCount d.Repo (visitShape clean Recurse d stale a1 a2 a3 a4 a5 f ok) = 1 := by
  have hfind : stepsFor d.Repo
      (if lifeOk stale a1 a3 a4 a5 then findShape Recurse d f ok else []) = [] := by
    split_ifs
    · exact stepsFor_findShape _ _ _ _ _
    · rfl
  rw [cloneCount, visitShape, stepsFor_append, hfind, lifeShape]
  split_ifs <;> simp [stepsFor_cons, stepsFor]

theorem duplicate_ret_get (d : Dependency) (s : VisitedSet) (b : Bool)
    (h : (duplicate d s).1 = Res.ret b) :
    mapGet (duplicate d s).2 d.Repo = some d.Version := by
  cases hg : mapGet s d.Repo with
  | none => rw [duplicate_fresh d s hg]; exact mapGet_mapSet_self _ _ _
  | some w =>
    by_cases hw : w = d.Version
    · subst hw; rw [duplicate_skip d s hg]; exact hg
    · rw [duplicate_conflict d s w hg hw] at h; cases h

theorem follows_of_chain {clean Recurse : Bool} {pre post : List Event} {e x : Event}
    (h : List.Chain' (fun a b => follows clean Recurse a b = true) (pre ++ e :: x :: post)) :
    follows clean Recurse e x = true :=
  (List.chain'_append_cons_cons.1 h).2.1


theorem chain_next_of_ret_true {clean Recurse : Bool} {pre post : List Event}
    {d : Dependency} {s : VisitedSet}
    (h : List.Chain' (fun a b => follows clean Recurse a b = true)
      (pre ++ Event.dup d s :: post))
    (hs : (duplicate d s).1 = Res.ret true) : ∀ e ∈ post.head?, e.isDup = true := by
  cases post with
  | nil => simp
  | cons x post =>
    have := follows_of_chain h
    intro e he
    simp only [List.head?_cons, Option.mem_def, Option.some.injEq] at he
    subst he
    simpa [hs] using this

theorem chain_not_exit {clean Recurse : Bool} {pre post : List Event}
    {d : Dependency} {s : VisitedSet}
    (h : List.Chain' (fun a b => follows clean Recurse a b = true)
      (pre ++ Event.dup d s :: post))
    (hp : post ≠ []) : ∃ b, (duplicate d s).1 = Res.ret b := by
  cases post with
  | nil => exact absurd rfl hp
  | cons x post =>
    have := follows_of_chain h
    rcases hr : (duplicate d s).1 with b | msg
    · exact ⟨b, rfl⟩
    · simp [hr] at this

/-- C6: in a run of `Install` that returns (no version conflict is reached), for
every entry the traversal reaches, Clone is called exactly once in the whole run
for the repository of that entry; and every later entry with the same repository
and version is skipped by `duplicate`, which leaves the set as it is, and the next
call made after it, if any, is the call of `duplicate` for another entry: no
version-control step, no staleness query, no search or reading of a manifest is
made for it. -/
theorem clone_once_per_repo (c : Collab) (clean Recurse : Bool) (fuel : Nat)
    (deps : DependencyMap) (err : Option String) (st : St)
    (h : Install c clean Recurse fuel deps = Run.done err st) :
    (∀ d s, Event.dup d s ∈ st.trace → cloneCount d.Repo st.trace = 1) ∧
    (∀ pre d s mid d1 s1 post,
      st.trace = pre ++ Event.dup d s :: (mid ++ Event.dup d1 s1 :: post) →
      d1.Repo = d.Repo → d1.Version = d.Version →
      duplicate d1 s1 = (Res.ret true, s1) ∧ ∀ e ∈ post.head?, e.isDup = true) := by
  have hw := install_done_walk h
  constructor
  · intro d s hmem
    have hpres := hw.present _ hmem
    have hp := (hw.proj d.Repo).1 ⟨rfl, hpres⟩
    obtain ⟨d1, st1, hd1, hblock⟩ := hp
    obtain ⟨a1, a2, a3, a4, a5, f, ok, hs, -⟩ := visit_shape c clean Recurse d1 st1
    rw [cloneCount, ← stepsFor_ownEvents, hblock, hs, ← hd1]
    exact visitShape_cloneCount clean Recurse d1 _ a1 a2 a3 a4 a5 f ok
  · intro pre d s mid d1 s1 post htr hrepo hver
    have hchain := hw.chain.1
    have hmono := hw.mono.2.2
    rw [htr] at hchain
    -- the earlier call of `duplicate` returned
    obtain ⟨b, hb⟩ := chain_not_exit hchain (by simp)
    have hget := duplicate_ret_get d s b hb
    -- its binding is still there at the later call
    have hsub : SubMap (duplicate d s).2 s1 := by
      rw [htr] at hmono
      simp only [setHistory_append, setHistory] at hmono
      rw [List.pairwise_append] at hmono
      have h2 := hmono.2.1
      rw [List.pairwise_cons, List.pairwise_cons] at h2
      exact h2.2.1 s1 (by simp)
    have hget1 : mapGet s1 d1.Repo = some d1.Version := by
      rw [hrepo, hver]; exact hsub _ _ hget
    have hskip := duplicate_skip d1 s1 hget1
    refine ⟨hskip, ?_⟩
    have hchain1 : List.Chain' (fun a b => follows clean Recurse a b = true)
        ((pre ++ Event.dup d s :: mid) ++ Event.dup d1 s1 :: post) := by
      simpa using hchain
    exact chain_next_of_ret_true hchain1 (by rw [hskip])

/-! ## A version conflict ends the run -/

theorem chain_exit_last {clean Recurse : Bool} {pre post : List Event}
    {d : Dependency} {s : VisitedSet} {msg : String}
    (h : List.Chain' (fun a b => follows clean Recurse a b = true)
      (pre ++ Event.dup d s :: post))
    (hs : (duplicate d s).1 = Res.exit msg) : post = [] := by
  cases post with
  | nil => rfl
  | cons x post =>
    have := follows_of_chain h
    simp [hs] at this

theorem getLast_append_singleton (pre : List Event) (e : Event) :
    (pre ++ [e]).getLast? = some e := by
  simp

theorem install_cases (c : Collab) (clean Recurse : Bool) (fuel : Nat) (deps : DependencyMap) :
    (Install c clean Recurse fuel deps).st.trace = [] ∨
    Walk c clean Recurse deps.Map none st0 (Install c clean Recurse fuel deps).st.trace
      (Install c clean Recurse fuel deps) := by
  have hst : Install c clean Recurse fuel deps = recursiveInstall c clean Recurse fuel deps st0 :=
    rfl
  rcases recursiveInstall_walk c clean Recurse fuel deps st0 with h0 | ⟨new, hw⟩
  · left; rw [hst, h0]; rfl
  · right
    have ht := hw.trace_eq
    simp only [st0, List.nil_append] at ht
    rw [hst]
    rw [show (recursiveInstall c clean Recurse fuel deps st0).st.trace = new from ht]
    exact hw

/-- C7: if a run of `Install`, at whatever nesting depth, calls `duplicate` for an
entry whose repository is already in the visited set with another version, then
that call is the last event of the whole run (no version-control step, staleness
query, manifest search or read, and no further entry of any manifest comes after
it) and the run ends with the fatal outcome. -/
theorem conflict_halts (c : Collab) (clean Recurse : Bool) (fuel : Nat) (deps : DependencyMap)
    (pre post : List Event) (d : Dependency) (s : VisitedSet) (v : String)
    (htr : (Install c clean Recurse fuel deps).st.trace = pre ++ Event.dup d s :: post)
    (hv : mapGet s d.Repo = some v) (hne : v ≠ d.Version) :
    post = [] ∧ ∃ msg st, Install c clean Recurse fuel deps = Run.fatal msg st := by
  have hexit : (duplicate d s).1 = Res.exit ("Versions : " ++ d.Version ++ "\t" ++ v) := by
    rw [duplicate_conflict d s v hv hne]
  rcases install_cases c clean Recurse fuel deps with h0 | hw
  · rw [h0] at htr
    simp at htr
  · obtain ⟨hchain, -, hends⟩ := hw.chain
    rw [htr] at hchain hends
    have hpost := chain_exit_last hchain hexit
    subst hpost
    refine ⟨rfl, ?_⟩
    rcases hr : Install c clean Recurse fuel deps with ⟨e, st⟩ | ⟨msg, st⟩ | st
    · rw [hr] at hends
      have hres : (Event.dup d s).resumes clean Recurse :=
        hends _ (by rw [getLast_append_singleton]; rfl)
      have := hres (Event.dup d s) rfl
      simp [hexit] at this
    · exact ⟨msg, st, rfl⟩
    · rw [hr] at hends
      obtain ⟨d1, f, hl⟩ := hends
      rw [getLast_append_singleton] at hl
      cases hl

/-! ## A failed step abandons the dependency -/

theorem mem_dropLast_of_split {α : Type} (A B : List α) (e : α) (hB : B ≠ []) :
    e ∈ (A ++ e :: B).dropLast := by
  have hne : e :: B ≠ [] := by simp
  rw [List.dropLast_append_of_ne_nil _ hne]
  apply List.mem_append_right
  cases B with
  | nil => exact absurd rfl hB
  | cons b B => simp [List.dropLast]

theorem visitShape_failed_last (clean Recurse : Bool) (d : Dependency) (stale : Bool)
    (a1 a2 a3 a4 a5 : Option String) (f : String) (ok : Bool) :
    ∀ e ∈ (visitShape clean Recurse d stale a1 a2 a3 a4 a5 f ok).dropLast,
      e.isFailedStep = false := by
  unfold visitShape lifeShape lifeOk findShape
  split_ifs <;> simp_all [List.dropLast, Event.isFailedStep]

theorem ownEvents_eq_nil_iff (R : String) (l : List Event) :
    ownEvents R l = [] ↔ ∀ e ∈ l, e.isDup = false → e.dep.Repo ≠ R := by
  unfold ownEvents
  rw [List.filter_eq_nil_iff]
  constructor
  · intro h e he hd hr
    exact h e he (by simp [hd, hr])
  · intro h e he
    by_cases hd : e.isDup = true
    · simp [hd]
    · have hd' : e.isDup = false := by simpa using hd
      simp [hd', h e he hd']

/-- C9: in the events of any run of `recursiveInstall`, when a Clone, Fetch,
Checkout or Update returns an error, the next call made, if any, is the call of
`duplicate` for another entry, and no later call other than `duplicate` (no
version-control step, no staleness query, no search or reading of a nested
manifest) is made for that repository. In particular after a failed Fetch neither
Checkout nor Update is attempted for the dependency. -/
theorem failed_step_abandons (c : Collab) (clean Recurse : Bool) (fuel : Nat)
    (deps : DependencyMap) (st : St) (pre post : List Event) (s : Step) (d : Dependency)
    (msg : String)
    (htr : newEvents c clean Recurse fuel deps st = pre ++ Event.vcs s d (some msg) :: post)
    (hs : s ≠ Step.Clean) :
    (∀ e ∈ post.head?, e.isDup = true) ∧
    (∀ e ∈ post, e.isDup = false → e.dep.Repo ≠ d.Repo) := by
  rcases newEvents_cases c clean Recurse fuel deps st with ⟨-, h0⟩ | hw
  · rw [h0] at htr; simp at htr
  · rw [htr] at hw
    constructor
    · cases post with
      | nil => simp
      | cons x post =>
        have hf := follows_of_chain hw.chain.1
        intro e he
        simp only [List.head?_cons, Option.mem_def, Option.some.injEq] at he
        subst he
        cases s <;> simp_all
    · rw [← ownEvents_eq_nil_iff]
      have hp := hw.proj d.Repo
      have hown : ownEvents d.Repo (pre ++ Event.vcs s d (some msg) :: post) =
          ownEvents d.Repo pre ++ Event.vcs s d (some msg) :: ownEvents d.Repo post := by
        rw [ownEvents_append, ownEvents_cons]
        simp [Event.isDup, Event.dep]
      by_cases hc : mapGet st.set d.Repo = none ∧
          mapGet (recursiveInstall c clean Recurse fuel deps st).st.set d.Repo ≠ none
      · obtain ⟨d1, st1, hd1, hblock⟩ := hp.1 hc
        obtain ⟨a1, a2, a3, a4, a5, f, ok, hsh, -⟩ := visit_shape c clean Recurse d1 st1
        by_contra hne
        have hmem := mem_dropLast_of_split (ownEvents d.Repo pre)
          (ownEvents d.Repo post) (Event.vcs s d (some msg)) hne
        rw [← hown, hblock, hsh] at hmem
        have := visitShape_failed_last clean Recurse d1 _ a1 a2 a3 a4 a5 f ok _ hmem
        cases s <;> simp_all [Event.isFailedStep]
      · have := hp.2 hc
        rw [hown] at this
        simp at this

/-! ## The result of Clean is not looked at -/

/-- Counterexample to C10 as stated: with the clean option on, in a world where
Clean fails for every dependency, the steps after Clean are still made for
dependency `a` (Fetch, Checkout, Update), its nested manifest is searched, read and
walked, and dependency `b` found there is installed in the same way. -/
theorem clean_failure_does_not_abandon :
    newEvents (exWorld true exCleanFails [("src/a/deps.json", ⟨[("b", exB)]⟩)]) true true 2
        ⟨[("a", exA)]⟩ st0 =
      [Event.dup exA [], Event.isStale exA true, Event.vcs Step.Clone exA none, Event.cd exA,
        Event.vcs Step.Clean exA (some "clean failed"), Event.vcs Step.Fetch exA none,
        Event.vcs Step.Checkout exA none, Event.vcs Step.Update exA none,
        Event.upwardFind exA "src/a/deps.json", Event.read exA "src/a/deps.json" true,
        Event.dup exB [("github.com/x/a", "v1")], Event.isStale exB true,
        Event.vcs Step.Clone exB none, Event.cd exB,
        Event.vcs Step.Clean exB (some "clean failed"), Event.vcs Step.Fetch exB none,
        Event.vcs Step.Checkout exB none, Event.vcs Step.Update exB none,
        Event.upwardFind exB ""] := by
  decide

/-- C10, amended: the error returned by Clean is ignored. In the events of any run
of `recursiveInstall`, a call of Clean, whether it failed or not, is followed at
once by the Fetch or the Checkout of the same dependency: a failure of Clean
abandons nothing. -/
theorem clean_error_ignored (c : Collab) (clean Recurse : Bool) (fuel : Nat)
    (deps : DependencyMap) (st : St) (pre post : List Event) (d : Dependency)
    (err : Option String)
    (htr : newEvents c clean Recurse fuel deps st = pre ++ Event.vcs Step.Clean d err :: post) :
    ∃ x rest, post = x :: rest ∧
      (x.isVcsOf Step.Fetch d = true ∨ x.isVcsOf Step.Checkout d = true) := by
  rcases newEvents_cases c clean Recurse fuel deps st with ⟨-, h0⟩ | hw
  · rw [h0] at htr; simp at htr
  · rw [htr] at hw
    obtain ⟨hchain, -, hends⟩ := hw.chain
    cases post with
    | nil =>
      exfalso
      rcases hr : recursiveInstall c clean Recurse fuel deps st with ⟨e, s1⟩ | ⟨m, s1⟩ | s1
      · rw [hr] at hends
        have hres : (Event.vcs Step.Clean d err).resumes clean Recurse :=
          hends _ (by rw [getLast_append_singleton]; rfl)
        have := hres (Event.dup d []) rfl
        simp [Event.isVcsOf] at this
      · rw [hr] at hends
        obtain ⟨d1, s2, m1, hl, -⟩ := hends
        rw [getLast_append_singleton] at hl
        cases hl
      · rw [hr] at hends
        obtain ⟨d1, f, hl⟩ := hends
        rw [getLast_append_singleton] at hl
        cases hl
    | cons x rest =>
      have hf := follows_of_chain hchain
      refine ⟨x, rest, rfl, ?_⟩
      simpa using hf

theorem clean_error_ignored_witness :
    ∃ x rest,
      (newEvents (exWorld true exCleanFails []) true true 1 ⟨[("a", exA)]⟩ st0).drop 5
        = x :: rest ∧
      (x.isVcsOf Step.Fetch exA = true ∨ x.isVcsOf Step.Checkout exA = true) :=
  clean_error_ignored (exWorld true exCleanFails []) true true 1 ⟨[("a", exA)]⟩ st0
    ((newEvents (exWorld true exCleanFails []) true true 1 ⟨[("a", exA)]⟩ st0).take 4)
    ((newEvents (exWorld true exCleanFails []) true true 1 ⟨[("a", exA)]⟩ st0).drop 5)
    exA (some "clean failed") (by decide)

/-! ## Examples -/

theorem duplicate_fatal_iff_witness :
    (∃ msg, (duplicate exA2 [("github.com/x/a", "v1")]).1 = Res.exit msg) ∧
    (duplicate exA2 [("github.com/x/a", "v1")]).2 = [("github.com/x/a", "v1")] :=
  ⟨(duplicate_fatal_iff exA2 [("github.com/x/a", "v1")]).1.2 ⟨"v1", by decide, by decide⟩,
   (duplicate_fatal_iff exA2 [("github.com/x/a", "v1")]).2
    ((duplicate_fatal_iff exA2 [("github.com/x/a", "v1")]).1.2 ⟨"v1", by decide, by decide⟩)⟩

theorem duplicate_skip_iff_witness :
    (duplicate exA [("github.com/x/a", "v1")]).1 = Res.ret true ∧
    (duplicate exA [("github.com/x/a", "v1")]).2 = [("github.com/x/a", "v1")] :=
  ⟨(duplicate_skip_iff exA [("github.com/x/a", "v1")]).1.2 (by decide),
   (duplicate_skip_iff exA [("github.com/x/a", "v1")]).2
    ((duplicate_skip_iff exA [("github.com/x/a", "v1")]).1.2 (by decide))⟩

theorem clone_once_per_repo_witness :
    Install (exWorld false exNoFail [("src/b/deps.json", ⟨[("a", exA)]⟩)]) false true 2
        ⟨[("a", exA), ("b", exB)]⟩ =
      Run.done none (Install (exWorld false exNoFail [("src/b/deps.json", ⟨[("a", exA)]⟩)])
        false true 2 ⟨[("a", exA), ("b", exB)]⟩).st ∧
    cloneCount exA.Repo (Install (exWorld false exNoFail [("src/b/deps.json", ⟨[("a", exA)]⟩)])
        false true 2 ⟨[("a", exA), ("b", exB)]⟩).st.trace = 1 :=
  ⟨by decide,
   (clone_once_per_repo (exWorld false exNoFail [("src/b/deps.json", ⟨[("a", exA)]⟩)])
      false true 2 ⟨[("a", exA), ("b", exB)]⟩ none _ (by decide)).1 exA [] (by decide)⟩

theorem conflict_halts_witness :
    ∃ msg st, Install (exWorld false exNoFail [("src/b/deps.json", ⟨[("a", exA2)]⟩)])
      false true 2 ⟨[("a", exA), ("b", exB)]⟩ = Run.fatal msg st :=
  (conflict_halts (exWorld false exNoFail [("src/b/deps.json", ⟨[("a", exA2)]⟩)])
    false true 2 ⟨[("a", exA), ("b", exB)]⟩
    ((Install (exWorld false exNoFail [("src/b/deps.json", ⟨[("a", exA2)]⟩)])
      false true 2 ⟨[("a", exA), ("b", exB)]⟩).st.trace.dropLast) []
    exA2 [("github.com/x/b", "v1"), ("github.com/x/a", "v1")] "v1"
    (by decide) (by decide) (by decide)).2

theorem failed_step_abandons_witness :
    newEvents (exWorld true exFetchFailsA []) false true 1 ⟨[("a", exA), ("b", exB)]⟩ st0 =
      (newEvents (exWorld true exFetchFailsA []) false true 1
          ⟨[("a", exA), ("b", exB)]⟩ st0).take 4 ++
        Event.vcs Step.Fetch exA (some "fetch failed") ::
          (newEvents (exWorld true exFetchFailsA []) false true 1
            ⟨[("a", exA), ("b", exB)]⟩ st0).drop 5 ∧
    ∀ e ∈ (newEvents (exWorld true exFetchFailsA []) false true 1
        ⟨[("a", exA), ("b", exB)]⟩ st0).drop 5,
      e.isDup = false → e.dep.Repo ≠ exA.Repo :=
  ⟨by decide,
   (failed_step_abandons (exWorld true exFetchFailsA []) false true 1
    ⟨[("a", exA), ("b", exB)]⟩ st0
    ((newEvents (exWorld true exFetchFailsA []) false true 1
      ⟨[("a", exA), ("b", exB)]⟩ st0).take 4)
    ((newEvents (exWorld true exFetchFailsA []) false true 1
      ⟨[("a", exA), ("b", exB)]⟩ st0).drop 5)
    Step.Fetch exA "fetch failed" (by decide) (by decide)).2⟩

/-! ## The loop, one entry at a time -/

theorem installLoop_exit (c : Collab) (clean Recurse : Bool) (recurse : DependencyMap → St → Run)
    (n : String) (d : Dependency) (rest : List (String × Dependency)) (err : Option String)
    (st : St) (msg : String) (set : VisitedSet)
    (hd : duplicate d st.set = (Res.exit msg, set)) :
    installLoop c clean Recurse recurse ((n, d) :: rest) err st
      = Run.fatal msg (st.afterDup d set) := by
  simp [installLoop, hd, St.afterDup, St.log_set]

theorem installLoop_skip (c : Collab) (clean Recurse : Bool) (recurse : DependencyMap → St → Run)
    (n : String) (d : Dependency) (rest : List (String × Dependency)) (err : Option String)
    (st : St) (set : VisitedSet)
    (hd : duplicate d st.set = (Res.ret true, set)) :
    installLoop c clean Recurse recurse ((n, d) :: rest) err st
      = installLoop c clean Recurse recurse rest err (st.afterDup d set) := by
  simp [installLoop, hd, St.afterDup, St.log_set]

theorem installLoop_leaf (c : Collab) (clean Recurse : Bool) (recurse : DependencyMap → St → Run)
    (n : String) (d : Dependency) (rest : List (String × Dependency)) (err : Option String)
    (st : St) (set : VisitedSet) (err1 : Option String) (st1 : St)
    (hd : duplicate d st.set = (Res.ret false, set))
    (hv : visit c clean Recurse d (st.afterDup d set) = (err1, none, st1)) :
    installLoop c clean Recurse recurse ((n, d) :: rest) err st
      = installLoop c clean Recurse recurse rest err1 st1 := by
  simp only [St.afterDup] at hv
  simp [installLoop, hd, hv, St.log_set]

theorem installLoop_nested (c : Collab) (clean Recurse : Bool)
    (recurse : DependencyMap → St → Run)
    (n : String) (d : Dependency) (rest : List (String × Dependency)) (err : Option String)
    (st : St) (set : VisitedSet) (err1 : Option String) (sub : DependencyMap) (st1 : St)
    (hd : duplicate d st.set = (Res.ret false, set))
    (hv : visit c clean Recurse d (st.afterDup d set) = (err1, some sub, st1)) :
    installLoop c clean Recurse recurse ((n, d) :: rest) err st
      = match recurse sub st1 with
        | Run.done _ st => installLoop c clean Recurse recurse rest err1 st
        | Run.fatal msg st => Run.fatal msg st
        | Run.outOfFuel st => Run.outOfFuel st := by
  simp only [St.afterDup] at hv
  simp only [installLoop, hd, hv, St.log_set, St.log_trace, St.log_errors]

/-! ## Termination on a bounded set of repositories -/

theorem recursiveInstall_subMap (c : Collab) (clean Recurse : Bool) (fuel : Nat)
    (deps : DependencyMap) (st : St) :
    SubMap st.set (recursiveInstall c clean Recurse fuel deps st).st.set := by
  rcases recursiveInstall_walk c clean Recurse fuel deps st with h | ⟨new, hw⟩
  · rw [h]; exact SubMap.refl _
  · exact hw.mono.1

theorem missing_mono (U : List String) {s t : VisitedSet} (h : SubMap s t) :
    (missing U t).card ≤ (missing U s).card := by
  apply Finset.card_le_card
  intro R hR
  simp only [missing, Finset.mem_filter] at hR ⊢
  refine ⟨hR.1, ?_⟩
  by_contra hne
  exact h.keeps hne hR.2

theorem missing_fresh (U : List String) (s : VisitedSet) (R v : String) (hU : R ∈ U)
    (habs : mapGet s R = none) :
    (missing U (mapSet s R v)).card < (missing U s).card := by
  apply Finset.card_lt_card
  constructor
  · intro k hk
    simp only [missing, Finset.mem_filter] at hk ⊢
    refine ⟨hk.1, ?_⟩
    by_cases hkR : k = R
    · subst hkR; exact habs
    · rw [mapGet_mapSet_ne s R v k hkR] at hk; exact hk.2
  · intro hsub
    have hR : R ∈ missing U s := by
      simp only [missing, Finset.mem_filter, List.mem_toFinset]
      exact ⟨hU, habs⟩
    have := hsub hR
    simp only [missing, Finset.mem_filter, mapGet_mapSet_self] at this
    exact absurd this.2 (by simp)

theorem duplicate_fresh_inv (d : Dependency) (s set : VisitedSet)
    (hd : duplicate d s = (Res.ret false, set)) :
    mapGet s d.Repo = none ∧ set = mapSet s d.Repo d.Version := by
  cases h : mapGet s d.Repo with
  | none =>
    rw [duplicate_fresh d s h] at hd
    exact ⟨rfl, (Prod.mk.inj hd).2.symm⟩
  | some w =>
    by_cases hw : w = d.Version
    · subst hw; rw [duplicate_skip d s h] at hd; simp at hd
    · rw [duplicate_conflict d s w h hw] at hd; simp at hd

/-- If the dependencies met all have their repository in the list `U`, and every
nested manifest read for one of them lists only such dependencies, then a nesting
bound larger than the number of repositories of `U` still missing from the visited
set is never exhausted. -/
theorem recursiveInstall_terminates (c : Collab) (clean Recurse : Bool)
    (Good : Dependency → Prop) (U : List String)
    (hU : ∀ d, Good d → d.Repo ∈ U)
    (hsub : ∀ d st err sub st1, Good d → visit c clean Recurse d st = (err, some sub, st1) →
      ∀ e ∈ sub.Map, Good e.2) :
    ∀ fuel deps st, (∀ e ∈ deps.Map, Good e.2) → (missing U st.set).card < fuel →
      (recursiveInstall c clean Recurse fuel deps st).isOut = false := by
  intro fuel
  induction fuel with
  | zero => intro deps st _ h; exact absurd h (Nat.not_lt_zero _)
  | succ fuel ih =>
    intro deps st hgood hcard
    have hloop : ∀ (l : List (String × Dependency)) (err : Option String) (st : St),
        (∀ e ∈ l, Good e.2) → (missing U st.set).card ≤ fuel →
        (installLoop c clean Recurse (recursiveInstall c clean Recurse fuel) l err st).isOut
          = false := by
      intro l
      induction l with
      | nil => intro err st _ _; rfl
      | cons e rest ihl =>
        intro err st hg hc
        obtain ⟨n, d⟩ := e
        have hgd : Good d := hg (n, d) (List.mem_cons_self _ _)
        have hgr : ∀ e ∈ rest, Good e.2 := fun e he => hg e (List.mem_cons_of_mem _ he)
        rcases hd : duplicate d st.set with ⟨res, set⟩
        rcases res with (_ | _) | msg
        · -- a fresh dependency: one repository less is missing
          obtain ⟨habs, hset⟩ := duplicate_fresh_inv d st.set set hd
          have hlt : (missing U set).card < (missing U st.set).card := by
            rw [hset]; exact missing_fresh U st.set d.Repo d.Version (hU d hgd) habs
          rcases hv : visit c clean Recurse d (st.afterDup d set) with ⟨err1, sub, st1⟩
          have hs1 : st1.set = set := (visit_result hv).1
          cases sub with
          | none =>
            rw [installLoop_leaf c clean Recurse _ n d rest err st set err1 st1 hd hv]
            apply ihl err1 st1 hgr
            rw [hs1]; omega
          | some sub =>
            rw [installLoop_nested c clean Recurse _ n d rest err st set err1 sub st1 hd hv]
            have hin := ih sub st1 (hsub d _ err1 sub st1 hgd hv) (by rw [hs1]; omega)
            have hmono := recursiveInstall_subMap c clean Recurse fuel sub st1
            rcases hr : recursiveInstall c clean Recurse fuel sub st1 with
              ⟨err2, st2⟩ | ⟨msg, st2⟩ | st2
            · rw [hr] at hmono
              simp only [Run.st] at hmono
              apply ihl err1 st2 hgr
              have := missing_mono U hmono
              rw [hs1] at this
              omega
            · rfl
            · rw [hr] at hin; cases hin
        · rw [installLoop_skip c clean Recurse _ n d rest err st set hd]
          have hset : set = st.set := duplicate_set_eq d st.set set _ hd (by simp)
          apply ihl err _ hgr
          simp only [St.afterDup, hset]
          exact hc
        · rw [installLoop_exit c clean Recurse _ n d rest err st msg set hd]
          rfl
    exact hloop deps.Map none st hgood (by omega)

/-! ## Conflicts in a dependency graph -/

theorem faithful_lifecycle_ok {c : Collab} {G : Graph} {top : DependencyMap}
    (hF : Faithful c G top) (clean : Bool) (d : Dependency) (st : St) :
    (lifecycle c clean d st).2.1 = true := by
  simp only [lifecycle, St.log, hF.clone, hF.fetch, hF.checkout, hF.update]
  split_ifs <;> simp_all

theorem faithful_visit {c : Collab} {G : Graph} {top : DependencyMap}
    (hF : Faithful c G top) (clean : Bool) (d : Dependency) (hd : Reach G top d) (st : St) :
    match (visit c clean true d st).2.1 with
    | none => G d.Repo d.Version = []
    | some sub => ∀ e, e ∈ sub.Map.map Prod.snd ↔ e ∈ G d.Repo d.Version := by
  rw [visit_eq, faithful_lifecycle_ok hF clean d st]
  simp only [if_true, findNested, St.log]
  rcases hF.nested (lifecycle c clean d st).2.2.trace
      ((lifecycle c clean d st).2.2.trace ++
        [Event.upwardFind d (c.UpwardFind (lifecycle c clean d st).2.2.trace d.Path)]) d hd with
    ⟨h0, hG⟩ | ⟨h1, sub, hr, hsub⟩
  · simp [h0, hG]
  · simp [h1, hr, hsub]

theorem covers_mono {s t : VisitedSet} {l : List Dependency} (h : SubMap s t)
    (hc : Covers s l) : Covers t l :=
  fun e he => h _ _ (hc e he)

/-- In a faithful world with recursion on, a walk that returns has put every entry
it walked into the visited set with its own version, and has done the same for the
nested manifest of every repository it added. -/
theorem Walk.closed {c : Collab} {clean : Bool} {G : Graph} {top : DependencyMap}
    (hF : Faithful c G top) {l : List (String × Dependency)}
    {err : Option String} {st : St} {new : List Event} {r : Run}
    (h : Walk c clean true l err st new r) :
    (∀ e ∈ l, Reach G top e.2) → ∀ err1 st1, r = Run.done err1 st1 →
      Covers st1.set (l.map Prod.snd) ∧ ClosedFrom G st.set st1.set := by
  induction h with
  | nil err st =>
    intro _ err1 st1 hr
    cases hr
    constructor
    · intro e he; cases he
    · intro R v h0 h1
      rw [h0] at h1; cases h1
  | conflict n d rest err st msg set hd => intro _ err1 st1 hr; cases hr
  | skip n d rest err st set new r hd hr ih =>
    intro hg err1 st1 hr1
    have hset : set = st.set := duplicate_set_eq d st.set set _ hd (by simp)
    subst hset
    obtain ⟨hc, hcl⟩ := ih (fun e he => hg e (List.mem_cons_of_mem _ he)) err1 st1 hr1
    have hm := hr.mono.1
    rw [hr1] at hm
    simp only [Run.st, St.afterDup] at hm
    have hget : mapGet st.set d.Repo = some d.Version := by
      have := duplicate_ret_get d st.set true (by rw [hd])
      rw [hd] at this; exact this
    refine ⟨?_, hcl⟩
    intro e he
    simp only [List.map_cons, List.mem_cons] at he
    rcases he with rfl | he
    · exact hm _ _ hget
    · exact hc e he
  | leaf n d rest err st set err1 st1 new r hd hv hr ih =>
    intro hg err2 st2 hr2
    obtain ⟨habs, hset⟩ := duplicate_fresh_inv d st.set set hd
    have hgd : Reach G top d := hg (n, d) (List.mem_cons_self _ _)
    obtain ⟨hc, hcl⟩ := ih (fun e he => hg e (List.mem_cons_of_mem _ he)) err2 st2 hr2
    have hs1 : st1.set = set := (visit_result hv).1
    have hm := hr.mono.1
    rw [hr2, hs1] at hm
    simp only [Run.st] at hm
    have hget : mapGet set d.Repo = some d.Version := by
      rw [hset]; exact mapGet_mapSet_self _ _ _
    have hleaf : G d.Repo d.Version = [] := by
      have := faithful_visit hF clean d hgd (st.afterDup d set)
      rw [hv] at this; exact this
    constructor
    · intro e he
      simp only [List.map_cons, List.mem_cons] at he
      rcases he with rfl | he
      · exact hm _ _ hget
      · exact hc e he
    · intro R v h0 h1
      by_cases hR : R = d.Repo
      · subst hR
        have hv1 : v = d.Version := by
          have := hm _ _ hget
          rw [h1] at this; exact Option.some.inj this
        rw [hv1, hleaf]
        intro e he; cases he
      · apply hcl R v _ h1
        rw [hs1, hset, mapGet_mapSet_ne _ _ _ _ hR]; exact h0
  | cut n d rest err st set err1 st1 sub hd hv => intro _ err1 st1 hr; cases hr
  | nested n d rest err st set err1 st1 sub new1 err2 st2 new r hd hv hn hr ihn ihr =>
    intro hg err3 st3 hr3
    obtain ⟨habs, hset⟩ := duplicate_fresh_inv d st.set set hd
    have hgd : Reach G top d := hg (n, d) (List.mem_cons_self _ _)
    have hs1 : st1.set = set := (visit_result hv).1
    have hsubG : ∀ e, e ∈ sub.Map.map Prod.snd ↔ e ∈ G d.Repo d.Version := by
      have := faithful_visit hF clean d hgd (st.afterDup d set)
      rw [hv] at this; exact this
    have hgsub : ∀ e ∈ sub.Map, Reach G top e.2 := by
      intro e he
      exact Reach.step d e.2 hgd ((hsubG e.2).1 (List.mem_map.2 ⟨e, he, rfl⟩))
    obtain ⟨hcn, hcln⟩ := ihn hgsub err2 st2 rfl
    obtain ⟨hcr, hclr⟩ := ihr (fun e he => hg e (List.mem_cons_of_mem _ he)) err3 st3 hr3
    have hmn := hn.mono.1
    simp only [Run.st] at hmn
    rw [hs1] at hmn hcln
    have hmr := hr.mono.1
    rw [hr3] at hmr
    simp only [Run.st] at hmr
    have hget : mapGet set d.Repo = some d.Version := by
      rw [hset]; exact mapGet_mapSet_self _ _ _
    constructor
    · intro e he
      simp only [List.map_cons, List.mem_cons] at he
      rcases he with rfl | he
      · exact hmr _ _ (hmn _ _ hget)
      · exact hcr e he
    · intro R v h0 h1
      by_cases hR : R = d.Repo
      · subst hR
        have hv1 : v = d.Version := by
          have := hmr _ _ (hmn _ _ hget)
          rw [h1] at this; exact Option.some.inj this
        rw [hv1]
        intro e he
        exact hmr _ _ (hcn e ((hsubG e).2 he))
      · have h0set : mapGet set R = none := by
          rw [hset, mapGet_mapSet_ne _ _ _ _ hR]; exact h0
        cases h2 : mapGet st2.set R with
        | none => exact hclr R v h2 h1
        | some w =>
          have hwv : w = v := by
            have := hmr _ _ h2
            rw [h1] at this; exact (Option.some.inj this).symm
          subst hwv
          exact covers_mono hmr (hcln R w h0set h2)
  | nestedFatal n d rest err st set err1 st1 sub new1 msg st2 hd hv hn ihn =>
    intro _ err1 st1 hr; cases hr
  | nestedCut n d rest err st set err1 st1 sub new1 st2 hd hv hn ihn =>
    intro _ err1 st1 hr; cases hr

theorem reach_covered {c : Collab} {clean : Bool} {G : Graph} {top : DependencyMap}
    (hF : Faithful c G top) {order : List (String × Dependency)}
    (hperm : order.Perm top.Map) {fuel : Nat} {err : Option String} {st : St}
    (h : Install c clean true fuel ⟨order⟩ = Run.done err st) :
    ∀ d, Reach G top d → mapGet st.set d.Repo = some d.Version := by
  have hw := install_done_walk h
  have hg : ∀ e ∈ order, Reach G top e.2 := by
    intro e he
    exact Reach.top e.1 e.2 (hperm.mem_iff.1 he)
  obtain ⟨hc, hcl⟩ := hw.closed hF hg err st rfl
  intro d hd
  induction hd with
  | top n d hmem =>
    exact hc d (List.mem_map.2 ⟨(n, d), hperm.mem_iff.2 hmem, rfl⟩)
  | step d e _ he ih =>
    exact hcl d.Repo d.Version rfl ih e he

theorem missing_card_le (U : List String) (s : VisitedSet) :
    (missing U s).card ≤ U.length :=
  le_trans (Finset.card_filter_le _ _) (List.toFinset_card_le U)

/-- C8, amended: take a dependency graph below a top-level manifest in which two
reachable entries share a repository but differ in version, and whose reachable
repositories all lie in a finite list `U`. In every world that shows this graph
(Clone, Fetch, Checkout and Update succeed, and the nested manifest of every
reachable entry is found and read, in any order, as the graph gives it for the
repository and version of the entry), with recursion on, `Install` ends with the
fatal conflict outcome for every order of the top-level entries, as soon as the
nesting bound exceeds the length of `U`. -/
theorem conflict_fatal_any_order (c : Collab) (clean : Bool) (G : Graph)
    (top : DependencyMap) (U : List String) (hF : Faithful c G top)
    (hU : ∀ d, Reach G top d → d.Repo ∈ U)
    (d1 d2 : Dependency) (h1 : Reach G top d1) (h2 : Reach G top d2)
    (hrepo : d1.Repo = d2.Repo) (hver : d1.Version ≠ d2.Version)
    (order : List (String × Dependency)) (hperm : order.Perm top.Map)
    (fuel : Nat) (hfuel : U.length < fuel) :
    ∃ msg st, Install c clean true fuel ⟨order⟩ = Run.fatal msg st := by
  have hsub : ∀ d st err sub st1, Reach G top d →
      visit c clean true d st = (err, some sub, st1) → ∀ e ∈ sub.Map, Reach G top e.2 := by
    intro d st err sub st1 hd hv e he
    have := faithful_visit hF clean d hd st
    rw [hv] at this
    exact Reach.step d e.2 hd ((this e.2).1 (List.mem_map.2 ⟨e, he, rfl⟩))
  have hterm := recursiveInstall_terminates c clean true (Reach G top) U hU hsub fuel
    ⟨order⟩ st0 (fun e he => Reach.top e.1 e.2 (hperm.mem_iff.1 he))
    (lt_of_le_of_lt (missing_card_le U _) hfuel)
  rcases hr : Install c clean true fuel ⟨order⟩ with ⟨err, st⟩ | ⟨msg, st⟩ | st
  · exfalso
    have hcov := reach_covered hF hperm hr
    have e1 := hcov d1 h1
    have e2 := hcov d2 h2
    rw [hrepo, e2] at e1
    exact hver (Option.some.inj e1).symm
  · exact ⟨msg, st, rfl⟩
  · exfalso
    have : Install c clean true fuel ⟨order⟩ = recursiveInstall c clean true fuel ⟨order⟩ st0 :=
      rfl
    rw [← this, hr] at hterm
    cases hterm

/-! ### The example graph -/

theorem exGraph_reach (d : Dependency)
    (h : Reach exGraph ⟨[("a", exA), ("b", exB)]⟩ d) : d = exA ∨ d = exB ∨ d = exA2 := by
  induction h with
  | top n d hmem =>
    simp only [List.mem_cons, Prod.mk.injEq, List.mem_singleton, List.not_mem_nil,
      or_false] at hmem
    rcases hmem with ⟨-, rfl⟩ | ⟨-, rfl⟩
    · exact Or.inl rfl
    · exact Or.inr (Or.inl rfl)
  | step d e _ he ih =>
    rcases ih with rfl | rfl | rfl
    · simp [exGraph, exA] at he
    · simp [exGraph, exB] at he
      exact Or.inr (Or.inr he)
    · simp [exGraph, exA2] at he

theorem exGraph_faithful :
    Faithful (exWorld false exNoFail [("src/b/deps.json", ⟨[("a", exA2)]⟩)]) exGraph
      ⟨[("a", exA), ("b", exB)]⟩ where
  clone := fun _ _ => rfl
  fetch := fun _ _ => rfl
  checkout := fun _ _ => rfl
  update := fun _ _ => rfl
  nested := by
    intro h h1 d hd
    rcases exGraph_reach d hd with rfl | rfl | rfl
    · left
      show (exWorld false exNoFail [("src/b/deps.json", ⟨[("a", exA2)]⟩)]).UpwardFind []
        exA.Path = "" ∧ exGraph exA.Repo exA.Version = []
      decide
    · right
      refine ⟨?_, ⟨[("a", exA2)]⟩, rfl, ?_⟩
      · show (exWorld false exNoFail [("src/b/deps.json", ⟨[("a", exA2)]⟩)]).UpwardFind []
          exB.Path ≠ ""
        decide
      · intro e
        simp [exGraph, exB]
    · left
      show (exWorld false exNoFail [("src/b/deps.json", ⟨[("a", exA2)]⟩)]).UpwardFind []
        exA2.Path = "" ∧ exGraph exA2.Repo exA2.Version = []
      decide

theorem conflict_fatal_any_order_witness :
    ∃ msg st, Install (exWorld false exNoFail [("src/b/deps.json", ⟨[("a", exA2)]⟩)]) false
      true 3 ⟨[("b", exB), ("a", exA)]⟩ = Run.fatal msg st :=
  conflict_fatal_any_order (exWorld false exNoFail [("src/b/deps.json", ⟨[("a", exA2)]⟩)])
    false exGraph ⟨[("a", exA), ("b", exB)]⟩ ["github.com/x/a", "github.com/x/b"]
    exGraph_faithful
    (by
      intro d hd
      rcases exGraph_reach d hd with rfl | rfl | rfl <;> decide)
    exA exA2 (Reach.top "a" exA (by decide))
    (Reach.step exB exA2 (Reach.top "b" exB (by decide)) (by decide))
    rfl (by decide) [("b", exB), ("a", exA)] (List.Perm.swap _ _ _) 3 (by decide)

/-- Counterexample to C8 as stated: the top-level manifest asks for repository `a`
at `v1` and for `b`; the manifest nested in `b` asks for `a` at `v2`. Clone fails
for `b`, so its nested manifest is never read, and `Install` returns without
reaching a conflict. -/
theorem conflict_missed_when_clone_fails :
    (exWorld false exCloneFailsB [("src/b/deps.json", ⟨[("a", exA2)]⟩)]).Read []
        ((exWorld false exCloneFailsB [("src/b/deps.json", ⟨[("a", exA2)]⟩)]).UpwardFind []
          exB.Path) = Except.ok ⟨[("a", exA2)]⟩ ∧
    Install (exWorld false exCloneFailsB [("src/b/deps.json", ⟨[("a", exA2)]⟩)]) false true 3
        ⟨[("a", exA), ("b", exB)]⟩ =
      Run.done (some "clone failed")
        { set := [("github.com/x/b", "v1"), ("github.com/x/a", "v1")],
          trace := [Event.dup exA [], Event.isStale exA false, Event.vcs Step.Clone exA none,
            Event.cd exA, Event.vcs Step.Checkout exA none, Event.upwardFind exA "",
            Event.dup exB [("github.com/x/a", "v1")], Event.isStale exB false,
            Event.vcs Step.Clone exB (some "clone failed")],
          errors := 0 } :=
  ⟨rfl, by decide⟩

/-! ## The empty manifest -/

/-- C15: `Install` on a manifest with no entries returns a nil error, makes no call
at all (the trace is empty: no version-control step, no staleness query, no search
or reading of a manifest), registers no error and leaves the visited set empty. The
nesting bound only has to allow the top-level call. -/
theorem install_empty (c : Collab) (clean Recurse : Bool) (fuel : Nat) :
    Install c clean Recurse (fuel + 1) ⟨[]⟩ =
      Run.done none { set := [], trace := [], errors := 0 } := rfl

/-! ## The key of `duplicate` -/

/-- C17: `duplicate` looks at the repository and the version only. Two dependencies
with the same `Repo` and the same `Version`, whatever their install path and their
kind of version control (the name is the key of the manifest and is not handed to
`duplicate` at all), get the same outcome and leave the same set, for every
visited set. -/
theorem duplicate_key_is_repo (d1 d2 : Dependency) (s : VisitedSet)
    (hr : d1.Repo = d2.Repo) (hv : d1.Version = d2.Version) :
    duplicate d1 s = duplicate d2 s := by
  simp [duplicate, hr, hv]

theorem duplicate_key_is_repo_witness :
    exA ≠ exAalt ∧
    duplicate exA [("github.com/x/a", "v1")] = duplicate exAalt [("github.com/x/a", "v1")] :=
  ⟨by decide, duplicate_key_is_repo exA exAalt [("github.com/x/a", "v1")] rfl rfl⟩

/-! ## Recursion switched off -/

theorem visit_sub_none_of_no_recurse (c : Collab) (clean : Bool) (d : Dependency) (st : St) :
    (visit c clean false d st).2.1 = none := by
  obtain ⟨a1, a2, a3, a4, a5, f, ok, -, hsub⟩ := visit_shape c clean false d st
  cases h : (visit c clean false d st).2.1 with
  | none => rfl
  | some sub => rw [h] at hsub; simp at hsub

theorem visitShape_no_read (clean : Bool) (d : Dependency) (stale : Bool)
    (a1 a2 a3 a4 a5 : Option String) (f : String) (ok : Bool) :
    ∀ e ∈ visitShape clean false d stale a1 a2 a3 a4 a5 f ok, e.isRead = false := by
  unfold visitShape lifeShape lifeOk findShape
  split_ifs <;> simp_all [Event.isRead]

/-- With recursion off, a walk stays in its own manifest: it never exhausts the
nesting bound, every event is about an entry of the manifest, none is a call of
`dep.Read`, and every repository in the visited set at the end was there at the
start or is the repository of an entry. -/
theorem Walk.flat {c : Collab} {clean : Bool} {l : List (String × Dependency)}
    {err : Option String} {st : St} {new : List Event} {r : Run}
    (h : Walk c clean false l err st new r) :
    r.isOut = false ∧
    (∀ e ∈ new, e.isRead = false ∧ e.dep ∈ l.map Prod.snd) ∧
    (∀ R, mapGet r.st.set R ≠ none → mapGet st.set R ≠ none ∨ ∃ e ∈ l, e.2.Repo = R) := by
  induction h with
  | nil err st => exact ⟨rfl, by simp, fun R h => Or.inl h⟩
  | conflict n d rest err st msg set hd =>
    have hset : set = st.set := duplicate_set_eq d st.set set _ hd (by simp)
    subst hset
    refine ⟨rfl, ?_, fun R h => Or.inl h⟩
    intro e he
    simp only [List.mem_singleton] at he
    subst he
    exact ⟨rfl, by simp [Event.dep]⟩
  | skip n d rest err st set new r hd hr ih =>
    have hset : set = st.set := duplicate_set_eq d st.set set _ hd (by simp)
    subst hset
    obtain ⟨i1, i2, i3⟩ := ih
    refine ⟨i1, ?_, ?_⟩
    · intro e he
      rcases List.mem_cons.1 he with rfl | he
      · exact ⟨rfl, by simp [Event.dep]⟩
      · exact ⟨(i2 e he).1, List.mem_cons_of_mem _ (i2 e he).2⟩
    · intro R hR
      rcases i3 R hR with h | ⟨e, he, hR⟩
      · exact Or.inl h
      · exact Or.inr ⟨e, List.mem_cons_of_mem _ he, hR⟩
  | leaf n d rest err st set err1 st1 new r hd hv hr ih =>
    obtain ⟨-, hset⟩ := duplicate_fresh_inv d st.set set hd
    obtain ⟨i1, i2, i3⟩ := ih
    rw [(visit_result hv).1] at i3
    simp only [St.afterDup] at i3
    refine ⟨i1, ?_, ?_⟩
    · intro e he
      rcases List.mem_cons.1 he with rfl | he
      · exact ⟨rfl, by simp [Event.dep]⟩
      · rcases List.mem_append.1 he with he | he
        · obtain ⟨a1, a2, a3, a4, a5, f, ok, hs, -⟩ :=
            visit_shape c clean false d (st.afterDup d set)
          rw [hs] at he
          refine ⟨visitShape_no_read clean d _ a1 a2 a3 a4 a5 f ok e he, ?_⟩
          rw [(visitShape_dep clean false d _ a1 a2 a3 a4 a5 f ok e he).1]
          simp
        · exact ⟨(i2 e he).1, List.mem_cons_of_mem _ (i2 e he).2⟩
    · intro R hR
      rcases i3 R hR with h | ⟨e, he, hR⟩
      · by_cases hRd : R = d.Repo
        · exact Or.inr ⟨(n, d), List.mem_cons_self _ _, hRd.symm⟩
        · rw [hset, mapGet_mapSet_ne _ _ _ _ hRd] at h
          exact Or.inl h
      · exact Or.inr ⟨e, List.mem_cons_of_mem _ he, hR⟩
  | cut n d rest err st set err1 st1 sub hd hv =>
    have := visit_sub_none_of_no_recurse c clean d (st.afterDup d set)
    rw [hv] at this; cases this
  | nested n d rest err st set err1 st1 sub new1 err2 st2 new r hd hv hn hr ihn ihr =>
    have := visit_sub_none_of_no_recurse c clean d (st.afterDup d set)
    rw [hv] at this; cases this
  | nestedFatal n d rest err st set err1 st1 sub new1 msg st2 hd hv hn ihn =>
    have := visit_sub_none_of_no_recurse c clean d (st.afterDup d set)
    rw [hv] at this; cases this
  | nestedCut n d rest err st set err1 st1 sub new1 st2 hd hv hn ihn =>
    have := visit_sub_none_of_no_recurse c clean d (st.afterDup d set)
    rw [hv] at this; cases this

/-- C12: with the `Recurse` option off, for every manifest and every behaviour of
the collaborators, `Install` ends within one level of nesting, never calls
`dep.Read`, makes every call (the version-control steps among them) for an entry of
the top-level manifest, and ends with a visited set whose repositories are all
repositories of top-level entries. -/
theorem no_recursion_when_disabled (c : Collab) (clean : Bool) (fuel : Nat)
    (deps : DependencyMap) :
    (Install c clean false (fuel + 1) deps).isOut = false ∧
    (∀ e ∈ (Install c clean false (fuel + 1) deps).st.trace,
      e.isRead = false ∧ e.dep ∈ deps.Map.map Prod.snd) ∧
    (∀ R, mapGet (Install c clean false (fuel + 1) deps).st.set R ≠ none →
      ∃ e ∈ deps.Map, e.2.Repo = R) := by
  rcases install_cases c clean false (fuel + 1) deps with h0 | hw
  · have hw := installLoop_walk c clean false (recursiveInstall c clean false fuel)
      (recursiveInstall_walk c clean false fuel) deps.Map none st0
    obtain ⟨new, hw⟩ := hw
    have hI : Install c clean false (fuel + 1) deps =
        installLoop c clean false (recursiveInstall c clean false fuel) deps.Map none st0 := rfl
    rw [← hI] at hw
    have ht := hw.trace_eq
    rw [h0] at ht
    simp only [st0, List.nil_append] at ht
    subst ht
    obtain ⟨f1, f2, f3⟩ := hw.flat
    rw [h0]
    refine ⟨f1, by simp, ?_⟩
    intro R hR
    rcases f3 R hR with h | h
    · simp [st0, mapGet] at h
    · exact h
  · obtain ⟨f1, f2, f3⟩ := hw.flat
    refine ⟨f1, f2, ?_⟩
    intro R hR
    rcases f3 R hR with h | h
    · simp [st0, mapGet] at h
    · exact h

/-! ## A nested manifest that cannot be read -/

theorem lifecycle_err_of_ok (c : Collab) (clean : Bool) (d : Dependency) (st : St)
    (h : (lifecycle c clean d st).2.1 = true) : (lifecycle c clean d st).1 = none := by
  simp only [lifecycle, St.log] at h ⊢
  split_ifs at h ⊢ <;> simp_all

/-- C13: take an entry `d` admitted as fresh whose lifecycle succeeds, for which a
manifest file is found and `dep.Read` fails with some error `m`, recursion being
on. Then the loop goes on with the remaining entries `rest` from a state in which
`result.RegisterError` has been called exactly once (one event, counter raised by
one), no recursive call has been made for `d`, and the current error value is
nil, not `m`: the read failure is not fatal and does not reach the value
returned. -/
theorem read_failure_is_local (c : Collab) (clean : Bool)
    (recurse : DependencyMap → St → Run) (n : String) (d : Dependency)
    (rest : List (String × Dependency)) (err : Option String) (st : St)
    (err1 : Option String) (st1 : St) (m : String)
    (hfresh : mapGet st.set d.Repo = none)
    (hl : lifecycle c clean d (st.afterDup d (mapSet st.set d.Repo d.Version))
      = (err1, true, st1))
    (hfound : c.UpwardFind st1.trace d.Path ≠ "")
    (hread : c.Read (st1.trace ++ [Event.upwardFind d (c.UpwardFind st1.trace d.Path)])
      (c.UpwardFind st1.trace d.Path) = Except.error m) :
    err1 = none ∧
    installLoop c clean true recurse ((n, d) :: rest) err st =
      installLoop c clean true recurse rest none
        { set := mapSet st.set d.Repo d.Version,
          trace := st1.trace ++ [Event.upwardFind d (c.UpwardFind st1.trace d.Path),
            Event.read d (c.UpwardFind st1.trace d.Path) false, Event.registerError d],
          errors := st.errors + 1 } := by
  have herr : err1 = none := by
    have := lifecycle_err_of_ok c clean d (st.afterDup d (mapSet st.set d.Repo d.Version))
      (by rw [hl])
    rw [hl] at this; exact this
  subst herr
  have hset : st1.set = mapSet st.set d.Repo d.Version := by
    have := lifecycle_set c clean d (st.afterDup d (mapSet st.set d.Repo d.Version))
    rw [hl] at this; exact this
  have herrs : st1.errors = st.errors := by
    have := lifecycle_errors c clean d (st.afterDup d (mapSet st.set d.Repo d.Version))
    rw [hl] at this; exact this
  refine ⟨rfl, ?_⟩
  have hv : visit c clean true d (st.afterDup d (mapSet st.set d.Repo d.Version)) =
      (none, none,
        { set := mapSet st.set d.Repo d.Version,
          trace := st1.trace ++ [Event.upwardFind d (c.UpwardFind st1.trace d.Path),
            Event.read d (c.UpwardFind st1.trace d.Path) false, Event.registerError d],
          errors := st.errors + 1 }) := by
    rw [visit_eq, hl]
    simp [findNested, St.log, hfound, hread, hset, herrs]
  exact installLoop_leaf c clean true recurse n d rest err st _ none _
    (duplicate_fresh d st.set hfresh) hv

theorem read_failure_is_local_witness :
    installLoop exBadRead false true (recursiveInstall exBadRead false true 1)
        [("a", exA), ("b", exB)] none st0 =
      installLoop exBadRead false true (recursiveInstall exBadRead false true 1)
        [("b", exB)] none
        { set := [("github.com/x/a", "v1")],
          trace := [Event.dup exA [], Event.isStale exA false, Event.vcs Step.Clone exA none,
            Event.cd exA, Event.vcs Step.Checkout exA none,
            Event.upwardFind exA "src/a/deps.json", Event.read exA "src/a/deps.json" false,
            Event.registerError exA],
          errors := 1 } :=
  (read_failure_is_local exBadRead false (recursiveInstall exBadRead false true 1) "a" exA
    [("b", exB)] none st0 none
    { set := [("github.com/x/a", "v1")],
      trace := [Event.dup exA [], Event.isStale exA false, Event.vcs Step.Clone exA none,
        Event.cd exA, Event.vcs Step.Checkout exA none],
      errors := 0 }
    "bad manifest" (by decide) (by decide) (by decide) rfl).2

/-! ## Depth first -/

theorem installLoop_trace (c : Collab) (clean Recurse : Bool) (fuel : Nat)
    (l : List (String × Dependency)) (err : Option String) (st : St) :
    (installLoop c clean Recurse (recursiveInstall c clean Recurse fuel) l err st).st.trace =
      st.trace ++
        (installLoop c clean Recurse (recursiveInstall c clean Recurse fuel) l err st).st.trace.drop
          st.trace.length := by
  obtain ⟨new, hw⟩ := installLoop_walk c clean Recurse (recursiveInstall c clean Recurse fuel)
    (recursiveInstall_walk c clean Recurse fuel) l err st
  rw [hw.trace_eq, List.drop_left]

theorem recursiveInstall_trace (c : Collab) (clean Recurse : Bool) (fuel : Nat)
    (deps : DependencyMap) (st : St) :
    (recursiveInstall c clean Recurse fuel deps st).st.trace =
      st.trace ++ newEvents c clean Recurse fuel deps st := by
  rcases newEvents_cases c clean Recurse fuel deps st with ⟨h, h0⟩ | hw
  · rw [h0, h]; simp [Run.st]
  · exact hw.trace_eq

/-- C16: the traversal is depth-first. When an entry `d` of a manifest is admitted
as fresh, its lifecycle succeeds and its nested manifest `sub` is read, and the
walk of `sub` returns, then the events of the loop from `d` on are, in this order:
the call of `duplicate` for `d`, the own events of `d` (its version-control steps
among them), all the events of the walk of `sub` (with everything nested below
it), and only then the events of the remaining entries of the parent manifest. -/
theorem depth_first_order (c : Collab) (clean Recurse : Bool) (fuel : Nat) (n : String)
    (d : Dependency) (rest : List (String × Dependency)) (err : Option String) (st : St)
    (set : VisitedSet) (err1 : Option String) (sub : DependencyMap) (st1 : St)
    (err2 : Option String) (st2 : St)
    (hd : duplicate d st.set = (Res.ret false, set))
    (hv : visit c clean Recurse d (st.afterDup d set) = (err1, some sub, st1))
    (hn : recursiveInstall c clean Recurse fuel sub st1 = Run.done err2 st2) :
    (installLoop c clean Recurse (recursiveInstall c clean Recurse fuel) ((n, d) :: rest)
        err st).st.trace =
      st.trace ++ Event.dup d st.set ::
        (visitEvents c clean Recurse d (st.afterDup d set) ++
          (newEvents c clean Recurse fuel sub st1 ++
            (installLoop c clean Recurse (recursiveInstall c clean Recurse fuel) rest err1
              st2).st.trace.drop st2.trace.length)) := by
  rw [installLoop_nested c clean Recurse _ n d rest err st set err1 sub st1 hd hv, hn]
  simp only
  rw [installLoop_trace]
  have h2 := recursiveInstall_trace c clean Recurse fuel sub st1
  rw [hn] at h2
  simp only [Run.st] at h2
  rw [h2, (visit_result hv).2]
  simp [St.afterDup]

/-! ## Every entry is presented -/

theorem presented_cons (c : Collab) (tr : List Event) (e : Event) (rest : List Event) :
    Presented c tr (e :: rest) ↔
      (e.isReadOk = true →
        ∀ sub, c.Read tr e.file = Except.ok sub →
          ∀ x ∈ sub.Map, ∃ s, Event.dup x.2 s ∈ rest) ∧
      Presented c (tr ++ [e]) rest := by
  rw [Presented]

theorem presented_of_no_readOk (c : Collab) (l : List Event) :
    ∀ tr, (∀ e ∈ l, e.isReadOk = false) → Presented c tr l := by
  induction l with
  | nil => intro tr _; trivial
  | cons e l ih =>
    intro tr h
    rw [presented_cons]
    refine ⟨?_, ih _ (fun x hx => h x (List.mem_cons_of_mem _ hx))⟩
    intro he
    rw [h e (List.mem_cons_self _ _)] at he
    cases he

theorem presented_append (c : Collab) (A B : List Event) :
    ∀ tr, Presented c tr A → Presented c (tr ++ A) B → Presented c tr (A ++ B) := by
  induction A with
  | nil => intro tr _ h; simpa using h
  | cons e A ih =>
    intro tr hA hB
    rw [presented_cons] at hA
    rw [List.cons_append, presented_cons]
    refine ⟨?_, ih _ hA.2 (by simpa using hB)⟩
    intro he sub hs x hx
    obtain ⟨s, hmem⟩ := hA.1 he sub hs x hx
    exact ⟨s, List.mem_append_left _ hmem⟩

theorem presented_split (c : Collab) (pre : List Event) :
    ∀ (tr post : List Event) (d : Dependency) (f : String),
      Presented c tr (pre ++ Event.read d f true :: post) →
      ∀ sub, c.Read (tr ++ pre) f = Except.ok sub →
        ∀ x ∈ sub.Map, ∃ s, Event.dup x.2 s ∈ post := by
  induction pre with
  | nil =>
    intro tr post d f h sub hs
    rw [List.nil_append, presented_cons] at h
    exact h.1 rfl sub (by simpa [Event.file] using hs)
  | cons e pre ih =>
    intro tr post d f h sub hs
    rw [List.cons_append, presented_cons] at h
    exact ih _ post d f h.2 sub (by simpa using hs)

theorem lifeShape_no_readOk (clean : Bool) (d : Dependency) (stale : Bool)
    (a1 a2 a3 a4 a5 : Option String) :
    ∀ e ∈ lifeShape clean d stale a1 a2 a3 a4 a5, e.isReadOk = false := by
  unfold lifeShape
  split_ifs <;> simp [Event.isReadOk]

theorem findNested_some {c : Collab} {Recurse : Bool} {d : Dependency} {st : St}
    {sub : DependencyMap} (h : (findNested c Recurse d st).1 = some sub) :
    findEvents c Recurse d st =
      [Event.upwardFind d (c.UpwardFind st.trace d.Path),
        Event.read d (c.UpwardFind st.trace d.Path) true] ∧
    c.Read (st.trace ++ [Event.upwardFind d (c.UpwardFind st.trace d.Path)])
      (c.UpwardFind st.trace d.Path) = Except.ok sub := by
  simp only [findEvents, findNested, St.log] at h ⊢
  by_cases hc : (c.UpwardFind st.trace d.Path != "" && Recurse) = true
  · rw [if_pos hc] at h ⊢
    cases hr : c.Read (st.trace ++ [Event.upwardFind d (c.UpwardFind st.trace d.Path)])
        (c.UpwardFind st.trace d.Path) with
    | error m => rw [hr] at h; simp at h
    | ok sub1 =>
      rw [hr] at h
      simp only [Option.some.injEq] at h
      subst h
      simp
  · rw [if_neg hc] at h
    simp at h

theorem visit_some_read {c : Collab} {clean Recurse : Bool} {d : Dependency} {st st1 : St}
    {err : Option String} {sub : DependencyMap}
    (hv : visit c clean Recurse d st = (err, some sub, st1)) :
    ∃ init f, visitEvents c clean Recurse d st = init ++ [Event.read d f true] ∧
      c.Read (st.trace ++ init) f = Except.ok sub ∧ (∀ e ∈ init, e.isReadOk = false) := by
  have hve := visitEvents_eq c clean Recurse d st
  rw [visit_eq] at hv
  by_cases hok : (lifecycle c clean d st).2.1 = true
  · rw [if_pos hok] at hv hve
    obtain ⟨a1, a2, a3, a4, a5, hl, -⟩ := lifecycle_shape c clean d st
    have hlno : ∀ e ∈ lifecycleEvents c clean d st, e.isReadOk = false := by
      rw [hl]
      exact lifeShape_no_readOk clean d _ a1 a2 a3 a4 a5
    have htr := lifecycle_trace c clean d st
    have hsub : (findNested c Recurse d (lifecycle c clean d st).2.2).1 = some sub :=
      (Prod.mk.inj (Prod.mk.inj hv).2).1
    obtain ⟨hfe, hread⟩ := findNested_some hsub
    refine ⟨lifecycleEvents c clean d st ++
        [Event.upwardFind d (c.UpwardFind (lifecycle c clean d st).2.2.trace d.Path)],
      c.UpwardFind (lifecycle c clean d st).2.2.trace d.Path, ?_, ?_, ?_⟩
    · rw [hve, hfe]; simp
    · rw [← List.append_assoc, ← htr]; exact hread
    · intro e he
      rcases List.mem_append.1 he with h | h
      · exact hlno e h
      · simp only [List.mem_singleton] at h
        subst h; rfl
  · rw [if_neg hok] at hv
    simp at hv

theorem visitShape_no_readOk (clean Recurse : Bool) (d : Dependency) (stale : Bool)
    (a1 a2 a3 a4 a5 : Option String) (f : String) (ok : Bool)
    (h : (lifeOk stale a1 a3 a4 a5 && ((f != "" && Recurse) && ok)) = false) :
    ∀ e ∈ visitShape clean Recurse d stale a1 a2 a3 a4 a5 f ok, e.isReadOk = false := by
  intro e he
  unfold visitShape at he
  rcases List.mem_append.1 he with h1 | h2
  · exact lifeShape_no_readOk clean d stale a1 a2 a3 a4 a5 e h1
  · by_cases hl : lifeOk stale a1 a3 a4 a5 = true
    · rw [if_pos hl] at h2
      rw [hl, Bool.true_and] at h
      unfold findShape at h2
      by_cases hc : (f != "" && Recurse) = true
      · rw [if_pos hc] at h2
        rw [hc, Bool.true_and] at h
        subst h
        simp only [Bool.false_eq_true, if_false, List.mem_cons, List.mem_singleton,
          List.not_mem_nil, or_false] at h2
        rcases h2 with rfl | rfl | rfl <;> rfl
      · rw [if_neg hc] at h2
        simp only [List.mem_singleton] at h2
        subst h2; rfl
    · rw [if_neg hl] at h2
      cases h2

theorem visitEvents_no_readOk {c : Collab} {clean Recurse : Bool} {d : Dependency}
    {st st1 : St} {err : Option String}
    (hv : visit c clean Recurse d st = (err, none, st1)) :
    ∀ e ∈ visitEvents c clean Recurse d st, e.isReadOk = false := by
  obtain ⟨a1, a2, a3, a4, a5, f, ok, hs, hsub⟩ := visit_shape c clean Recurse d st
  rw [hv] at hsub
  rw [hs]
  exact visitShape_no_readOk clean Recurse d _ a1 a2 a3 a4 a5 f ok (by simpa using hsub.symm)

theorem isStaleOf_eq {d : Dependency} {x : Event} (h : x.isStaleOf d = true) :
    ∃ b, x = Event.isStale d b := by
  cases x <;> simp [Event.isStaleOf] at h
  case isStale d1 b => exact ⟨b, by rw [h]⟩

theorem isVcsOf_eq {s : Step} {d : Dependency} {x : Event} (h : x.isVcsOf s d = true) :
    ∃ a, x = Event.vcs s d a := by
  cases x <;> simp [Event.isVcsOf] at h
  case vcs s1 d1 a => exact ⟨a, by rw [h.1, h.2]⟩

/-- In a walk that returns, every entry of the manifest is handed to `duplicate`,
and so is every entry of every nested manifest read on the way. -/
theorem Walk.presented {c : Collab} {clean Recurse : Bool} {l : List (String × Dependency)}
    {err : Option String} {st : St} {new : List Event} {r : Run}
    (h : Walk c clean Recurse l err st new r) :
    ∀ err1 st1, r = Run.done err1 st1 →
      (∀ e ∈ l, ∃ s, Event.dup e.2 s ∈ new) ∧ Presented c st.trace new := by
  induction h with
  | nil err st =>
    intro _ _ _
    exact ⟨fun e he => absurd he (List.not_mem_nil e), trivial⟩
  | conflict n d rest err st msg set hd => intro _ _ hr; cases hr
  | skip n d rest err st set new r hd hr ih =>
    intro err1 st1 hr1
    obtain ⟨i1, i2⟩ := ih err1 st1 hr1
    constructor
    · intro e he
      rcases List.mem_cons.1 he with rfl | he
      · exact ⟨st.set, List.mem_cons_self _ _⟩
      · obtain ⟨s, hs⟩ := i1 e he
        exact ⟨s, List.mem_cons_of_mem _ hs⟩
    · rw [presented_cons]
      exact ⟨fun h => (by cases h), i2⟩
  | leaf n d rest err st set err1 st1 new r hd hv hr ih =>
    intro err2 st2 hr2
    obtain ⟨i1, i2⟩ := ih err2 st2 hr2
    constructor
    · intro e he
      rcases List.mem_cons.1 he with rfl | he
      · exact ⟨st.set, List.mem_cons_self _ _⟩
      · obtain ⟨s, hs⟩ := i1 e he
        exact ⟨s, List.mem_cons_of_mem _ (List.mem_append_right _ hs)⟩
    · rw [presented_cons]
      refine ⟨fun h => (by cases h), ?_⟩
      apply presented_append
      · exact presented_of_no_readOk c _ _ (visitEvents_no_readOk hv)
      · rw [(visit_result hv).2] at i2
        exact i2
  | cut n d rest err st set err1 st1 sub hd hv => intro _ _ hr; cases hr
  | nested n d rest err st set err1 st1 sub new1 err2 st2 new r hd hv hn hr ihn ihr =>
    intro err3 st3 hr3
    obtain ⟨n1, n2⟩ := ihn err2 st2 rfl
    obtain ⟨r1, r2⟩ := ihr err3 st3 hr3
    constructor
    · intro e he
      rcases List.mem_cons.1 he with rfl | he
      · exact ⟨st.set, List.mem_cons_self _ _⟩
      · obtain ⟨s, hs⟩ := r1 e he
        exact ⟨s, List.mem_cons_of_mem _
          (List.mem_append_right _ (List.mem_append_right _ hs))⟩
    · rw [presented_cons]
      refine ⟨fun h => (by cases h), ?_⟩
      obtain ⟨init, f, hve, hread, hno⟩ := visit_some_read hv
      have ht1 := (visit_result hv).2
      have ht2 := hn.trace_eq
      simp only [Run.st] at ht2
      rw [ht1] at n2
      rw [ht2, ht1] at r2
      have hnr : Presented c ((st.afterDup d set).trace ++
          visitEvents c clean Recurse d (st.afterDup d set)) (new1 ++ new) :=
        presented_append c new1 new _ n2 r2
      have hat : (st.afterDup d set).trace = st.trace ++ [Event.dup d st.set] := rfl
      rw [hat] at hread hnr
      rw [hve] at hnr ⊢
      rw [List.append_assoc]
      apply presented_append
      · exact presented_of_no_readOk c _ _ hno
      · rw [List.singleton_append, presented_cons]
        refine ⟨?_, by simpa using hnr⟩
        intro _ sub1 hs1 x hx
        simp only [Event.file] at hs1
        rw [hread] at hs1
        cases hs1
        obtain ⟨s, hs⟩ := n1 x hx
        exact ⟨s, List.mem_append_left _ hs⟩
  | nestedFatal n d rest err st set err1 st1 sub new1 msg st2 hd hv hn ihn =>
    intro _ _ hr; cases hr
  | nestedCut n d rest err st set err1 st1 sub new1 st2 hd hv hn ihn =>
    intro _ _ hr; cases hr

/-- C11: take any call of `recursiveInstall`, top-level or nested, that returns
(no version conflict is reached), whatever the collaborators answer and whichever
steps fail. Every entry of its manifest is handed to `duplicate`; so is, later in
the trace, every entry of every nested manifest read during the call; and every
entry `duplicate` admits as fresh has its Clone attempted. -/
theorem siblings_all_presented (c : Collab) (clean Recurse : Bool) (fuel : Nat)
    (deps : DependencyMap) (st : St) (err : Option String) (st1 : St)
    (h : recursiveInstall c clean Recurse fuel deps st = Run.done err st1) :
    (∀ e ∈ deps.Map, ∃ s, Event.dup e.2 s ∈ newEvents c clean Recurse fuel deps st) ∧
    (∀ pre post d f sub,
      newEvents c clean Recurse fuel deps st = pre ++ Event.read d f true :: post →
      c.Read (st.trace ++ pre) f = Except.ok sub →
      ∀ e ∈ sub.Map, ∃ s, Event.dup e.2 s ∈ post) ∧
    (∀ d s, Event.dup d s ∈ newEvents c clean Recurse fuel deps st → mapGet s d.Repo = none →
      ∃ a, Event.vcs Step.Clone d a ∈ newEvents c clean Recurse fuel deps st) := by
  rcases newEvents_cases c clean Recurse fuel deps st with ⟨h0, -⟩ | hw
  · rw [h0] at h; cases h
  · obtain ⟨p1, p2⟩ := hw.presented err st1 h
    refine ⟨p1, ?_, ?_⟩
    · intro pre post d f sub htr hread
      rw [htr] at p2
      exact presented_split c pre st.trace post d f p2 sub hread
    · intro d s hmem hfresh
      obtain ⟨hchain, -, hends⟩ := hw.chain
      rw [h] at hends
      obtain ⟨pre, post, hsplit⟩ := List.append_of_mem hmem
      rw [hsplit] at hchain hends
      have hdup : (duplicate d s).1 = Res.ret false := by rw [duplicate_fresh d s hfresh]
      cases post with
      | nil =>
        exfalso
        have hres : (Event.dup d s).resumes clean Recurse :=
          hends _ (by rw [getLast_append_singleton]; rfl)
        have := hres (Event.dup d s) rfl
        simp [hdup, Event.isStaleOf] at this
      | cons x post =>
        have hx := follows_of_chain hchain
        simp only [follows_dup, hdup] at hx
        obtain ⟨b, rfl⟩ := isStaleOf_eq hx
        have hchain2 : List.Chain' (fun a b => follows clean Recurse a b = true)
            ((pre ++ [Event.dup d s]) ++ Event.isStale d b :: post) := by
          simpa using hchain
        cases post with
        | nil =>
          exfalso
          have hres : (Event.isStale d b).resumes clean Recurse :=
            hends _ (by
              rw [show pre ++ [Event.dup d s, Event.isStale d b] =
                (pre ++ [Event.dup d s]) ++ [Event.isStale d b] by simp]
              rw [getLast_append_singleton]; rfl)
          have := hres (Event.dup d s) rfl
          simp [Event.isVcsOf] at this
        | cons y post =>
          have hy := follows_of_chain hchain2
          simp only [follows_isStale] at hy
          obtain ⟨a, rfl⟩ := isVcsOf_eq hy
          exact ⟨a, by rw [hsplit]; simp⟩

/-! ## What the visited set holds at the end -/

/-- Every event of a walk other than a call of `duplicate` is about a dependency
whose repository is, when the walk ends, in the visited set with the version of
that dependency. -/
theorem Walk.versions {c : Collab} {clean Recurse : Bool} {l : List (String × Dependency)}
    {err : Option String} {st : St} {new : List Event} {r : Run}
    (h : Walk c clean Recurse l err st new r) :
    ∀ e ∈ new, e.isDup = false → mapGet r.st.set e.dep.Repo = some e.dep.Version := by
  have key : ∀ (d : Dependency) (s set : VisitedSet),
      duplicate d s = (Res.ret false, set) → mapGet set d.Repo = some d.Version := by
    intro d s set hd
    have := duplicate_ret_get d s false (by rw [hd])
    rw [hd] at this; exact this
  induction h with
  | nil err st => intro e he; cases he
  | conflict n d rest err st msg set hd =>
    intro e he hdup
    simp only [List.mem_singleton] at he
    subst he; cases hdup
  | skip n d rest err st set new r hd hr ih =>
    intro e he hdup
    rcases List.mem_cons.1 he with rfl | he
    · cases hdup
    · exact ih e he hdup
  | leaf n d rest err st set err1 st1 new r hd hv hr ih =>
    have hk : mapGet st1.set d.Repo = some d.Version := by
      rw [(visit_result hv).1]; exact key d st.set set hd
    intro e he hdup
    rcases List.mem_cons.1 he with rfl | he
    · cases hdup
    · rcases List.mem_append.1 he with he | he
      · rw [(visitEvents_nodup c clean Recurse d _ e he).1]
        exact hr.mono.1 _ _ hk
      · exact ih e he hdup
  | cut n d rest err st set err1 st1 sub hd hv =>
    have hk : mapGet st1.set d.Repo = some d.Version := by
      rw [(visit_result hv).1]; exact key d st.set set hd
    intro e he hdup
    rcases List.mem_cons.1 he with rfl | he
    · cases hdup
    · rw [(visitEvents_nodup c clean Recurse d _ e he).1]
      exact hk
  | nested n d rest err st set err1 st1 sub new1 err2 st2 new r hd hv hn hr ihn ihr =>
    have hk : mapGet st1.set d.Repo = some d.Version := by
      rw [(visit_result hv).1]; exact key d st.set set hd
    have hm : SubMap st1.set r.st.set := hn.mono.1.trans hr.mono.1
    intro e he hdup
    rcases List.mem_cons.1 he with rfl | he
    · cases hdup
    · rcases List.mem_append.1 he with he | he
      · rw [(visitEvents_nodup c clean Recurse d _ e he).1]
        exact hm _ _ hk
      · rcases List.mem_append.1 he with he | he
        · exact hr.mono.1 _ _ (ihn e he hdup)
        · exact ihr e he hdup
  | nestedFatal n d rest err st set err1 st1 sub new1 msg st2 hd hv hn ihn =>
    have hk : mapGet st1.set d.Repo = some d.Version := by
      rw [(visit_result hv).1]; exact key d st.set set hd
    intro e he hdup
    rcases List.mem_cons.1 he with rfl | he
    · cases hdup
    · rcases List.mem_append.1 he with he | he
      · rw [(visitEvents_nodup c clean Recurse d _ e he).1]
        exact hn.mono.1 _ _ hk
      · exact ihn e he hdup
  | nestedCut n d rest err st set err1 st1 sub new1 st2 hd hv hn ihn =>
    have hk : mapGet st1.set d.Repo = some d.Version := by
      rw [(visit_result hv).1]; exact key d st.set set hd
    intro e he hdup
    rcases List.mem_cons.1 he with rfl | he
    · cases hdup
    · rcases List.mem_append.1 he with he | he
      · rw [(visitEvents_nodup c clean Recurse d _ e he).1]
        exact hn.mono.1 _ _ hk
      · exact ihn e he hdup

theorem visitShape_clone_mem (clean Recurse : Bool) (d : Dependency) (stale : Bool)
    (a1 a2 a3 a4 a5 : Option String) (f : String) (ok : Bool) :
    Event.vcs Step.Clone d a1 ∈ visitShape clean Recurse d stale a1 a2 a3 a4 a5 f ok := by
  simp [visitShape, lifeShape]

theorem visit_sub_none_of_not_found (c : Collab) (clean Recurse : Bool) (d : Dependency)
    (st : St) (hnone : ∀ tr p, c.UpwardFind tr p = "") :
    (visit c clean Recurse d st).2.1 = none := by
  rw [visit_eq]
  split_ifs
  · simp [findNested, hnone]
  · rfl

/-- Without nested manifests, a walk over entries with pairwise distinct
repositories, none of them in the visited set, that returns has added one binding
per entry. -/
theorem Walk.count {c : Collab} {clean Recurse : Bool} {l : List (String × Dependency)}
    {err : Option String} {st : St} {new : List Event} {r : Run}
    (hnone : ∀ tr p, c.UpwardFind tr p = "")
    (h : Walk c clean Recurse l err st new r) :
    (l.map (fun e => e.2.Repo)).Nodup → (∀ e ∈ l, mapGet st.set e.2.Repo = none) →
      ∀ err1 st1, r = Run.done err1 st1 → st1.set.length = st.set.length + l.length := by
  induction h with
  | nil err st => intro _ _ err1 st1 hr; cases hr; rfl
  | conflict n d rest err st msg set hd => intro _ _ _ _ hr; cases hr
  | skip n d rest err st set new r hd hr ih =>
    intro _ habs _ _ _
    have h0 := habs (n, d) (List.mem_cons_self _ _)
    rw [duplicate_fresh d st.set h0] at hd
    cases hd
  | leaf n d rest err st set err1 st1 new r hd hv hr ih =>
    intro hnd habs err2 st2 hr2
    obtain ⟨h0, hset⟩ := duplicate_fresh_inv d st.set set hd
    have hs1 : st1.set = set := (visit_result hv).1
    rw [List.map_cons, List.nodup_cons] at hnd
    have := ih hnd.2 (by
      intro e he
      have hne : e.2.Repo ≠ d.Repo := by
        intro heq
        exact hnd.1 (List.mem_map.2 ⟨e, he, heq⟩)
      rw [hs1, hset, mapGet_mapSet_ne _ _ _ _ hne]
      exact habs e (List.mem_cons_of_mem _ he)) err2 st2 hr2
    rw [this, hs1, hset, mapSet_of_absent _ _ _ h0]
    simp only [List.length_cons]
    omega
  | cut n d rest err st set err1 st1 sub hd hv => intro _ _ _ _ hr; cases hr
  | nested n d rest err st set err1 st1 sub new1 err2 st2 new r hd hv hn hr ihn ihr =>
    intro _ _ _ _ _
    have := visit_sub_none_of_not_found c clean Recurse d (st.afterDup d set) hnone
    rw [hv] at this; cases this
  | nestedFatal n d rest err st set err1 st1 sub new1 msg st2 hd hv hn ihn =>
    intro _ _ _ _ hr; cases hr
  | nestedCut n d rest err st set err1 st1 sub new1 st2 hd hv hn ihn =>
    intro _ _ _ _ hr; cases hr

/-- C14: in a run of `Install` that returns (it does not end in a conflict), the
repositories in the final visited set are exactly those for which Clone was
called, whether or not the steps then succeeded, and each is mapped to the version
of the dependency that was cloned, which is the first entry admitted for it. So
when the manifest has pairwise distinct repositories and no nested manifest is
ever found, the set ends with as many bindings as the manifest has entries. -/
theorem visited_set_is_cloned_repos (c : Collab) (clean Recurse : Bool) (fuel : Nat)
    (deps : DependencyMap) (err : Option String) (st : St)
    (h : Install c clean Recurse fuel deps = Run.done err st) :
    (∀ R, mapGet st.set R ≠ none ↔
      ∃ d a, Event.vcs Step.Clone d a ∈ st.trace ∧ d.Repo = R) ∧
    (∀ d a, Event.vcs Step.Clone d a ∈ st.trace → mapGet st.set d.Repo = some d.Version) ∧
    ((deps.Map.map (fun e => e.2.Repo)).Nodup → (∀ tr p, c.UpwardFind tr p = "") →
      st.set.length = deps.Map.length) := by
  have hw := install_done_walk h
  refine ⟨?_, ?_, ?_⟩
  · intro R
    constructor
    · intro hR
      obtain ⟨d1, st1, hd1, hblock⟩ := (hw.proj R).1 ⟨rfl, hR⟩
      obtain ⟨a1, a2, a3, a4, a5, f, ok, hs, -⟩ := visit_shape c clean Recurse d1 st1
      refine ⟨d1, a1, ?_, hd1⟩
      apply mem_of_mem_ownEvents (R := R)
      rw [hblock, hs]
      exact visitShape_clone_mem clean Recurse d1 _ a1 a2 a3 a4 a5 f ok
    · rintro ⟨d, a, hmem, rfl⟩
      exact hw.present _ hmem
  · intro d a hmem
    exact hw.versions _ hmem rfl
  · intro hnd hnone
    have := hw.count hnone hnd (fun _ _ => rfl) err st rfl
    simpa [st0, Run.st] using this

/-! ## Termination on cyclic graphs -/

theorem recursiveCalls_append (l1 l2 : List Event) :
    recursiveCalls (l1 ++ l2) = recursiveCalls l1 + recursiveCalls l2 := by
  simp [recursiveCalls]

theorem recursiveCalls_dup_cons (d : Dependency) (s : VisitedSet) (l : List Event) :
    recursiveCalls (Event.dup d s :: l) = recursiveCalls l := by
  simp [recursiveCalls, Event.isReadOk]

theorem recursiveCalls_eq_zero {l : List Event} (h : ∀ e ∈ l, e.isReadOk = false) :
    recursiveCalls l = 0 := by
  unfold recursiveCalls
  rw [List.length_eq_zero, List.filter_eq_nil_iff]
  intro e he
  simp [h e he]

theorem recursiveCalls_visit_some {c : Collab} {clean Recurse : Bool} {d : Dependency}
    {st st1 : St} {err : Option String} {sub : DependencyMap}
    (hv : visit c clean Recurse d st = (err, some sub, st1)) :
    recursiveCalls (visitEvents c clean Recurse d st) = 1 := by
  obtain ⟨init, f, hve, -, hno⟩ := visit_some_read hv
  rw [hve, recursiveCalls_append, recursiveCalls_eq_zero hno]
  simp [recursiveCalls, Event.isReadOk]

/-- Every recursive call of a walk is paid for by a repository of `U` that enters
the visited set. -/
theorem Walk.calls {c : Collab} {clean Recurse : Bool} (U : List String)
    (hread : ∀ tr f sub, c.Read tr f = Except.ok sub → ∀ e ∈ sub.Map, e.2.Repo ∈ U)
    {l : List (String × Dependency)} {err : Option String} {st : St} {new : List Event}
    {r : Run} (h : Walk c clean Recurse l err st new r) :
    (∀ e ∈ l, e.2.Repo ∈ U) →
      recursiveCalls new + (missing U r.st.set).card ≤ (missing U st.set).card := by
  induction h with
  | nil err st => intro _; simp [recursiveCalls, Run.st]
  | conflict n d rest err st msg set hd =>
    intro _
    have hset : set = st.set := duplicate_set_eq d st.set set _ hd (by simp)
    subst hset
    simp [recursiveCalls, Run.st, St.afterDup, Event.isReadOk]
  | skip n d rest err st set new r hd hr ih =>
    intro hU
    have hset : set = st.set := duplicate_set_eq d st.set set _ hd (by simp)
    subst hset
    have := ih (fun e he => hU e (List.mem_cons_of_mem _ he))
    rw [recursiveCalls_dup_cons]
    simpa [St.afterDup] using this
  | leaf n d rest err st set err1 st1 new r hd hv hr ih =>
    intro hU
    obtain ⟨h0, hset⟩ := duplicate_fresh_inv d st.set set hd
    have hlt := missing_fresh U st.set d.Repo d.Version (hU (n, d) (List.mem_cons_self _ _)) h0
    have := ih (fun e he => hU e (List.mem_cons_of_mem _ he))
    rw [(visit_result hv).1] at this
    simp only [St.afterDup] at this
    rw [hset] at this
    rw [recursiveCalls_dup_cons, recursiveCalls_append,
      recursiveCalls_eq_zero (visitEvents_no_readOk hv)]
    omega
  | cut n d rest err st set err1 st1 sub hd hv =>
    intro hU
    obtain ⟨h0, hset⟩ := duplicate_fresh_inv d st.set set hd
    have hlt := missing_fresh U st.set d.Repo d.Version (hU (n, d) (List.mem_cons_self _ _)) h0
    rw [recursiveCalls_dup_cons, recursiveCalls_visit_some hv]
    simp only [Run.st]
    rw [(visit_result hv).1]
    simp only [St.afterDup]
    rw [hset]
    omega
  | nested n d rest err st set err1 st1 sub new1 err2 st2 new r hd hv hn hr ihn ihr =>
    intro hU
    obtain ⟨h0, hset⟩ := duplicate_fresh_inv d st.set set hd
    have hlt := missing_fresh U st.set d.Repo d.Version (hU (n, d) (List.mem_cons_self _ _)) h0
    obtain ⟨init, f, -, hr1, -⟩ := visit_some_read hv
    have h1 := ihn (hread _ _ _ hr1)
    have h2 := ihr (fun e he => hU e (List.mem_cons_of_mem _ he))
    simp only [Run.st] at h1
    rw [(visit_result hv).1] at h1
    simp only [St.afterDup] at h1
    rw [hset] at h1
    rw [recursiveCalls_dup_cons, recursiveCalls_append, recursiveCalls_append,
      recursiveCalls_visit_some hv]
    omega
  | nestedFatal n d rest err st set err1 st1 sub new1 msg st2 hd hv hn ihn =>
    intro hU
    obtain ⟨h0, hset⟩ := duplicate_fresh_inv d st.set set hd
    have hlt := missing_fresh U st.set d.Repo d.Version (hU (n, d) (List.mem_cons_self _ _)) h0
    obtain ⟨init, f, -, hr1, -⟩ := visit_some_read hv
    have h1 := ihn (hread _ _ _ hr1)
    rw [(visit_result hv).1] at h1
    simp only [St.afterDup] at h1
    rw [hset] at h1
    rw [recursiveCalls_dup_cons, recursiveCalls_append, recursiveCalls_visit_some hv]
    omega
  | nestedCut n d rest err st set err1 st1 sub new1 st2 hd hv hn ihn =>
    intro hU
    obtain ⟨h0, hset⟩ := duplicate_fresh_inv d st.set set hd
    have hlt := missing_fresh U st.set d.Repo d.Version (hU (n, d) (List.mem_cons_self _ _)) h0
    obtain ⟨init, f, -, hr1, -⟩ := visit_some_read hv
    have h1 := ihn (hread _ _ _ hr1)
    rw [(visit_result hv).1] at h1
    simp only [St.afterDup] at h1
    rw [hset] at h1
    rw [recursiveCalls_dup_cons, recursiveCalls_append, recursiveCalls_visit_some hv]
    omega

/-- C18: `recursiveInstall` terminates, also on cyclic dependency graphs. If the
repositories of the top-level manifest and of every manifest `dep.Read` can return
all lie in a finite list `U`, then every nesting bound larger than the length of
`U` is enough for the run to end (it returns or reaches `util.Fatal`), and the run
makes at most as many recursive calls as `U` has repositories: each recursive call
follows a fresh admission, which moves a repository of `U` into the visited
set. -/
theorem terminates_on_finite_repos (c : Collab) (clean Recurse : Bool) (U : List String)
    (deps : DependencyMap) (st : St)
    (hdeps : ∀ e ∈ deps.Map, e.2.Repo ∈ U)
    (hread : ∀ tr f sub, c.Read tr f = Except.ok sub → ∀ e ∈ sub.Map, e.2.Repo ∈ U)
    (fuel : Nat) (hfuel : U.length < fuel) :
    (recursiveInstall c clean Recurse fuel deps st).isOut = false ∧
    recursiveCalls (newEvents c clean Recurse fuel deps st) ≤ U.length := by
  constructor
  · apply recursiveInstall_terminates c clean Recurse (fun d => d.Repo ∈ U) U (fun _ h => h)
      _ fuel deps st hdeps (lt_of_le_of_lt (missing_card_le U _) hfuel)
    intro d s err sub s1 _ hv
    obtain ⟨init, f, -, hr1, -⟩ := visit_some_read hv
    exact hread _ _ _ hr1
  · rcases newEvents_cases c clean Recurse fuel deps st with ⟨-, h0⟩ | hw
    · rw [h0]; simp [recursiveCalls]
    · have := hw.calls U hread hdeps
      have hle := missing_card_le U st.set
      omega

/-! ## The value `Install` returns -/

theorem lifecycle_err_shape (c : Collab) (clean : Bool) (d : Dependency) (st : St) :
    ∃ a1 a2 a3 a4 a5,
      lifecycleEvents c clean d st
        = lifeShape clean d (c.IsStale st.trace d.Repo) a1 a2 a3 a4 a5 ∧
      (lifecycle c clean d st).1 = lifeErr (c.IsStale st.trace d.Repo) a1 a3 a4 a5 := by
  let stale := c.IsStale st.trace d.Repo
  let t1 := st.trace ++ [Event.isStale d stale]
  let a1 := c.Clone t1 d
  let t2 := t1 ++ [Event.vcs Step.Clone d a1, Event.cd d]
  let a2 := c.Clean t2 d
  let t3 := if clean then t2 ++ [Event.vcs Step.Clean d a2] else t2
  let a3 := c.Fetch t3 d
  let t4 := if stale then t3 ++ [Event.vcs Step.Fetch d a3] else t3
  let a4 := c.Checkout t4 d
  let t5 := t4 ++ [Event.vcs Step.Checkout d a4]
  let a5 := c.Update t5 d
  refine ⟨a1, a2, a3, a4, a5, ?_⟩
  simp only [lifecycleEvents, lifecycle, St.log, lifeShape, lifeErr, a1, a2, a3, a4, a5, t1, t2,
    t3, t4, t5, stale]
  split_ifs <;> simp_all [Option.isSome_iff_ne_none]

theorem lifeShape_firstFailure (clean : Bool) (d : Dependency) (stale : Bool)
    (a1 a2 a3 a4 a5 : Option String) :
    firstFailure (lifeShape clean d stale a1 a2 a3 a4 a5) = lifeErr stale a1 a3 a4 a5 := by
  unfold firstFailure lifeShape lifeErr
  cases a1 <;> cases a3 <;> cases a4 <;> cases a5 <;> cases clean <;> cases stale <;>
    simp [List.findSome?, Event.failure]

theorem lifecycle_err_eq (c : Collab) (clean : Bool) (d : Dependency) (st : St) :
    (lifecycle c clean d st).1 = firstFailure (lifecycleEvents c clean d st) := by
  obtain ⟨a1, a2, a3, a4, a5, hs, herr⟩ := lifecycle_err_shape c clean d st
  rw [hs, herr, lifeShape_firstFailure]

theorem visit_err_eq (c : Collab) (clean Recurse : Bool) (d : Dependency) (st : St) :
    (visit c clean Recurse d st).1 = firstFailure (lifecycleEvents c clean d st) := by
  rw [visit_eq, ← lifecycle_err_eq]
  split_ifs <;> rfl

theorem installLoop_append (c : Collab) (clean Recurse : Bool)
    (recurse : DependencyMap → St → Run) (l1 l2 : List (String × Dependency)) :
    ∀ err st, installLoop c clean Recurse recurse (l1 ++ l2) err st =
      match installLoop c clean Recurse recurse l1 err st with
      | Run.done e s => installLoop c clean Recurse recurse l2 e s
      | Run.fatal m s => Run.fatal m s
      | Run.outOfFuel s => Run.outOfFuel s := by
  induction l1 with
  | nil => intro err st; simp [installLoop]
  | cons e rest ih =>
    intro err st
    obtain ⟨n, d⟩ := e
    rw [List.cons_append]
    rcases hd : duplicate d st.set with ⟨res, set⟩
    rcases res with (_ | _) | msg
    · rcases hv : visit c clean Recurse d (st.afterDup d set) with ⟨err1, sub, st1⟩
      cases sub with
      | none =>
        rw [installLoop_leaf c clean Recurse recurse n d _ err st set err1 st1 hd hv,
          installLoop_leaf c clean Recurse recurse n d _ err st set err1 st1 hd hv]
        exact ih err1 st1
      | some sub =>
        rw [installLoop_nested c clean Recurse recurse n d _ err st set err1 sub st1 hd hv,
          installLoop_nested c clean Recurse recurse n d _ err st set err1 sub st1 hd hv]
        cases recurse sub st1 with
        | done e2 st2 => exact ih err1 st2
        | fatal m s => rfl
        | outOfFuel s => rfl
    · rw [installLoop_skip c clean Recurse recurse n d _ err st set hd,
        installLoop_skip c clean Recurse recurse n d _ err st set hd]
      exact ih err _
    · rw [installLoop_exit c clean Recurse recurse n d _ err st msg set hd,
        installLoop_exit c clean Recurse recurse n d _ err st msg set hd]

theorem installLoop_all_present (c : Collab) (clean Recurse : Bool)
    (recurse : DependencyMap → St → Run) (l : List (String × Dependency)) :
    ∀ err st err1 st1, (∀ e ∈ l, mapGet st.set e.2.Repo ≠ none) →
      installLoop c clean Recurse recurse l err st = Run.done err1 st1 → err1 = err := by
  induction l with
  | nil =>
    intro err st err1 st1 _ h
    simp only [installLoop] at h
    exact (Run.done.inj h).1.symm
  | cons e rest ih =>
    intro err st err1 st1 hp h
    obtain ⟨n, d⟩ := e
    have hpd := hp (n, d) (List.mem_cons_self _ _)
    cases hg : mapGet st.set d.Repo with
    | none => exact absurd hg hpd
    | some w =>
      by_cases hw : w = d.Version
      · subst hw
        rw [installLoop_skip c clean Recurse recurse n d rest err st st.set
          (duplicate_skip d st.set hg)] at h
        exact ih err (st.afterDup d st.set) err1 st1
          (fun e he => hp e (List.mem_cons_of_mem _ he)) h
      · rw [installLoop_exit c clean Recurse recurse n d rest err st _ st.set
          (duplicate_conflict d st.set w hg hw)] at h
        cases h

theorem installLoop_single_fresh (c : Collab) (clean Recurse : Bool)
    (recurse : DependencyMap → St → Run) (n : String) (d : Dependency)
    (err : Option String) (st : St) (err1 : Option String) (st1 : St)
    (hfresh : mapGet st.set d.Repo = none)
    (h : installLoop c clean Recurse recurse [(n, d)] err st = Run.done err1 st1) :
    err1 = firstFailure
      (lifecycleEvents c clean d (st.afterDup d (mapSet st.set d.Repo d.Version))) := by
  have hd := duplicate_fresh d st.set hfresh
  rw [← visit_err_eq c clean Recurse]
  rcases hv : visit c clean Recurse d (st.afterDup d (mapSet st.set d.Repo d.Version)) with
    ⟨e1, sub, s1⟩
  cases sub with
  | none =>
    rw [installLoop_leaf c clean Recurse recurse n d [] err st _ e1 s1 hd hv] at h
    simp only [installLoop] at h
    exact (Run.done.inj h).1.symm
  | some sub =>
    rw [installLoop_nested c clean Recurse recurse n d [] err st _ e1 sub s1 hd hv] at h
    cases hr : recurse sub s1 with
    | done e2 s2 =>
      rw [hr] at h
      simp only [installLoop] at h
      exact (Run.done.inj h).1.symm
    | fatal m s => rw [hr] at h; cases h
    | outOfFuel s => rw [hr] at h; cases h

/-- C19: in a run of `recursiveInstall` that returns, the value returned is decided
by the last entry of the manifest admitted as fresh. If the entries before `d` have
been walked and left a set without the repository of `d` (so `d` is admitted), and
every entry after `d` finds its repository in the set left once `d` is done (so
none of them is admitted), the value returned is the error of the first failed
step among Clone, Fetch, Checkout and Update of `d`, nil when none failed: failures
on earlier entries, failures of Clean and anything that happens in nested
manifests do not show. If no entry at all is admitted, the value is nil. -/
theorem returned_error_of_last_fresh (c : Collab) (clean Recurse : Bool) (fuel : Nat) :
    (∀ (pre post : List (String × Dependency)) (n : String) (d : Dependency) (st s0 s1 s2 : St)
        (e0 e1 err : Option String),
      recursiveInstall c clean Recurse (fuel + 1) ⟨pre⟩ st = Run.done e0 s0 →
      mapGet s0.set d.Repo = none →
      recursiveInstall c clean Recurse (fuel + 1) ⟨pre ++ [(n, d)]⟩ st = Run.done e1 s1 →
      (∀ e ∈ post, mapGet s1.set e.2.Repo ≠ none) →
      recursiveInstall c clean Recurse (fuel + 1) ⟨pre ++ (n, d) :: post⟩ st = Run.done err s2 →
      err = firstFailure
        (lifecycleEvents c clean d (s0.afterDup d (mapSet s0.set d.Repo d.Version)))) ∧
    (∀ (l : List (String × Dependency)) (st s2 : St) (err : Option String),
      (∀ e ∈ l, mapGet st.set e.2.Repo ≠ none) →
      recursiveInstall c clean Recurse (fuel + 1) ⟨l⟩ st = Run.done err s2 → err = none) := by
  constructor
  · intro pre post n d st s0 s1 s2 e0 e1 err hpre hfresh hmid hpost hrun
    simp only [recursiveInstall] at hpre hmid hrun
    rw [installLoop_append, hpre] at hmid
    simp only at hmid
    have he1 := installLoop_single_fresh c clean Recurse _ n d e0 s0 e1 s1 hfresh hmid
    rw [show pre ++ (n, d) :: post = pre ++ ([(n, d)] ++ post) by simp,
      installLoop_append, hpre] at hrun
    simp only at hrun
    rw [installLoop_append, hmid] at hrun
    simp only at hrun
    rw [installLoop_all_present c clean Recurse _ post e1 s1 err s2 hpost hrun]
    exact he1
  · intro l st s2 err hp hrun
    simp only [recursiveInstall] at hrun
    exact installLoop_all_present c clean Recurse _ l none st err s2 hp hrun

/-! ## More examples -/

theorem siblings_all_presented_witness :
    recursiveInstall (exWorld false exCloneFailsB []) false true 1
        ⟨[("b", exB), ("a", exA)]⟩ st0 =
      Run.done none (recursiveInstall (exWorld false exCloneFailsB []) false true 1
        ⟨[("b", exB), ("a", exA)]⟩ st0).st ∧
    ∃ a, Event.vcs Step.Clone exA a ∈
      newEvents (exWorld false exCloneFailsB []) false true 1 ⟨[("b", exB), ("a", exA)]⟩ st0 :=
  ⟨by decide,
   (siblings_all_presented (exWorld false exCloneFailsB []) false true 1
      ⟨[("b", exB), ("a", exA)]⟩ st0 none
      (recursiveInstall (exWorld false exCloneFailsB []) false true 1
        ⟨[("b", exB), ("a", exA)]⟩ st0).st
      (by decide)).2.2 exA [("github.com/x/b", "v1")]
      (by decide) (by decide)⟩

theorem visited_set_is_cloned_repos_witness :
    Install exOk false true 1 ⟨[("a", exA), ("b", exB)]⟩ =
      Run.done none (Install exOk false true 1 ⟨[("a", exA), ("b", exB)]⟩).st ∧
    (Install exOk false true 1 ⟨[("a", exA), ("b", exB)]⟩).st.set.length = 2 :=
  ⟨by decide,
   (visited_set_is_cloned_repos exOk false true 1 ⟨[("a", exA), ("b", exB)]⟩ none
      (Install exOk false true 1 ⟨[("a", exA), ("b", exB)]⟩).st
      (by decide)).2.2 (by decide) (fun _ _ => rfl)⟩

theorem depth_first_order_witness :
    (installLoop exNestB false true (recursiveInstall exNestB false true 1)
        [("a", exA), ("c", exC)] none st0).st.trace =
      [Event.dup exA [], Event.isStale exA false, Event.vcs Step.Clone exA none, Event.cd exA,
        Event.vcs Step.Checkout exA none, Event.upwardFind exA "src/a/deps.json",
        Event.read exA "src/a/deps.json" true,
        Event.dup exB [("github.com/x/a", "v1")], Event.isStale exB false,
        Event.vcs Step.Clone exB none, Event.cd exB, Event.vcs Step.Checkout exB none,
        Event.upwardFind exB "",
        Event.dup exC [("github.com/x/b", "v1"), ("github.com/x/a", "v1")],
        Event.isStale exC false, Event.vcs Step.Clone exC none, Event.cd exC,
        Event.vcs Step.Checkout exC none, Event.upwardFind exC ""] :=
  (depth_first_order exNestB false true 1 "a" exA [("c", exC)] none st0
    [("github.com/x/a", "v1")] none ⟨[("b", exB)]⟩
    (visit exNestB false true exA (st0.afterDup exA [("github.com/x/a", "v1")])).2.2
    none
    (recursiveInstall exNestB false true 1 ⟨[("b", exB)]⟩
      (visit exNestB false true exA (st0.afterDup exA [("github.com/x/a", "v1")])).2.2).st
    (by decide) (by decide) (by decide)).trans (by decide)

theorem exCycle_read (tr : List Event) (f : String) (sub : DependencyMap)
    (h : exCycle.Read tr f = Except.ok sub) :
    ∀ e ∈ sub.Map, e.2.Repo ∈ ["github.com/x/a", "github.com/x/b"] := by
  simp only [exCycle, exWorld, List.lookup] at h
  by_cases h1 : (f == "src/a/deps.json") = true
  · simp only [h1] at h
    cases h
    decide
  · simp only [Bool.not_eq_true] at h1
    simp only [h1] at h
    by_cases h2 : (f == "src/b/deps.json") = true
    · simp only [h2] at h
      cases h
      decide
    · simp only [Bool.not_eq_true] at h2
      simp only [h2] at h
      cases h

theorem terminates_on_finite_repos_witness :
    (recursiveInstall exCycle false true 3 ⟨[("a", exA)]⟩ st0).isOut = false ∧
    recursiveCalls (newEvents exCycle false true 3 ⟨[("a", exA)]⟩ st0) ≤
      ["github.com/x/a", "github.com/x/b"].length :=
  terminates_on_finite_repos exCycle false true ["github.com/x/a", "github.com/x/b"]
    ⟨[("a", exA)]⟩ st0 (by decide) exCycle_read 3 (by decide)

theorem returned_error_of_last_fresh_witness :
    recursiveInstall (exWorld true exFetchFailsA []) false true 1
        ⟨[("b", exB), ("a", exA), ("b2", exB)]⟩ st0 =
      Run.done (some "fetch failed")
        (recursiveInstall (exWorld true exFetchFailsA []) false true 1
          ⟨[("b", exB), ("a", exA), ("b2", exB)]⟩ st0).st ∧
    some "fetch failed" =
      firstFailure (lifecycleEvents (exWorld true exFetchFailsA []) false exA
        ((recursiveInstall (exWorld true exFetchFailsA []) false true 1
            ⟨[("b", exB)]⟩ st0).st.afterDup exA
          (mapSet (recursiveInstall (exWorld true exFetchFailsA []) false true 1
            ⟨[("b", exB)]⟩ st0).st.set exA.Repo exA.Version))) :=
  ⟨by decide,
   (returned_error_of_last_fresh (exWorld true exFetchFailsA []) false true 0).1
    [("b", exB)] [("b2", exB)] "a" exA st0
    (recursiveInstall (exWorld true exFetchFailsA []) false true 1 ⟨[("b", exB)]⟩ st0).st
    (recursiveInstall (exWorld true exFetchFailsA []) false true 1
      ⟨[("b", exB), ("a", exA)]⟩ st0).st
    (recursiveInstall (exWorld true exFetchFailsA []) false true 1
      ⟨[("b", exB), ("a", exA), ("b2", exB)]⟩ st0).st
    none (some "fetch failed") (some "fetch failed")
    (by decide) (by decide) (by decide) (by decide) (by decide)⟩

end Depman
